import Mathlib

/-!
A two-pass MIPS assembler (`asm.cc`): embedding and verified properties

The development follows `asm.cc`.  The scanner (`scanner.h`, `scan`) is not part
of the sources; its `Token` type is taken from the specification.  The input of
the assembler is the list of token lines the scanner produced, one per source
line (a run in which the scanner itself fails is not modelled).

Machine integers are mathematical integers with explicit two's-complement
wrapping at every C++ conversion and shift (LP64: `short` 16 bits, `int` 32 bits,
`long` and `long long` 64 bits).  The two program counters `PC` and
`PCSecondPass` are `int`s that grow by 4 per instruction-line; they are modelled
without wrapping, which is exact for programs of fewer than 2^29
instruction-lines (beyond that the C++ addition overflows, which is undefined).
-/

namespace Asm

/-! ## Tokens -/

/-- Modelled from the spec: the token kinds of `scanner.h` (absent from the
sources), the fixed set LABEL, WORD, ID, REG, INT, HEXINT, COMMA, LPAREN,
RPAREN. -/
inductive Kind where
  | LABEL | WORD | ID | REG | INT | HEXINT | COMMA | LPAREN | RPAREN
  deriving DecidableEq, Repr

/-- Modelled from the spec: the `Token` class of `scanner.h` (absent from the
sources): a kind, a lexeme, and for the numeric kinds the signed 64-bit value
that `toLong()` returns (field `value`). -/
structure Token where
  kind : Kind
  lexeme : String
  value : Int
  deriving DecidableEq, Repr

def Token.getKind (t : Token) : Kind := t.kind

def Token.getLexeme (t : Token) : String := t.lexeme

def Token.toLong (t : Token) : Int := t.value

/-- The type `TokenLine` of `asm.cc`: `vector<Token>`. -/
abbrev TokenLine := List Token

/-- The type `AssemblyCode` of `asm.cc`: `vector<TokenLine>`. -/
abbrev AssemblyCode := List TokenLine

/-- The type `Dictionary` of `asm.cc`: `unordered_map<string, int>`, as an
association list in which a key is entered only when it is absent. -/
abbrev Dictionary := List (String × Int)

/-- The class `ParseError` of `parse_error.h`. -/
structure ParseError where
  content : String
  deriving DecidableEq, Repr

def ParseError.getMessage (e : ParseError) : String := e.content

/-! ## Machine arithmetic -/

/-- Conversion of an integer value to `short` (16 bits, two's complement). -/
def toShort (v : Int) : Int := (v + 32768) % 65536 - 32768

/-- Conversion of an integer value to `int` (32 bits, two's complement). -/
def toInt (v : Int) : Int := (v + 2147483648) % 4294967296 - 2147483648

/-- Conversion of an integer value to `unsigned int` (32 bits). -/
def toUnsignedInt (v : Int) : Int := v % 4294967296

/-- Conversion of an integer value to `long long` (64 bits, two's complement). -/
def toLongLong (v : Int) : Int :=
  (v + 9223372036854775808) % 18446744073709551616 - 9223372036854775808

/-- The 32-bit two's-complement pattern of an `int`. -/
def bits32 (v : Int) : Nat := (v % 4294967296).toNat

/-- The 64-bit two's-complement pattern of a `long long`. -/
def bits64 (v : Int) : Nat := (v % 18446744073709551616).toNat

/-- The C++ `a << k` on `int`. -/
def shl32 (a : Int) (k : Nat) : Int := toInt (a * 2 ^ k)

/-- The C++ `a | b` on `int`. -/
def or32 (a b : Int) : Int := toInt ((bits32 a ||| bits32 b : Nat) : Int)

/-- The C++ `a & b` on `int`. -/
def and32 (a b : Int) : Int := toInt ((bits32 a &&& bits32 b : Nat) : Int)

/-- The C++ `a << k` on `long long`. -/
def shl64 (a : Int) (k : Nat) : Int := toLongLong (a * 2 ^ k)

/-- The C++ `a | b` on `long long` (an `int` operand is sign-extended, which
keeps its value). -/
def or64 (a b : Int) : Int := toLongLong ((bits64 a ||| bits64 b : Nat) : Int)

/-- The C++ `a & b` on `long long`. -/
def and64 (a b : Int) : Int := toLongLong ((bits64 a &&& bits64 b : Nat) : Int)

/-! ## Constants and range validators -/

def HEXADECIMAL_MIN : Int := 0
def DECIMAL_MIN : Int := -2147483648
def DECIMAL_MAX : Int := 4294967295
def HEXADECIMAL_MAX : Int := 4294967295
def HEXADECIMAL_IMMEDIATE_MIN : Int := 0
def HEXADECIMAL_IMMEDIATE_MAX : Int := 65535
def DECIMAL_IMMEDIATE_MIN : Int := -32768
def DECIMAL_IMMEDIATE_MAX : Int := 32767
def LABEL_IMMEDIATE_MIN : Int := -32768
def LABEL_IMMEDIATE_MAX : Int := 32767

/-- The function `printNumber(long value)`: the four bytes written to the
output, each the `char` truncation of `value >> (24 - 8 * i)`. -/
def printNumber (value : Int) : List Nat :=
  (List.range 4).map fun (i : Nat) =>
    let bitsToShift : Nat := 24 - 8 * i
    ((value >>> bitsToShift) % 256).toNat

/-- The function `hexadecimalNumberIsInRange(long num)`. -/
def hexadecimalNumberIsInRange (num : Int) : Bool :=
  decide (HEXADECIMAL_MIN ≤ num) && decide (num ≤ HEXADECIMAL_MAX)

/-- The function `decimalNumberIsInRange(long num)`. -/
def decimalNumberIsInRange (num : Int) : Bool :=
  decide (DECIMAL_MIN ≤ num) && decide (num ≤ DECIMAL_MAX)

/-- The method `at` of a `Dictionary`: `none` stands for `out_of_range`. -/
def Dictionary.lookupAt (table : Dictionary) (key : String) : Option Int :=
  List.lookup key table

/-- The function `labelIsNotPreviouslyDefined`. -/
def labelIsNotPreviouslyDefined (labelName : String) (table : Dictionary) : Bool :=
  (table.lookupAt labelName).isNone

/-- The function `registerNumberInRange(const int registerNumber)`; the
argument is converted to `int` at the call. -/
def registerNumberInRange (registerNumber : Int) : Bool :=
  decide (toInt registerNumber ≥ 0) && decide (toInt registerNumber ≤ 31)

/-- The function `hexadecimalImmediateOutOfBound(long long number)`. -/
def hexadecimalImmediateOutOfBound (number : Int) : Bool :=
  decide (number > HEXADECIMAL_IMMEDIATE_MAX) || decide (number < HEXADECIMAL_IMMEDIATE_MIN)

/-- The function `decimalImmediateOutOfBound(long long number)`. -/
def decimalImmediateOutOfBound (number : Int) : Bool :=
  decide (number > DECIMAL_IMMEDIATE_MAX) || decide (number < DECIMAL_IMMEDIATE_MIN)

/-- The function `labelImmediateOutOfBound(long long label)`. -/
def labelImmediateOutOfBound (label : Int) : Bool :=
  decide (label > LABEL_IMMEDIATE_MAX) || decide (label < LABEL_IMMEDIATE_MIN)

/-- The table `opcode` filled at the start of `main`. -/
def opcode : Dictionary :=
  [("add", 0x20), ("sub", 0x22), ("slt", 0x2a), ("sltu", 0x2b), ("jr", 0x8),
   ("jalr", 0x9), ("beq", 0x4), ("bne", 0x5), ("lis", 0x14), ("mfhi", 0x10),
   ("mflo", 0x12), ("mult", 0x18), ("multu", 0x19), ("div", 0x1a), ("divu", 0x1b),
   ("lw", 0x23), ("sw", 0x2b)]

/-! ## First pass -/

/-- The call `s.substr(pos, n)` of `std::string`. -/
def substr (s : String) (pos n : Nat) : String := String.mk ((s.data.drop pos).take n)

/-- The name a LABEL token defines: its lexeme without the last character
(`token.getLexeme().substr(0, labelLength - 1)`). -/
def labelNameOf (token : Token) : String :=
  let labelLength := token.getLexeme.length
  substr token.getLexeme 0 (labelLength - 1)

/-- The token loop of the first pass over one source line (`asm.cc`, the
`for (auto &token: tokenLine)` loop), from the current symbol table and the
tokens kept so far. -/
def firstPassTokens (PC : Int) :
    TokenLine → Dictionary → TokenLine → Except ParseError (Dictionary × TokenLine)
  | [], symbolTable, secondPass => .ok (symbolTable, secondPass)
  | token :: rest, symbolTable, secondPass =>
    if token.getKind = Kind.LABEL then
      if secondPass.isEmpty then
        let labelName := labelNameOf token
        if labelIsNotPreviouslyDefined labelName symbolTable then
          firstPassTokens PC rest ((labelName, PC) :: symbolTable) secondPass
        else
          .error ⟨"(1st Pass): Label \"" ++ labelName ++ "\" is previously defined."⟩
      else
        .error ⟨"(1st Pass): Label is not the first element of a line."⟩
    else
      firstPassTokens PC rest symbolTable (secondPass ++ [token])

/-- The first pass (`asm.cc`, the `while (getline(cin, line))` loop): the symbol
table and the list of instruction-lines, or the first error. -/
def firstPass :
    List TokenLine → Dictionary → Int → AssemblyCode → Except ParseError (Dictionary × AssemblyCode)
  | [], symbolTable, _, code => .ok (symbolTable, code)
  | tokenLine :: rest, symbolTable, PC, code =>
    if tokenLine.isEmpty then firstPass rest symbolTable PC code
    else
      match firstPassTokens PC tokenLine symbolTable [] with
      | .error e => .error e
      | .ok (symbolTable1, secondPass) =>
        if !secondPass.isEmpty then
          firstPass rest symbolTable1 (PC + 4) (code ++ [secondPass])
        else
          firstPass rest symbolTable1 PC code

/-! ## Second pass -/

/-- The element `codeLine[k]`.  Element 0 exists because the first pass stores
only non-empty lines, and every other use follows the size check of its branch,
so the default is never returned there. -/
def nth (codeLine : TokenLine) (k : Nat) : Token :=
  codeLine.getD k ⟨Kind.ID, "", 0⟩

/-- The branch of the second pass for a line starting with a WORD token
(`.word`): the value handed to `printNumber`, or the error thrown. -/
def encodeWord (symbolTable : Dictionary) (codeLine : TokenLine) : Except ParseError Int :=
  if codeLine.length ≠ 2 then
    .error ⟨"(1st Pass): Incorrect number of parameters after \".word\" keyword."⟩
  else
    let token := nth codeLine 1
    if token.getKind = Kind.HEXINT then
      let hexaValue := toUnsignedInt token.toLong
      if hexadecimalNumberIsInRange hexaValue then .ok hexaValue
      else .error ⟨"(1st Pass): Hexadecimal number NOT IN RANGE"⟩
    else if token.getKind = Kind.INT then
      let decimalValue := token.toLong
      if decimalNumberIsInRange decimalValue then .ok decimalValue
      else .error ⟨"(2nd Pass) Decimal number NOT IN RANGE"⟩
    else if token.getKind = Kind.ID then
      match symbolTable.lookupAt token.getLexeme with
      | some value => .ok value
      | none => .error ⟨"(2nd Pass) Attempt to retrive an undefined label."⟩
    else
      .error ⟨"(2nd Pass) Unexpected token type following .word"⟩

/-- The branch for `jr` and `jalr`. -/
def encodeJr (codeLine : TokenLine) : Except ParseError Int :=
  if codeLine.length ≠ 2 then
    .error ⟨"(2nd Pass): Incorrect number of paramaters after JR/JALR Command"⟩
  else
    match opcode.lookupAt (nth codeLine 0).getLexeme with
    | none => .error ⟨"(2nd Pass): Attempt to access undefined element"⟩
    | some opcodeForCommand =>
      let token := nth codeLine 1
      if token.getKind ≠ Kind.REG then
        .error ⟨"(2nd Pass): Element followed JR/JALR is not a rigister"⟩
      else
        let registerNum := toShort token.toLong
        if !registerNumberInRange registerNum then
          .error ⟨"(2nd Pass):  Register Number followed JR/JALR command is out of bound"⟩
        else
          .ok (or32 (or32 (or32 (shl32 0 26) (shl32 registerNum 21)) (shl32 0 16))
                (and32 opcodeForCommand 0xffff))

/-- The branch for `add`, `sub`, `slt`, `sltu`. -/
def encodeAdd (codeLine : TokenLine) : Except ParseError Int :=
  if codeLine.length ≠ 6 then
    .error ⟨"(2nd Pass): Incorrect number of paramters following add/sub/slt/sltu"⟩
  else if (nth codeLine 2).getKind ≠ Kind.COMMA ∨ (nth codeLine 4).getKind ≠ Kind.COMMA then
    .error ⟨"(2nd Pass): add/sub/slt/slut[2] and [4] should be comma(s)."⟩
  else
    match opcode.lookupAt (nth codeLine 0).getLexeme with
    | none =>
      .error ⟨"(2nd Pass): Attempt to access undefined label in an add/sub/slt/sltu command."⟩
    | some opcodeForCommand =>
      let token := nth codeLine 1
      if token.getKind ≠ Kind.REG then
        .error ⟨"(2nd Pass): add/sub/slt/sltu[1] should be a register."⟩
      else
        let valueOfRegisterD := token.toLong
        if !registerNumberInRange valueOfRegisterD then
          .error ⟨"(2nd Pass): Register D of add/sub/slt/sltu is out of range."⟩
        else
          let token := nth codeLine 3
          if token.getKind ≠ Kind.REG then
            .error ⟨"(2nd Pass): add/sub/slt/sltu[3] should be a register."⟩
          else
            let valueOfRegisterS := token.toLong
            if !registerNumberInRange valueOfRegisterS then
              .error ⟨"(2nd Pass): Register S of add/sub/slt/sltu is out of range."⟩
            else
              let token := nth codeLine 5
              if token.getKind ≠ Kind.REG then
                .error ⟨"(2nd Pass): add/sub/slt/sltu[5] should be a register."⟩
              else
                let valueOfRegisterT := token.toLong
                if !registerNumberInRange valueOfRegisterT then
                  .error ⟨"(2nd Pass): Register T of add/sub/slt/sltu is out of range."⟩
                else
                  .ok (toInt (or64 (or64 (or64 (or64 (shl32 0 26) (shl64 valueOfRegisterS 21))
                    (shl64 valueOfRegisterT 16)) (shl64 valueOfRegisterD 11))
                    (and32 opcodeForCommand 0xffff)))

/-- The immediate of a `beq`/`bne` line (`asm.cc`, the chain on the kind of
`codeLine[5]`): the value of `valueI`, or the error thrown.  The quotient of the
label offset is the C++ `/` on `int` (truncation toward zero); an absent label
is the `out_of_range` that the branch rethrows as a `ParseError`. -/
def immediateBeq (symbolTable : Dictionary) (PCSecondPass : Int) (token : Token) :
    Except ParseError Int :=
  if token.getKind = Kind.INT then
    let valueI := token.toLong
    if decimalImmediateOutOfBound valueI then
      .error ⟨"(2nd Pass): Decimal immediate after beq/bne is out of range."⟩
    else .ok valueI
  else if token.getKind = Kind.HEXINT then
    let valueI := token.toLong
    if hexadecimalImmediateOutOfBound valueI then
      .error ⟨"(2nd Pass): Hexadecimal immediate after beq/bne is out of range."⟩
    else .ok valueI
  else if token.getKind = Kind.ID then
    match symbolTable.lookupAt token.getLexeme with
    | none => .error ⟨"(2nd Pass): Attempt to jump to undefined label after beq/bne"⟩
    | some address =>
      let valueI := Int.tdiv (address - PCSecondPass - 4) 4
      if labelImmediateOutOfBound valueI then
        .error ⟨"(2nd Pass) Label immediate after beq/bne is out of range."⟩
      else .ok valueI
  else
    .error ⟨"(2nd Pass): Unexpected token type at beq/bne[5]"⟩

/-- The immediate of an `lw`/`sw` line (`asm.cc`, the chain on the kind of
`codeLine[3]`): the value of `valueOfImmediate`, or the error thrown. -/
def immediateLw (token : Token) : Except ParseError Int :=
  if token.getKind = Kind.INT then
    let valueOfImmediate := token.toLong
    if decimalImmediateOutOfBound valueOfImmediate then
      .error ⟨"(2nd Pass): Decimal Immediate of lw/sw is out of range."⟩
    else .ok valueOfImmediate
  else if token.getKind = Kind.HEXINT then
    let valueOfImmediate := token.toLong
    if hexadecimalImmediateOutOfBound valueOfImmediate then
      .error ⟨"(2nd Pass): Hexadecimal immediate of lw/sw is out of range."⟩
    else .ok valueOfImmediate
  else
    .error ⟨"(2nd Pass): Expecting a decimal/hexadecimal immediate at lw/sw[3]."⟩

/-- The branch for `beq` and `bne`; `PCSecondPass` is the counter of the second
pass at this line. -/
def encodeBeq (symbolTable : Dictionary) (PCSecondPass : Int) (codeLine : TokenLine) :
    Except ParseError Int :=
  if codeLine.length ≠ 6 then
    .error ⟨"(2nd Pass): Incorrect number of paramters following beq/bne."⟩
  else if (nth codeLine 2).getKind ≠ Kind.COMMA ∨ (nth codeLine 4).getKind ≠ Kind.COMMA then
    .error ⟨"(2nd Pass): Expecting a comma after an beq/bne command."⟩
  else
    match opcode.lookupAt (nth codeLine 0).getLexeme with
    | none => .error ⟨"(2nd Pass): Attempt to jump to undefined label after beq/bne"⟩
    | some opcodeForCommand =>
      let token := nth codeLine 1
      if token.getKind ≠ Kind.REG then
        .error ⟨"(2nd Pass): beq/bne[1] should be a register."⟩
      else
        let valueOfRegisterS := token.toLong
        if !registerNumberInRange valueOfRegisterS then
          .error ⟨"(2nd Pass): Register D of beq/bne is out of range."⟩
        else
          let token := nth codeLine 3
          if token.getKind ≠ Kind.REG then
            .error ⟨"(2nd Pass): beq/bne[3] should be a register."⟩
          else
            let valueOfRegisterT := token.toLong
            if !registerNumberInRange valueOfRegisterT then
              .error ⟨"(2nd Pass): Register S of beq/bne is out of range."⟩
            else
              let token := nth codeLine 5
              match immediateBeq symbolTable PCSecondPass token with
              | .error e => .error e
              | .ok valueI =>
                .ok (toInt (or64 (or64 (or64 (shl32 opcodeForCommand 26)
                  (shl64 valueOfRegisterS 21)) (shl64 valueOfRegisterT 16))
                  (and64 valueI 0xffff)))

/-- The branch for `lis`, `mfhi`, `mflo`. -/
def encodeLis (codeLine : TokenLine) : Except ParseError Int :=
  if codeLine.length ≠ 2 then
    .error ⟨"(2nd Pass): Incorrect number of token after lis/mfhi/mflo command."⟩
  else
    match opcode.lookupAt (nth codeLine 0).getLexeme with
    | none => .error ⟨"(2nd Pass): Attempt to use undefined label in lis/mfhi/mflo."⟩
    | some opcodeForCommand =>
      let token := nth codeLine 1
      if token.getKind ≠ Kind.REG then
        .error ⟨"(2nd Pass): Token following lis/mfhi/mflo is not a register."⟩
      else
        let registerNum := token.toLong
        if !registerNumberInRange registerNum then
          .error ⟨"(2nd Pass): Register number following lis/mfhi/mflo is out of range."⟩
        else
          .ok (toInt (or64 (or64 (shl32 0 16) (shl64 registerNum 11))
            (and32 opcodeForCommand 0xffff)))

/-- The branch for `mult`, `multu`, `div`, `divu`. -/
def encodeMult (codeLine : TokenLine) : Except ParseError Int :=
  if codeLine.length ≠ 4 then
    .error ⟨"(2nd Pass): Incorrect number of tokens following mult/multu/div/divu."⟩
  else if (nth codeLine 2).getKind ≠ Kind.COMMA then
    .error ⟨"(2nd Pass): mult/multu/div/divu[2] should be a comma."⟩
  else
    match opcode.lookupAt (nth codeLine 0).getLexeme with
    | none => .error ⟨"(2nd Pass): Attempt to use undefined label in mult/multu/div/divu."⟩
    | some opcodeForCommand =>
      let token := nth codeLine 1
      if token.getKind ≠ Kind.REG then
        .error ⟨"(2nd Pass): mult/multu/div/divu[1] should be a register."⟩
      else
        let valueOfRegisterS := token.toLong
        if !registerNumberInRange valueOfRegisterS then
          .error ⟨"(2nd Pass): Register S of mult/multu/div/divu is out of range."⟩
        else
          let token := nth codeLine 3
          if token.getKind ≠ Kind.REG then
            .error ⟨"(2nd Pass): mult/multu/div/divu[3] should be a register."⟩
          else
            let valueOfRegisterT := token.toLong
            if !registerNumberInRange valueOfRegisterT then
              .error ⟨"(2nd Pass): Register T of mult/multu/div/divu is out of range."⟩
            else
              .ok (toInt (or64 (or64 (or64 (or64 (shl32 0 26) (shl64 valueOfRegisterS 21))
                (shl64 valueOfRegisterT 16)) (shl32 0 6)) (and32 opcodeForCommand 0xffff)))

/-- The branch for `lw` and `sw`. -/
def encodeLw (codeLine : TokenLine) : Except ParseError Int :=
  if codeLine.length ≠ 7 then
    .error ⟨"(2nd Pass): Incorrect number of tokens after lw/sw command."⟩
  else if (nth codeLine 2).getKind ≠ Kind.COMMA ∨ (nth codeLine 4).getKind ≠ Kind.LPAREN
      ∨ (nth codeLine 6).getKind ≠ Kind.RPAREN then
    .error ⟨"(2nd Pass): The form of lw/sw command is incorrect."⟩
  else
    match opcode.lookupAt (nth codeLine 0).getLexeme with
    | none => .error ⟨"(2nd Pass): Attempt to use undefined label in lw/sw"⟩
    | some opcodeForCommand =>
      let token := nth codeLine 1
      if token.getKind ≠ Kind.REG then
        .error ⟨"(2nd Pass): lw/sw[1] should be a register."⟩
      else
        let valueOfRegisterT := token.toLong
        if !registerNumberInRange valueOfRegisterT then
          .error ⟨"(2nd Pass): Register T of lw/sw is out of range."⟩
        else
          let token := nth codeLine 3
          match immediateLw token with
          | .error e => .error e
          | .ok valueOfImmediate =>
            let token := nth codeLine 5
            if token.getKind ≠ Kind.REG then
              .error ⟨"(2nd Pass): lw/sw[5] should be a register."⟩
            else
              let valueOfRegisterS := token.toLong
              if !registerNumberInRange valueOfRegisterS then
                .error ⟨"(2nd Pass): Register S of lw/sw is out of range."⟩
              else
                .ok (toInt (or64 (or64 (or64 (shl32 opcodeForCommand 26)
                  (shl64 valueOfRegisterS 21)) (shl64 valueOfRegisterT 16))
                  (and64 valueOfImmediate 0xffff)))

/-- The body of the second-pass loop for one instruction-line: the dispatch on
`codeLine[0]`, giving the value handed to `printNumber` or the error thrown.
(The C++ `token` is a reference to `codeLine[0]`, so each `token = codeLine[k]`
overwrites element 0 of the line; no later read of the line looks at element 0,
and the assignment is rendered as a local binding.) -/
def encode (symbolTable : Dictionary) (PCSecondPass : Int) (codeLine : TokenLine) :
    Except ParseError Int :=
  let token := nth codeLine 0
  if token.getKind = Kind.WORD then encodeWord symbolTable codeLine
  else if token.getKind = Kind.ID then
    if token.getLexeme = "jr" ∨ token.getLexeme = "jalr" then encodeJr codeLine
    else if token.getLexeme = "add" ∨ token.getLexeme = "sub" ∨ token.getLexeme = "slt"
        ∨ token.getLexeme = "sltu" then encodeAdd codeLine
    else if token.getLexeme = "beq" ∨ token.getLexeme = "bne" then
      encodeBeq symbolTable PCSecondPass codeLine
    else if token.getLexeme = "lis" ∨ token.getLexeme = "mfhi" ∨ token.getLexeme = "mflo" then
      encodeLis codeLine
    else if token.getLexeme = "mult" ∨ token.getLexeme = "multu" ∨ token.getLexeme = "div"
        ∨ token.getLexeme = "divu" then encodeMult codeLine
    else if token.getLexeme = "lw" ∨ token.getLexeme = "sw" then encodeLw codeLine
    else .error ⟨"(2nd Pass) Unexpected token type of ID."⟩
  else .error ⟨"(2nd Pass): Unexpected token type other than [word] or [ID]."⟩

/-- The second pass (`asm.cc`, the `for (auto &codeLine: code)` loop) from
counter `PCSecondPass` and the bytes `output` written so far: the bytes written
when the loop ends, and the final counter or the error that stopped it. -/
def secondPass (symbolTable : Dictionary) :
    AssemblyCode → Int → List Nat → List Nat × Except ParseError Int
  | [], PCSecondPass, output => (output, .ok PCSecondPass)
  | codeLine :: rest, PCSecondPass, output =>
    match encode symbolTable PCSecondPass codeLine with
    | .error e => (output, .error e)
    | .ok value => secondPass symbolTable rest (PCSecondPass + 4) (output ++ printNumber value)

/-- The outcome of a run of `main`: the bytes written to the standard output,
and either the symbol table (printed on the diagnostic stream, exit status 0)
or the error reported (exit status 1). -/
structure Run where
  output : List Nat
  status : Except ParseError Dictionary

/-- The function `main` on the token lines of the input. -/
def main (input : List TokenLine) : Run :=
  match firstPass input [] 0 [] with
  | .error e => ⟨[], .error e⟩
  | .ok (symbolTable, code) =>
    match secondPass symbolTable code 0 [] with
    | (output, .error e) => ⟨output, .error e⟩
    | (output, .ok _) => ⟨output, .ok symbolTable⟩

/-! ## Vocabulary of the statements -/

/-- A token is a LABEL token. -/
def isLabel (t : Token) : Bool := t.getKind == Kind.LABEL

/-- A source line with its LABEL tokens removed. -/
def stripLabels (line : TokenLine) : TokenLine := line.filter fun t => !isLabel t

/-- The instruction-lines of a source, as the specification describes them: the
source lines with their LABEL tokens removed, in source order, without the
lines left empty. -/
def instructionLines (input : List TokenLine) : AssemblyCode :=
  (input.map stripLabels).filter fun line => !line.isEmpty

/-- A source line contains at least one non-label token. -/
def hasInstruction (line : TokenLine) : Bool := line.any fun t => !isLabel t

/-- The number of source lines that contain at least one non-label token. -/
def instructionCount (input : List TokenLine) : Nat := (input.filter hasInstruction).length

/-- The names defined by the LABEL tokens of a source, in source order, one
entry per LABEL token. -/
def labelNames (input : List TokenLine) : List String :=
  (input.flatten.filter isLabel).map labelNameOf

/-- Bits `lo` to `hi` (inclusive, bit 0 least significant) of a word. -/
def bitField (w : Int) (lo hi : Nat) : Int := (w / 2 ^ lo) % 2 ^ (hi + 1 - lo)

/-- The error thrown at the second definition of a label name. -/
def duplicateLabelError (labelName : String) : ParseError :=
  ⟨"(1st Pass): Label \"" ++ labelName ++ "\" is previously defined."⟩

/-- The error thrown at a LABEL token that follows a non-label token. -/
def misplacedLabelError : ParseError :=
  ⟨"(1st Pass): Label is not the first element of a line."⟩

/-- Every LABEL token of the line stands before all its non-label tokens. -/
def labelsFirst (line : TokenLine) : Bool :=
  (line.dropWhile isLabel).all fun t => !isLabel t

/-- The second pass accepts the line at counter `PC`: a word is produced. -/
def accepts (symbolTable : Dictionary) (PC : Int) (line : TokenLine) : Prop :=
  ∃ w, encode symbolTable PC line = .ok w

/-- The second pass rejects the line at counter `PC`: an error is thrown and no
word is produced. -/
def rejects (symbolTable : Dictionary) (PC : Int) (line : TokenLine) : Prop :=
  ∃ e, encode symbolTable PC line = .error e

/-- The value of a byte sequence read as a big-endian number. -/
def bigEndian (bytes : List Nat) : Nat := bytes.foldl (fun acc b => acc * 256 + b) 0

/-- The four bytes of a 32-bit word, most significant first, in the words of the
specification of the emitter. -/
def bigEndianBytes (word : Nat) : List Nat :=
  [word / 2 ^ 24 % 256, word / 2 ^ 16 % 256, word / 2 ^ 8 % 256, word % 256]

/-- A valid branch immediate, in the words of the specification: an INT in
[-32768, 32767], a HEXINT in [0, 65535], or an ID bound in the symbol table
whose offset `(address - PC - 4) / 4` lies in [-32768, 32767]. -/
def validBranchImmediate (symbolTable : Dictionary) (PC : Int) (t : Token) : Prop :=
  (t.kind = Kind.INT ∧ -32768 ≤ t.value ∧ t.value ≤ 32767) ∨
  (t.kind = Kind.HEXINT ∧ 0 ≤ t.value ∧ t.value ≤ 65535) ∨
  (t.kind = Kind.ID ∧ ∃ a, symbolTable.lookupAt t.lexeme = some a ∧
    -32768 ≤ Int.tdiv (a - PC - 4) 4 ∧ Int.tdiv (a - PC - 4) 4 ≤ 32767)

/-- A valid load/store immediate, in the words of the specification: an INT in
[-32768, 32767] or a HEXINT in [0, 65535]. -/
def validMemoryImmediate (t : Token) : Prop :=
  (t.kind = Kind.INT ∧ -32768 ≤ t.value ∧ t.value ≤ 32767) ∨
  (t.kind = Kind.HEXINT ∧ 0 ≤ t.value ∧ t.value ≤ 65535)

/-- An example source: `jr $31`, then a line holding only the label `end`, then
`w: .word end`. -/
def sourceWithLabelLine : List TokenLine :=
  [[⟨.ID, "jr", 0⟩, ⟨.REG, "$31", 31⟩], [⟨.LABEL, "end:", 0⟩],
    [⟨.LABEL, "w:", 0⟩, ⟨.WORD, ".word", 0⟩, ⟨.ID, "end", 0⟩]]

/-- An example source in which the label `a` is defined on the first and on the
third line. -/
def sourceWithDuplicate : List TokenLine :=
  [[⟨.LABEL, "a:", 0⟩, ⟨.ID, "jr", 0⟩, ⟨.REG, "$31", 31⟩],
    [⟨.ID, "jr", 0⟩, ⟨.REG, "$31", 31⟩],
    [⟨.LABEL, "a:", 0⟩, ⟨.ID, "jr", 0⟩, ⟨.REG, "$31", 31⟩]]

/-- An example source: the label `L` at address 0 and, at address 8, a branch
back to it: `L: jr $31`, `jr $31`, `beq $0,$0,L`. -/
def sourceBackwardBranch : List TokenLine :=
  [[⟨.LABEL, "L:", 0⟩, ⟨.ID, "jr", 0⟩, ⟨.REG, "$31", 31⟩],
    [⟨.ID, "jr", 0⟩, ⟨.REG, "$31", 31⟩],
    [⟨.ID, "beq", 0⟩, ⟨.REG, "$0", 0⟩, ⟨.COMMA, ",", 0⟩, ⟨.REG, "$0", 0⟩, ⟨.COMMA, ",", 0⟩,
      ⟨.ID, "L", 0⟩]]

/-- The instruction-lines of `sourceBackwardBranch`. -/
def sourceBackwardBranchCode : AssemblyCode :=
  [[⟨.ID, "jr", 0⟩, ⟨.REG, "$31", 31⟩], [⟨.ID, "jr", 0⟩, ⟨.REG, "$31", 31⟩],
    [⟨.ID, "beq", 0⟩, ⟨.REG, "$0", 0⟩, ⟨.COMMA, ",", 0⟩, ⟨.REG, "$0", 0⟩, ⟨.COMMA, ",", 0⟩,
      ⟨.ID, "L", 0⟩]]

/-- An example source that refers to a label defined nowhere:
`jr $31`, `.word nowhere`. -/
def sourceUndefinedLabel : List TokenLine :=
  [[⟨.ID, "jr", 0⟩, ⟨.REG, "$31", 31⟩], [⟨.WORD, ".word", 0⟩, ⟨.ID, "nowhere", 0⟩]]

/-- An example source with forward references: `.word end`,
`beq $1,$2,end`, `jr $31`, `end: jr $31`. -/
def sourceForward : List TokenLine :=
  [[⟨.WORD, ".word", 0⟩, ⟨.ID, "end", 0⟩],
    [⟨.ID, "beq", 0⟩, ⟨.REG, "$1", 1⟩, ⟨.COMMA, ",", 0⟩, ⟨.REG, "$2", 2⟩, ⟨.COMMA, ",", 0⟩,
      ⟨.ID, "end", 0⟩],
    [⟨.ID, "jr", 0⟩, ⟨.REG, "$31", 31⟩],
    [⟨.LABEL, "end:", 0⟩, ⟨.ID, "jr", 0⟩, ⟨.REG, "$31", 31⟩]]

/-- The 17 mnemonics of the specification. -/
def mnemonics : List String :=
  ["jr", "jalr", "add", "sub", "slt", "sltu", "beq", "bne", "lis", "mfhi", "mflo", "mult",
    "multu", "div", "divu", "lw", "sw"]

/-- An example source whose second line starts with `ADD`, which is not the
mnemonic `add`: `jr $31`, `ADD $1,$2,$3`. -/
def sourceUpperCase : List TokenLine :=
  [[⟨.ID, "jr", 0⟩, ⟨.REG, "$31", 31⟩],
    [⟨.ID, "ADD", 0⟩, ⟨.REG, "$1", 1⟩, ⟨.COMMA, ",", 0⟩, ⟨.REG, "$2", 2⟩, ⟨.COMMA, ",", 0⟩,
      ⟨.REG, "$3", 3⟩]]

/-- An example source whose third instruction-line is rejected by the second
pass: `jr $31`, `.word 7`, `jr $32`, `jr $31`. -/
def sourceFailingThird : List TokenLine :=
  [[⟨.ID, "jr", 0⟩, ⟨.REG, "$31", 31⟩], [⟨.WORD, ".word", 0⟩, ⟨.INT, "7", 7⟩],
    [⟨.ID, "jr", 0⟩, ⟨.REG, "$32", 32⟩], [⟨.ID, "jr", 0⟩, ⟨.REG, "$31", 31⟩]]

/-- The names defined by the LABEL tokens that stand before the first
non-label token of a line. -/
def leadingLabels (line : TokenLine) : List String :=
  (line.takeWhile isLabel).map labelNameOf

/-- No error precedes a misplaced label on the line: the labels before the
first non-label token have distinct names, none of them in the table. -/
def leadingFresh (symbolTable : Dictionary) (line : TokenLine) : Prop :=
  (leadingLabels line).Nodup ∧ ∀ name ∈ leadingLabels line, symbolTable.lookupAt name = none

/-- Some LABEL token of the line comes after a non-label token of the line. -/
def labelAfterInstruction (line : TokenLine) : Prop :=
  ∃ a u b t c, line = a ++ u :: (b ++ t :: c) ∧ isLabel u = false ∧ isLabel t = true

/-- The names of the LABEL tokens that the first pass meets before the first
LABEL token that follows a non-label token on its line: all the labels of the
lines before the first line holding such a token, and the labels of that line
that stand before its first non-label token. -/
def labelsBeforeMisplaced : List TokenLine → List String
  | [] => []
  | line :: rest =>
    if labelsFirst line then leadingLabels line ++ labelsBeforeMisplaced rest
    else leadingLabels line

/-- An example source in which the label `a` is defined on the first and on the
second line, before a third line `jr $31 b:` whose label follows an
instruction. -/
def sourceDuplicateBeforeMisplaced : List TokenLine :=
  [[⟨.LABEL, "a:", 0⟩], [⟨.LABEL, "a:", 0⟩],
    [⟨.ID, "jr", 0⟩, ⟨.REG, "$31", 31⟩, ⟨.LABEL, "b:", 0⟩]]

/-- The values of the register operands of an instruction-line, in the order
of their positions. -/
def registersOf (line : TokenLine) : List Int :=
  (line.filter fun t => t.kind == Kind.REG).map Token.value

/-- The immediate that the operand token of a branch denotes, in the words of
the specification: the value of an INT or HEXINT token, and for an ID token
the offset `(symbolTable[name] - PC - 4) / 4` of the label it names, the
quotient taken toward zero; `none` for an unbound name and for a token of
another kind. -/
def branchOperand (symbolTable : Dictionary) (PC : Int) (t : Token) : Option Int :=
  if t.kind = Kind.INT ∨ t.kind = Kind.HEXINT then some t.value
  else if t.kind = Kind.ID then
    (symbolTable.lookupAt t.lexeme).map fun address => Int.tdiv (address - PC - 4) 4
  else none

/-- The immediate that the operand token of a load or store denotes, in the
words of the specification: the value of an INT or HEXINT token; `none` for a
token of another kind. -/
def memoryOperand (t : Token) : Option Int :=
  if t.kind = Kind.INT ∨ t.kind = Kind.HEXINT then some t.value else none

/-- The immediate written on an instruction-line, read from its operand token:
the sixth token of a `beq` or `bne` line, the fourth token of a `lw` or `sw`
line; `none` for the lines of the other families. -/
def immediateOf (symbolTable : Dictionary) (PC : Int) (line : TokenLine) : Option Int :=
  if (nth line 0).lexeme = "beq" ∨ (nth line 0).lexeme = "bne" then
    branchOperand symbolTable PC (nth line 5)
  else if (nth line 0).lexeme = "lw" ∨ (nth line 0).lexeme = "sw" then
    memoryOperand (nth line 3)
  else none

/-- A word made of an opcode above bit 26, two register fields at bits 21 and
16, and a low half. -/
def pack (top s t low : Nat) : Nat := top * 2 ^ 26 + s * 2 ^ 21 + t * 2 ^ 16 + low

/-- The reading of a 32-bit word back into a mnemonic, its register operands in
the order of the line, and its 16-bit immediate if it has one. -/
def decode (word : Nat) : Option (String × List Nat × Option Nat) :=
  let top := word / 2 ^ 26
  let s := word / 2 ^ 21 % 32
  let t := word / 2 ^ 16 % 32
  let d := word / 2 ^ 11 % 32
  let fn := word % 2 ^ 11
  let imm := word % 2 ^ 16
  if top = 0x4 then some ("beq", [s, t], some imm)
  else if top = 0x5 then some ("bne", [s, t], some imm)
  else if top = 0x23 then some ("lw", [t, s], some imm)
  else if top = 0x2b then some ("sw", [t, s], some imm)
  else if top = 0 then
    if fn = 0x8 then some ("jr", [s], none)
    else if fn = 0x9 then some ("jalr", [s], none)
    else if fn = 0x20 then some ("add", [d, s, t], none)
    else if fn = 0x22 then some ("sub", [d, s, t], none)
    else if fn = 0x2a then some ("slt", [d, s, t], none)
    else if fn = 0x2b then some ("sltu", [d, s, t], none)
    else if fn = 0x14 then some ("lis", [d], none)
    else if fn = 0x10 then some ("mfhi", [d], none)
    else if fn = 0x12 then some ("mflo", [d], none)
    else if fn = 0x18 then some ("mult", [s, t], none)
    else if fn = 0x19 then some ("multu", [s, t], none)
    else if fn = 0x1a then some ("div", [s, t], none)
    else if fn = 0x1b then some ("divu", [s, t], none)
    else none
  else none

/-! ## Machine arithmetic on small values -/

theorem toInt_of_range {v : Int} (h1 : -2147483648 ≤ v) (h2 : v < 2147483648) :
    toInt v = v := by
  unfold toInt; omega

theorem toShort_of_range {v : Int} (h1 : -32768 ≤ v) (h2 : v < 32768) : toShort v = v := by
  unfold toShort; omega

theorem toLongLong_of_range {v : Int} (h1 : -9223372036854775808 ≤ v)
    (h2 : v < 9223372036854775808) : toLongLong v = v := by
  unfold toLongLong; omega

theorem bits64_natCast (n : Nat) (h : n < 18446744073709551616) : bits64 (n : Int) = n := by
  unfold bits64; omega

theorem bits32_natCast (n : Nat) (h : n < 4294967296) : bits32 (n : Int) = n := by
  unfold bits32; omega

theorem shl64_natCast (n k : Nat) (h : n <<< k < 9223372036854775808) :
    shl64 (n : Int) k = ((n <<< k : Nat) : Int) := by
  unfold shl64
  rw [Nat.shiftLeft_eq] at h ⊢
  have hc : ((n : Int) * 2 ^ k) = ((n * 2 ^ k : Nat) : Int) := by push_cast; rfl
  rw [hc]
  exact toLongLong_of_range (by omega) (by omega)

theorem shl32_natCast (n k : Nat) (h : n <<< k < 2147483648) :
    shl32 (n : Int) k = ((n <<< k : Nat) : Int) := by
  unfold shl32
  rw [Nat.shiftLeft_eq] at h ⊢
  have hc : ((n : Int) * 2 ^ k) = ((n * 2 ^ k : Nat) : Int) := by push_cast; rfl
  rw [hc]
  exact toInt_of_range (by omega) (by omega)

theorem or64_natCast (a b : Nat) (ha : a < 2 ^ 63) (hb : b < 2 ^ 63) :
    or64 (a : Int) (b : Int) = ((a ||| b : Nat) : Int) := by
  have hab : a ||| b < 2 ^ 63 := Nat.or_lt_two_pow ha hb
  unfold or64
  rw [bits64_natCast a (by omega), bits64_natCast b (by omega)]
  exact toLongLong_of_range (by omega) (by omega)

theorem or32_natCast (a b : Nat) (ha : a < 2 ^ 31) (hb : b < 2 ^ 31) :
    or32 (a : Int) (b : Int) = ((a ||| b : Nat) : Int) := by
  have hab : a ||| b < 2 ^ 31 := Nat.or_lt_two_pow ha hb
  unfold or32
  rw [bits32_natCast a (by omega), bits32_natCast b (by omega)]
  exact toInt_of_range (by omega) (by omega)

theorem and32_natCast (a b : Nat) (ha : a < 2 ^ 31) (hb : b < 2 ^ 31) :
    and32 (a : Int) (b : Int) = ((a &&& b : Nat) : Int) := by
  have hab : a &&& b < 2 ^ 31 := Nat.and_lt_two_pow a hb
  unfold and32
  rw [bits32_natCast a (by omega), bits32_natCast b (by omega)]
  exact toInt_of_range (by omega) (by omega)

/-- The function constant masked with `0xffff` is itself, for every constant of
the opcode table. -/
theorem and32_opcode (op : Nat) (h : op < 2 ^ 11) :
    and32 (op : Int) 0xffff = (op : Int) := by
  have h1 : and32 (op : Int) 0xffff = ((op &&& 0xffff : Nat) : Int) :=
    and32_natCast op 0xffff (by omega) (by norm_num)
  have h2 : op &&& 0xffff = op := by
    have := Nat.and_pow_two_sub_one_eq_mod op 16
    norm_num at this
    rw [this]; omega
  rw [h1, h2]

theorem registerNumberInRange_natCast (r : Nat) (h : r ≤ 31) :
    registerNumberInRange (r : Int) = true := by
  unfold registerNumberInRange
  rw [toInt_of_range (by omega) (by omega)]
  simp; omega

theorem shiftLeft_field_lt (r k : Nat) (h : r ≤ 31) (hk : k ≤ 21) : r <<< k < 2 ^ 26 := by
  rw [Nat.shiftLeft_eq]
  calc r * 2 ^ k ≤ 31 * 2 ^ 21 :=
        Nat.mul_le_mul h (Nat.pow_le_pow_right (by norm_num) hk)
    _ < 2 ^ 26 := by norm_num

/-- The word of the families without immediate: every field is below bit 26, so
no conversion changes the value. -/
theorem word_of_fields (s t d op : Nat) (hs : s ≤ 31) (ht : t ≤ 31) (hd : d ≤ 31)
    (hop : op < 2 ^ 11) :
    toInt (or64 (or64 (or64 (or64 (shl32 0 26) (shl64 s 21)) (shl64 t 16)) (shl64 d 11))
      (and32 op 0xffff)) = (((s <<< 21) ||| (t <<< 16) ||| (d <<< 11) ||| op : Nat) : Int) := by
  have h1 := shiftLeft_field_lt s 21 hs (by norm_num)
  have h2 := shiftLeft_field_lt t 16 ht (by norm_num)
  have h3 := shiftLeft_field_lt d 11 hd (by norm_num)
  have h0 : shl32 0 26 = ((0 : Nat) : Int) := by rfl
  have hop26 : op < 2 ^ 26 := by omega
  rw [h0, and32_opcode op hop, shl64_natCast _ _ (by omega), shl64_natCast _ _ (by omega),
    shl64_natCast _ _ (by omega)]
  have e1 := Nat.or_lt_two_pow (show 0 < 2 ^ 26 by norm_num) h1
  have e2 := Nat.or_lt_two_pow e1 h2
  have e3 := Nat.or_lt_two_pow e2 h3
  have e4 := Nat.or_lt_two_pow e3 hop26
  rw [or64_natCast _ _ (by omega) (by omega), or64_natCast _ _ (by omega) (by omega),
    or64_natCast _ _ (by omega) (by omega), or64_natCast _ _ (by omega) (by omega),
    toInt_of_range (by omega) (by omega)]
  simp

theorem word_of_jr (s op : Nat) (hs : s ≤ 31) (hop : op < 2 ^ 11) :
    or32 (or32 (or32 (shl32 0 26) (shl32 (toShort s) 21)) (shl32 0 16)) (and32 op 0xffff)
      = (((s <<< 21) ||| op : Nat) : Int) := by
  have h1 := shiftLeft_field_lt s 21 hs (by norm_num)
  have h0 : shl32 0 26 = ((0 : Nat) : Int) := by rfl
  have h0b : shl32 0 16 = ((0 : Nat) : Int) := by rfl
  have hop26 : op < 2 ^ 26 := by omega
  rw [toShort_of_range (by omega) (by omega), h0, h0b, and32_opcode op hop,
    shl32_natCast _ _ (by omega)]
  have e1 := Nat.or_lt_two_pow (show 0 < 2 ^ 26 by norm_num) h1
  have e2 := Nat.or_lt_two_pow e1 (show 0 < 2 ^ 26 by norm_num)
  rw [or32_natCast _ _ (by omega) (by omega), or32_natCast _ _ (by omega) (by omega),
    or32_natCast _ _ (by omega) (by omega)]
  simp

theorem word_of_lis (d op : Nat) (hd : d ≤ 31) (hop : op < 2 ^ 11) :
    toInt (or64 (or64 (shl32 0 16) (shl64 d 11)) (and32 op 0xffff))
      = (((d <<< 11) ||| op : Nat) : Int) := by
  have h3 := shiftLeft_field_lt d 11 hd (by norm_num)
  have h0 : shl32 0 16 = ((0 : Nat) : Int) := by rfl
  have hop26 : op < 2 ^ 26 := by omega
  rw [h0, and32_opcode op hop, shl64_natCast _ _ (by omega)]
  have e1 := Nat.or_lt_two_pow (show 0 < 2 ^ 26 by norm_num) h3
  have e2 := Nat.or_lt_two_pow e1 hop26
  rw [or64_natCast _ _ (by omega) (by omega), or64_natCast _ _ (by omega) (by omega),
    toInt_of_range (by omega) (by omega)]
  simp

theorem word_of_mult (s t op : Nat) (hs : s ≤ 31) (ht : t ≤ 31) (hop : op < 2 ^ 11) :
    toInt (or64 (or64 (or64 (or64 (shl32 0 26) (shl64 s 21)) (shl64 t 16)) (shl32 0 6))
      (and32 op 0xffff)) = (((s <<< 21) ||| (t <<< 16) ||| op : Nat) : Int) := by
  have h1 := shiftLeft_field_lt s 21 hs (by norm_num)
  have h2 := shiftLeft_field_lt t 16 ht (by norm_num)
  have h0 : shl32 0 26 = ((0 : Nat) : Int) := by rfl
  have h0b : shl32 0 6 = ((0 : Nat) : Int) := by rfl
  have hop26 : op < 2 ^ 26 := by omega
  rw [h0, h0b, and32_opcode op hop, shl64_natCast _ _ (by omega), shl64_natCast _ _ (by omega)]
  have e1 := Nat.or_lt_two_pow (show 0 < 2 ^ 26 by norm_num) h1
  have e2 := Nat.or_lt_two_pow e1 h2
  have e3 := Nat.or_lt_two_pow e2 (show 0 < 2 ^ 26 by norm_num)
  have e4 := Nat.or_lt_two_pow e3 hop26
  rw [or64_natCast _ _ (by omega) (by omega), or64_natCast _ _ (by omega) (by omega),
    or64_natCast _ _ (by omega) (by omega), or64_natCast _ _ (by omega) (by omega),
    toInt_of_range (by omega) (by omega)]
  simp

/-! ## The second-pass branches on lines of the required shape -/

theorem encode_jr_shape (symbolTable : Dictionary) (PC : Int) (mn : String) (op : Int)
    (hm : mn = "jr" ∨ mn = "jalr") (hop : opcode.lookupAt mn = some op)
    (x1 : String) (v0 S : Int) :
    encode symbolTable PC [⟨.ID, mn, v0⟩, ⟨.REG, x1, S⟩] =
    if !registerNumberInRange (toShort S) then
      .error ⟨"(2nd Pass):  Register Number followed JR/JALR command is out of bound"⟩
    else
      .ok (or32 (or32 (or32 (shl32 0 26) (shl32 (toShort S) 21)) (shl32 0 16))
        (and32 op 0xffff)) := by
  rcases hm with rfl | rfl <;>
    simp [encode, encodeJr, nth, Token.getKind, Token.getLexeme, Token.toLong, hop]

theorem encode_add_shape (symbolTable : Dictionary) (PC : Int) (mn : String) (op : Int)
    (hm : mn = "add" ∨ mn = "sub" ∨ mn = "slt" ∨ mn = "sltu")
    (hop : opcode.lookupAt mn = some op) (x1 x2 x3 x4 x5 : String) (v0 v2 v4 D S T : Int) :
    encode symbolTable PC [⟨.ID, mn, v0⟩, ⟨.REG, x1, D⟩, ⟨.COMMA, x2, v2⟩, ⟨.REG, x3, S⟩,
      ⟨.COMMA, x4, v4⟩, ⟨.REG, x5, T⟩] =
    if !registerNumberInRange D then
      .error ⟨"(2nd Pass): Register D of add/sub/slt/sltu is out of range."⟩
    else if !registerNumberInRange S then
      .error ⟨"(2nd Pass): Register S of add/sub/slt/sltu is out of range."⟩
    else if !registerNumberInRange T then
      .error ⟨"(2nd Pass): Register T of add/sub/slt/sltu is out of range."⟩
    else
      .ok (toInt (or64 (or64 (or64 (or64 (shl32 0 26) (shl64 S 21)) (shl64 T 16))
        (shl64 D 11)) (and32 op 0xffff))) := by
  rcases hm with rfl | rfl | rfl | rfl <;>
    simp [encode, encodeAdd, nth, Token.getKind, Token.getLexeme, Token.toLong, hop]

theorem encode_lis_shape (symbolTable : Dictionary) (PC : Int) (mn : String) (op : Int)
    (hm : mn = "lis" ∨ mn = "mfhi" ∨ mn = "mflo") (hop : opcode.lookupAt mn = some op)
    (x1 : String) (v0 D : Int) :
    encode symbolTable PC [⟨.ID, mn, v0⟩, ⟨.REG, x1, D⟩] =
    if !registerNumberInRange D then
      .error ⟨"(2nd Pass): Register number following lis/mfhi/mflo is out of range."⟩
    else
      .ok (toInt (or64 (or64 (shl32 0 16) (shl64 D 11)) (and32 op 0xffff))) := by
  rcases hm with rfl | rfl | rfl <;>
    simp [encode, encodeLis, nth, Token.getKind, Token.getLexeme, Token.toLong, hop]

theorem encode_mult_shape (symbolTable : Dictionary) (PC : Int) (mn : String) (op : Int)
    (hm : mn = "mult" ∨ mn = "multu" ∨ mn = "div" ∨ mn = "divu")
    (hop : opcode.lookupAt mn = some op) (x1 x2 x3 : String) (v0 v2 S T : Int) :
    encode symbolTable PC [⟨.ID, mn, v0⟩, ⟨.REG, x1, S⟩, ⟨.COMMA, x2, v2⟩, ⟨.REG, x3, T⟩] =
    if !registerNumberInRange S then
      .error ⟨"(2nd Pass): Register S of mult/multu/div/divu is out of range."⟩
    else if !registerNumberInRange T then
      .error ⟨"(2nd Pass): Register T of mult/multu/div/divu is out of range."⟩
    else
      .ok (toInt (or64 (or64 (or64 (or64 (shl32 0 26) (shl64 S 21)) (shl64 T 16))
        (shl32 0 6)) (and32 op 0xffff))) := by
  rcases hm with rfl | rfl | rfl | rfl <;>
    simp [encode, encodeMult, nth, Token.getKind, Token.getLexeme, Token.toLong, hop]

/-! ## The first pass -/

theorem lookupAt_cons (k name : String) (v : Int) (table : Dictionary) :
    Dictionary.lookupAt ((name, v) :: table) k
      = if k = name then some v else table.lookupAt k := by
  unfold Dictionary.lookupAt
  rw [List.lookup_cons]
  by_cases h : k = name
  · simp [h]
  · have : (k == name) = false := by simpa using h
    simp [this, h]

theorem stripLabels_cons_label (t : Token) (rest : TokenLine) (h : t.getKind = Kind.LABEL) :
    stripLabels (t :: rest) = stripLabels rest := by
  simp [stripLabels, isLabel, h]

theorem stripLabels_cons_other (t : Token) (rest : TokenLine) (h : t.getKind ≠ Kind.LABEL) :
    stripLabels (t :: rest) = t :: stripLabels rest := by
  simp [stripLabels, isLabel, h]

/-- A successful token loop keeps the non-label tokens in order, binds every
label of the line to `PC`, keeps the earlier bindings and adds no other. -/
theorem firstPassTokens_ok (PC : Int) :
    ∀ (tokens : TokenLine) (symbolTable : Dictionary) (secondPass : TokenLine)
      (symbolTable1 : Dictionary) (secondPass1 : TokenLine),
    firstPassTokens PC tokens symbolTable secondPass = .ok (symbolTable1, secondPass1) →
      secondPass1 = secondPass ++ stripLabels tokens ∧
      (∀ t ∈ tokens, isLabel t = true → symbolTable1.lookupAt (labelNameOf t) = some PC) ∧
      (∀ k v, symbolTable.lookupAt k = some v → symbolTable1.lookupAt k = some v) ∧
      (∀ k v, symbolTable1.lookupAt k = some v → symbolTable.lookupAt k = some v ∨
        (v = PC ∧ ∃ t ∈ tokens, isLabel t = true ∧ labelNameOf t = k)) := by
  intro tokens
  induction tokens with
  | nil =>
    intro st sp st1 sp1 h
    simp only [firstPassTokens, Except.ok.injEq, Prod.mk.injEq] at h
    obtain ⟨rfl, rfl⟩ := h
    exact ⟨by simp [stripLabels], by simp, fun _ _ h => h, fun _ _ h => Or.inl h⟩
  | cons t rest ih =>
    intro st sp st1 sp1 h
    rw [firstPassTokens] at h
    by_cases hk : t.getKind = Kind.LABEL
    · rw [if_pos hk] at h
      by_cases hsp : sp.isEmpty = true
      · rw [if_pos hsp] at h
        by_cases hdef : labelIsNotPreviouslyDefined (labelNameOf t) st = true
        · simp only [hdef, if_true] at h
          obtain ⟨h1, h2, h3, h4⟩ := ih _ _ _ _ h
          have hnone : st.lookupAt (labelNameOf t) = none := by
            simpa [labelIsNotPreviouslyDefined] using hdef
          have hlt : isLabel t = true := by simp [isLabel, hk]
          refine ⟨by rw [h1, stripLabels_cons_label t rest hk], ?_, ?_, ?_⟩
          · intro u hu hlab
            rcases List.mem_cons.mp hu with rfl | hu
            · exact h3 _ _ (by rw [lookupAt_cons]; simp)
            · exact h2 u hu hlab
          · intro k v hkv
            apply h3
            rw [lookupAt_cons]
            by_cases hkn : k = labelNameOf t
            · rw [hkn, hnone] at hkv; cases hkv
            · simpa [hkn] using hkv
          · intro k v hkv
            rcases h4 k v hkv with h5 | ⟨h5, u, hu, hul, hun⟩
            · rw [lookupAt_cons] at h5
              by_cases hkn : k = labelNameOf t
              · right
                refine ⟨by simpa [hkn] using h5.symm, t, List.mem_cons_self _ _, hlt, hkn.symm⟩
              · left; simpa [hkn] using h5
            · exact Or.inr ⟨h5, u, List.mem_cons_of_mem _ hu, hul, hun⟩
        · simp only [hdef] at h
          cases h
      · rw [if_neg hsp] at h
        cases h
    · rw [if_neg hk] at h
      obtain ⟨h1, h2, h3, h4⟩ := ih _ _ _ _ h
      refine ⟨by rw [h1, stripLabels_cons_other t rest hk]; simp, ?_, h3, ?_⟩
      · intro u hu hlab
        rcases List.mem_cons.mp hu with rfl | hu
        · simp [isLabel, hk] at hlab
        · exact h2 u hu hlab
      · intro k v hkv
        rcases h4 k v hkv with h5 | ⟨h5, u, hu, hul, hun⟩
        · exact Or.inl h5
        · exact Or.inr ⟨h5, u, List.mem_cons_of_mem _ hu, hul, hun⟩

theorem hasInstruction_iff (line : TokenLine) :
    hasInstruction line = !(stripLabels line).isEmpty := by
  induction line with
  | nil => rfl
  | cons t rest ih =>
    by_cases hk : t.getKind = Kind.LABEL
    · rw [stripLabels_cons_label t rest hk, ← ih]
      simp [hasInstruction, isLabel, hk]
    · rw [stripLabels_cons_other t rest hk]
      simp [hasInstruction, isLabel, hk]

theorem instructionLines_cons (line : TokenLine) (rest : List TokenLine) :
    instructionLines (line :: rest)
      = if hasInstruction line then stripLabels line :: instructionLines rest
        else instructionLines rest := by
  rw [hasInstruction_iff]
  simp only [instructionLines, List.map_cons, List.filter_cons]

theorem instructionCount_cons (line : TokenLine) (rest : List TokenLine) :
    instructionCount (line :: rest)
      = (if hasInstruction line then 1 else 0) + instructionCount rest := by
  unfold instructionCount
  rw [List.filter_cons]
  split <;> simp; omega

theorem instructionLines_length (input : List TokenLine) :
    (instructionLines input).length = instructionCount input := by
  induction input with
  | nil => rfl
  | cons line rest ih =>
    rw [instructionLines_cons, instructionCount_cons]
    split <;> simp [ih]; omega

/-- The body of the line loop: the early `continue` on an empty line agrees
with the general path. -/
theorem firstPass_cons (line : TokenLine) (rest : List TokenLine) (st : Dictionary)
    (PC : Int) (code : AssemblyCode) :
    firstPass (line :: rest) st PC code =
      match firstPassTokens PC line st [] with
      | .error e => .error e
      | .ok (st1, secondPass) =>
        if !secondPass.isEmpty then firstPass rest st1 (PC + 4) (code ++ [secondPass])
        else firstPass rest st1 PC code := by
  rw [firstPass]
  by_cases h : line.isEmpty = true
  · have hl : line = [] := by simpa using h
    subst hl
    simp [firstPassTokens]
  · rw [if_neg h]

/-- A successful first pass produces the instruction-lines of the source, binds
every label to `PC` plus four times the number of instruction-lines before its
line, keeps the earlier bindings and adds no other. -/
theorem firstPass_ok :
    ∀ (input : List TokenLine) (st : Dictionary) (PC : Int) (code : AssemblyCode)
      (st1 : Dictionary) (code1 : AssemblyCode),
    firstPass input st PC code = .ok (st1, code1) →
      code1 = code ++ instructionLines input ∧
      (∀ i line, input[i]? = some line → ∀ t ∈ line, isLabel t = true →
        st1.lookupAt (labelNameOf t) = some (PC + 4 * instructionCount (input.take i))) ∧
      (∀ k v, st.lookupAt k = some v → st1.lookupAt k = some v) ∧
      (∀ k v, st1.lookupAt k = some v → st.lookupAt k = some v ∨
        ∃ i line, input[i]? = some line ∧ v = PC + 4 * instructionCount (input.take i) ∧
          ∃ t ∈ line, isLabel t = true ∧ labelNameOf t = k) := by
  intro input
  induction input with
  | nil =>
    intro st PC code st1 code1 h
    simp only [firstPass, Except.ok.injEq, Prod.mk.injEq] at h
    obtain ⟨rfl, rfl⟩ := h
    exact ⟨by simp [instructionLines], by simp, fun _ _ h => h, fun _ _ h => Or.inl h⟩
  | cons line rest ih =>
    intro st PC code st1 code1 h
    rw [firstPass_cons] at h
    cases htok : firstPassTokens PC line st [] with
    | error e => rw [htok] at h; cases h
    | ok r =>
      obtain ⟨st2, sp⟩ := r
      rw [htok] at h
      obtain ⟨t1, t2, t3, t4⟩ := firstPassTokens_ok PC line st [] st2 sp htok
      rw [List.nil_append] at t1
      have hins : hasInstruction line = !sp.isEmpty := by rw [hasInstruction_iff, t1]
      simp only [← hins] at h
      -- the counter and the code after this line
      obtain ⟨PC2, code2, hPC2, hcode2, hrest⟩ :
          ∃ PC2 code2, PC2 = PC + 4 * (if hasInstruction line then 1 else 0 : Nat) ∧
            code2 = code ++ (if hasInstruction line then [sp] else []) ∧
            firstPass rest st2 PC2 code2 = .ok (st1, code1) := by
        by_cases hi : hasInstruction line = true
        · refine ⟨PC + 4, code ++ [sp], by simp [hi], by simp [hi], ?_⟩
          simpa [hi] using h
        · refine ⟨PC, code, by simp [hi], by simp [hi], ?_⟩
          simpa [hi] using h
      obtain ⟨r1, r2, r3, r4⟩ := ih st2 PC2 code2 st1 code1 hrest
      refine ⟨?_, ?_, ?_, ?_⟩
      · rw [r1, hcode2, instructionLines_cons, t1]
        by_cases hi : hasInstruction line = true <;> simp [hi]
      · intro i l hl t ht hlab
        cases i with
        | zero =>
          simp only [List.getElem?_cons_zero, Option.some.injEq] at hl
          subst hl
          have := r3 _ _ (t2 t ht hlab)
          simpa [instructionCount] using this
        | succ j =>
          simp only [List.getElem?_cons_succ] at hl
          have := r2 j l hl t ht hlab
          rw [this, List.take_succ_cons, instructionCount_cons, hPC2]
          congr 1
          push_cast
          ring
      · intro k v hkv
        exact r3 k v (t3 k v hkv)
      · intro k v hkv
        rcases r4 k v hkv with h5 | ⟨j, l, hl, hv, hex⟩
        · rcases t4 k v h5 with h6 | ⟨h6, hex⟩
          · exact Or.inl h6
          · exact Or.inr ⟨0, line, by simp, by simp [instructionCount, h6], hex⟩
        · refine Or.inr ⟨j + 1, l, by simpa using hl, ?_, hex⟩
          rw [hv, List.take_succ_cons, instructionCount_cons, hPC2]
          push_cast
          ring

theorem instructionLines_append (a b : List TokenLine) :
    instructionLines (a ++ b) = instructionLines a ++ instructionLines b := by
  simp [instructionLines]

theorem labelNames_cons (line : TokenLine) (rest : List TokenLine) :
    labelNames (line :: rest) = (line.filter isLabel).map labelNameOf ++ labelNames rest := by
  simp [labelNames]

theorem mem_lineNames {line : TokenLine} {name : String}
    (h : name ∈ (line.filter isLabel).map labelNameOf) :
    ∃ t ∈ line, isLabel t = true ∧ labelNameOf t = name := by
  simp only [List.mem_map, List.mem_filter] at h
  obtain ⟨t, ⟨ht, hl⟩, hn⟩ := h
  exact ⟨t, ht, hl, hn⟩

/-- A successful token loop met only labels that were absent from the table,
and no name twice. -/
theorem firstPassTokens_fresh (PC : Int) :
    ∀ (tokens : TokenLine) (st : Dictionary) (sp : TokenLine) (st1 : Dictionary)
      (sp1 : TokenLine),
    firstPassTokens PC tokens st sp = .ok (st1, sp1) →
      (∀ t ∈ tokens, isLabel t = true → st.lookupAt (labelNameOf t) = none) ∧
      ((tokens.filter isLabel).map labelNameOf).Nodup := by
  intro tokens
  induction tokens with
  | nil => intro st sp st1 sp1 _; simp
  | cons t rest ih =>
    intro st sp st1 sp1 h
    rw [firstPassTokens] at h
    by_cases hk : t.getKind = Kind.LABEL
    · rw [if_pos hk] at h
      by_cases hsp : sp.isEmpty = true
      · rw [if_pos hsp] at h
        by_cases hdef : labelIsNotPreviouslyDefined (labelNameOf t) st = true
        · simp only [hdef, if_true] at h
          obtain ⟨h1, h2⟩ := ih _ _ _ _ h
          have hnone : st.lookupAt (labelNameOf t) = none := by
            simpa [labelIsNotPreviouslyDefined] using hdef
          have hlt : isLabel t = true := by simp [isLabel, hk]
          have hrest : ∀ u ∈ rest, isLabel u = true →
              labelNameOf u ≠ labelNameOf t ∧ st.lookupAt (labelNameOf u) = none := by
            intro u hu hul
            have h3 := h1 u hu hul
            rw [lookupAt_cons] at h3
            by_cases hne : labelNameOf u = labelNameOf t
            · simp [hne] at h3
            · exact ⟨hne, by simpa [hne] using h3⟩
          constructor
          · intro u hu hul
            rcases List.mem_cons.mp hu with rfl | hu
            · exact hnone
            · exact (hrest u hu hul).2
          · rw [List.filter_cons, if_pos hlt, List.map_cons, List.nodup_cons]
            refine ⟨?_, h2⟩
            intro hmem
            obtain ⟨u, hu, hul, hun⟩ := mem_lineNames hmem
            exact (hrest u hu hul).1 hun
        · simp only [hdef] at h
          cases h
      · rw [if_neg hsp] at h
        cases h
    · rw [if_neg hk] at h
      obtain ⟨h1, h2⟩ := ih _ _ _ _ h
      have hlt : isLabel t = false := by simp [isLabel, hk]
      constructor
      · intro u hu hul
        rcases List.mem_cons.mp hu with rfl | hu
        · rw [hlt] at hul; cases hul
        · exact h1 u hu hul
      · rw [List.filter_cons]
        simpa [hlt] using h2

/-- A successful first pass met every label name once, and none that the table
already held. -/
theorem firstPass_fresh :
    ∀ (input : List TokenLine) (st : Dictionary) (PC : Int) (code : AssemblyCode)
      (st1 : Dictionary) (code1 : AssemblyCode),
    firstPass input st PC code = .ok (st1, code1) →
      (∀ name ∈ labelNames input, st.lookupAt name = none) ∧ (labelNames input).Nodup := by
  intro input
  induction input with
  | nil => intro st PC code st1 code1 _; simp [labelNames]
  | cons line rest ih =>
    intro st PC code st1 code1 h
    rw [firstPass_cons] at h
    cases htok : firstPassTokens PC line st [] with
    | error e => rw [htok] at h; cases h
    | ok r =>
      obtain ⟨st2, sp⟩ := r
      rw [htok] at h
      obtain ⟨_, t2, t3, _⟩ := firstPassTokens_ok PC line st [] st2 sp htok
      obtain ⟨f1, f2⟩ := firstPassTokens_fresh PC line st [] st2 sp htok
      obtain ⟨PC2, code2, hrest⟩ : ∃ PC2 code2, firstPass rest st2 PC2 code2 = .ok (st1, code1) := by
        by_cases hi : sp.isEmpty = true
        · exact ⟨PC, code, by simpa [hi] using h⟩
        · exact ⟨PC + 4, code ++ [sp], by simpa [hi] using h⟩
      obtain ⟨r1, r2⟩ := ih st2 PC2 code2 st1 code1 hrest
      rw [labelNames_cons]
      constructor
      · intro name hname
        rcases List.mem_append.mp hname with hn | hn
        · obtain ⟨t, ht, hl, rfl⟩ := mem_lineNames hn
          exact f1 t ht hl
        · have h2 := r1 name hn
          cases hst : st.lookupAt name with
          | none => rfl
          | some v => rw [t3 name v hst] at h2; cases h2
      · rw [List.nodup_append]
        refine ⟨f2, r2, ?_⟩
        intro name hn1 hn2
        obtain ⟨t, ht, hl, rfl⟩ := mem_lineNames hn1
        have h2 := r1 _ hn2
        rw [t2 t ht hl] at h2
        cases h2

/-! ## C1: the words of the register-only families -/

/-- C1 (amended): for register values `rd`, `rs`, `rt` in [0,31] and lines of
the required shape, the second pass produces exactly the word of the table:
`jr`/`jalr $rs` gives `(rs<<21)|op`, `add`/`sub`/`slt`/`sltu $rd,$rs,$rt` gives
`(rs<<21)|(rt<<16)|(rd<<11)|op`, `lis`/`mfhi`/`mflo $rd` gives `(rd<<11)|op`,
`mult`/`multu`/`div`/`divu $rs,$rt` gives `(rs<<21)|(rt<<16)|op`, with `op` the
constant of the mnemonic.  In particular `add $1,$2,$3` yields 0x00430820,
whose bits 21-25 hold 2, bits 16-20 hold 3, bits 11-15 hold 1 and bits 0-10
hold 0x20 (bits 0-15 hold 0x0820: the field of `rd` lies inside them). -/
theorem register_only_words (symbolTable : Dictionary) (PCSecondPass : Int)
    (rd rs rt : Nat) (hd : rd ≤ 31) (hs : rs ≤ 31) (ht : rt ≤ 31)
    (x1 x2 x3 x4 x5 : String) (v0 v2 v4 : Int) :
    (∀ mn op, (mn, op) ∈ [("jr", 0x8), ("jalr", 0x9)] →
      encode symbolTable PCSecondPass [⟨.ID, mn, v0⟩, ⟨.REG, x1, rs⟩]
        = .ok (((rs <<< 21) ||| op : Nat) : Int)) ∧
    (∀ mn op, (mn, op) ∈ [("add", 0x20), ("sub", 0x22), ("slt", 0x2a), ("sltu", 0x2b)] →
      encode symbolTable PCSecondPass [⟨.ID, mn, v0⟩, ⟨.REG, x1, rd⟩, ⟨.COMMA, x2, v2⟩,
          ⟨.REG, x3, rs⟩, ⟨.COMMA, x4, v4⟩, ⟨.REG, x5, rt⟩]
        = .ok (((rs <<< 21) ||| (rt <<< 16) ||| (rd <<< 11) ||| op : Nat) : Int)) ∧
    (∀ mn op, (mn, op) ∈ [("lis", 0x14), ("mfhi", 0x10), ("mflo", 0x12)] →
      encode symbolTable PCSecondPass [⟨.ID, mn, v0⟩, ⟨.REG, x1, rd⟩]
        = .ok (((rd <<< 11) ||| op : Nat) : Int)) ∧
    (∀ mn op, (mn, op) ∈ [("mult", 0x18), ("multu", 0x19), ("div", 0x1a), ("divu", 0x1b)] →
      encode symbolTable PCSecondPass [⟨.ID, mn, v0⟩, ⟨.REG, x1, rs⟩, ⟨.COMMA, x2, v2⟩,
          ⟨.REG, x3, rt⟩]
        = .ok (((rs <<< 21) ||| (rt <<< 16) ||| op : Nat) : Int)) ∧
    (encode symbolTable PCSecondPass [⟨.ID, "add", v0⟩, ⟨.REG, x1, 1⟩, ⟨.COMMA, x2, v2⟩,
          ⟨.REG, x3, 2⟩, ⟨.COMMA, x4, v4⟩, ⟨.REG, x5, 3⟩] = .ok 0x00430820 ∧
      bitField 0x00430820 21 25 = 2 ∧ bitField 0x00430820 16 20 = 3 ∧
      bitField 0x00430820 11 15 = 1 ∧ bitField 0x00430820 0 10 = 0x20) := by
  have hrd := registerNumberInRange_natCast rd hd
  have hrs := registerNumberInRange_natCast rs hs
  have hrt := registerNumberInRange_natCast rt ht
  have hsh : toShort (rs : Int) = rs := toShort_of_range (by omega) (by omega)
  refine ⟨?_, ?_, ?_, ?_, ?_, ?_⟩
  · intro mn op h
    have hop : opcode.lookupAt mn = some (op : Int) ∧ op < 2 ^ 11 ∧ (mn = "jr" ∨ mn = "jalr") := by
      simp only [List.mem_cons, Prod.mk.injEq, List.mem_nil_iff, or_false] at h
      rcases h with ⟨rfl, rfl⟩ | ⟨rfl, rfl⟩ <;> exact ⟨by rfl, by norm_num, by simp⟩
    rw [encode_jr_shape symbolTable PCSecondPass mn op hop.2.2 hop.1, hsh, hrs]
    simp only [Bool.not_true, Bool.false_eq_true, if_false]
    rw [← hsh, word_of_jr rs op hs hop.2.1]
  · intro mn op h
    have hop : opcode.lookupAt mn = some (op : Int) ∧ op < 2 ^ 11 ∧
        (mn = "add" ∨ mn = "sub" ∨ mn = "slt" ∨ mn = "sltu") := by
      simp only [List.mem_cons, Prod.mk.injEq, List.mem_nil_iff, or_false] at h
      rcases h with ⟨rfl, rfl⟩ | ⟨rfl, rfl⟩ | ⟨rfl, rfl⟩ | ⟨rfl, rfl⟩ <;>
        exact ⟨by rfl, by norm_num, by simp⟩
    rw [encode_add_shape symbolTable PCSecondPass mn op hop.2.2 hop.1, hrd, hrs, hrt]
    simp only [Bool.not_true, Bool.false_eq_true, if_false]
    rw [word_of_fields rs rt rd op hs ht hd hop.2.1]
  · intro mn op h
    have hop : opcode.lookupAt mn = some (op : Int) ∧ op < 2 ^ 11 ∧
        (mn = "lis" ∨ mn = "mfhi" ∨ mn = "mflo") := by
      simp only [List.mem_cons, Prod.mk.injEq, List.mem_nil_iff, or_false] at h
      rcases h with ⟨rfl, rfl⟩ | ⟨rfl, rfl⟩ | ⟨rfl, rfl⟩ <;>
        exact ⟨by rfl, by norm_num, by simp⟩
    rw [encode_lis_shape symbolTable PCSecondPass mn op hop.2.2 hop.1, hrd]
    simp only [Bool.not_true, Bool.false_eq_true, if_false]
    rw [word_of_lis rd op hd hop.2.1]
  · intro mn op h
    have hop : opcode.lookupAt mn = some (op : Int) ∧ op < 2 ^ 11 ∧
        (mn = "mult" ∨ mn = "multu" ∨ mn = "div" ∨ mn = "divu") := by
      simp only [List.mem_cons, Prod.mk.injEq, List.mem_nil_iff, or_false] at h
      rcases h with ⟨rfl, rfl⟩ | ⟨rfl, rfl⟩ | ⟨rfl, rfl⟩ | ⟨rfl, rfl⟩ <;>
        exact ⟨by rfl, by norm_num, by simp⟩
    rw [encode_mult_shape symbolTable PCSecondPass mn op hop.2.2 hop.1, hrs, hrt]
    simp only [Bool.not_true, Bool.false_eq_true, if_false]
    rw [word_of_mult rs rt op hs ht hop.2.1]
  · rw [encode_add_shape symbolTable PCSecondPass "add" 0x20 (by simp) (by rfl)]
    rfl
  · refine ⟨?_, ?_, ?_, ?_⟩ <;> rfl

/-- C1, witness: the theorem at `add $1,$2,$3`, registers 1, 2 and 3. -/
theorem register_only_words_witness :
    encode [] 0 [⟨.ID, "add", 0⟩, ⟨.REG, "$1", ((1 : Nat) : Int)⟩, ⟨.COMMA, ",", 0⟩,
        ⟨.REG, "$2", ((2 : Nat) : Int)⟩, ⟨.COMMA, ",", 0⟩, ⟨.REG, "$3", ((3 : Nat) : Int)⟩]
      = .ok (((2 <<< 21) ||| (3 <<< 16) ||| (1 <<< 11) ||| 0x20 : Nat) : Int) :=
  (register_only_words [] 0 1 2 3 (by decide) (by decide) (by decide)
    "$1" "," "$2" "," "$3" 0 0 0).2.1 "add" 0x20 (by simp)

/-- C1, counterexample: the word of `add $1,$2,$3` does not hold 0x20 in its
bits 0-15; they hold 0x0820. -/
theorem add_low_half_not_opcode :
    ¬ ∃ w, encode [] 0 [⟨.ID, "add", 0⟩, ⟨.REG, "$1", 1⟩, ⟨.COMMA, ",", 0⟩,
        ⟨.REG, "$2", 2⟩, ⟨.COMMA, ",", 0⟩, ⟨.REG, "$3", 3⟩] = .ok w ∧
      bitField w 0 15 = 0x20 := by
  rintro ⟨w, hw, hb⟩
  have he : encode [] 0 [⟨.ID, "add", 0⟩, ⟨.REG, "$1", 1⟩, ⟨.COMMA, ",", 0⟩,
      ⟨.REG, "$2", 2⟩, ⟨.COMMA, ",", 0⟩, ⟨.REG, "$3", 3⟩] = .ok 0x00430820 := by rfl
  rw [he] at hw
  injection hw with hw
  subst hw
  revert hb
  decide

/-! ## C3: instruction-lines and label addresses of the first pass -/

/-- C3: when the first pass succeeds, the instruction-line list is the source
lines with their LABEL tokens removed, in source order, without the lines left
empty, and every label is bound to 4 times the number of source lines before
its own line that contain a non-label token.  Hence a line holding only labels
does not advance the counter, and its labels get the address of the next
instruction-line: the one at index `instructionCount (input.take i)` of the
list, which is the first instruction-line of the source after line `i`. -/
theorem first_pass_lines_and_addresses (input : List TokenLine) (symbolTable : Dictionary)
    (code : AssemblyCode) (h : firstPass input [] 0 [] = .ok (symbolTable, code)) :
    code = instructionLines input ∧
    (∀ i line, input[i]? = some line → ∀ t ∈ line, isLabel t = true →
      symbolTable.lookupAt (labelNameOf t)
        = some (4 * (instructionCount (input.take i) : Int))) ∧
    (∀ i line, input[i]? = some line → hasInstruction line = false →
      instructionCount (input.take (i + 1)) = instructionCount (input.take i) ∧
      code = instructionLines (input.take i) ++ instructionLines (input.drop (i + 1)) ∧
      (instructionLines (input.take i)).length = instructionCount (input.take i)) := by
  obtain ⟨h1, h2, _, _⟩ := firstPass_ok input [] 0 [] symbolTable code h
  rw [List.nil_append] at h1
  refine ⟨h1, ?_, ?_⟩
  · intro i line hl t ht hlab
    simpa using h2 i line hl t ht hlab
  · intro i line hl hno
    have hlt : i < input.length := by
      rcases Nat.lt_or_ge i input.length with hlt | hge
      · exact hlt
      · rw [List.getElem?_eq_none hge] at hl; cases hl
    have hget : input[i] = line := by
      rw [List.getElem?_eq_getElem hlt] at hl
      exact Option.some.inj hl
    have hsplit : input = input.take i ++ line :: input.drop (i + 1) := by
      rw [← hget, ← List.drop_eq_getElem_cons hlt, List.take_append_drop]
    have hone : instructionLines [line] = [] := by
      rw [instructionLines_cons, hno]; rfl
    refine ⟨?_, ?_, instructionLines_length _⟩
    · rw [← instructionLines_length, ← instructionLines_length, List.take_succ, hl,
        instructionLines_append]
      simp [hone]
    · rw [h1]
      conv_lhs => rw [hsplit]
      rw [show line :: input.drop (i + 1) = [line] ++ input.drop (i + 1) from rfl,
        instructionLines_append, instructionLines_append, hone, List.nil_append]

/-- C3, witness: a source of three lines, the second holding only the label
`end`, which gets address 4, the address of the `.word` line after it. -/
theorem first_pass_lines_and_addresses_witness :
    ∃ symbolTable code, firstPass sourceWithLabelLine [] 0 [] = .ok (symbolTable, code) ∧
      code = instructionLines sourceWithLabelLine ∧
      symbolTable.lookupAt "end" = some 4 :=
  ⟨[("w", 4), ("end", 4)],
    [[⟨.ID, "jr", 0⟩, ⟨.REG, "$31", 31⟩], [⟨.WORD, ".word", 0⟩, ⟨.ID, "end", 0⟩]],
    by rfl,
    (first_pass_lines_and_addresses sourceWithLabelLine _ _ (by rfl)).1,
    (first_pass_lines_and_addresses sourceWithLabelLine _ _ (by rfl)).2.1 1
      [⟨.LABEL, "end:", 0⟩] (by rfl) ⟨.LABEL, "end:", 0⟩ (by simp) (by rfl)⟩

/-! ## C4: duplicate label definitions -/

theorem labelsFirst_cons_label (t : Token) (rest : TokenLine) (h : isLabel t = true) :
    labelsFirst (t :: rest) = labelsFirst rest := by
  simp [labelsFirst, List.dropWhile_cons, h]

theorem labelsFirst_cons_other (t : Token) (rest : TokenLine) (h : isLabel t = false)
    (hf : labelsFirst (t :: rest) = true) : ∀ u ∈ rest, isLabel u = false := by
  simp only [labelsFirst, List.dropWhile_cons, h] at hf
  intro u hu
  have := List.all_eq_true.mp hf u (List.mem_cons_of_mem _ hu)
  simpa using this

/-- The token loop fails only with one of the two label errors, and with the
duplicate-label error when no label of the rest follows a non-label token. -/
theorem firstPassTokens_error (PC : Int) :
    ∀ (tokens : TokenLine) (st : Dictionary) (sp : TokenLine) (e : ParseError),
    firstPassTokens PC tokens st sp = .error e →
      ((∃ name, e = duplicateLabelError name) ∨ e = misplacedLabelError) ∧
      ((if sp.isEmpty then labelsFirst tokens = true else ∀ u ∈ tokens, isLabel u = false) →
        ∃ name, e = duplicateLabelError name) := by
  intro tokens
  induction tokens with
  | nil => intro st sp e h; simp [firstPassTokens] at h
  | cons t rest ih =>
    intro st sp e h
    rw [firstPassTokens] at h
    by_cases hk : t.getKind = Kind.LABEL
    · have hlt : isLabel t = true := by simp [isLabel, hk]
      rw [if_pos hk] at h
      by_cases hsp : sp.isEmpty = true
      · rw [if_pos hsp] at h
        by_cases hdef : labelIsNotPreviouslyDefined (labelNameOf t) st = true
        · simp only [hdef, if_true] at h
          obtain ⟨h1, h2⟩ := ih _ _ _ h
          refine ⟨h1, fun hc => h2 ?_⟩
          rw [if_pos hsp] at hc ⊢
          rwa [labelsFirst_cons_label t rest hlt] at hc
        · simp only [hdef, Bool.false_eq_true, if_false, Except.error.injEq] at h
          exact ⟨Or.inl ⟨_, h.symm⟩, fun _ => ⟨_, h.symm⟩⟩
      · rw [if_neg hsp] at h
        simp only [Except.error.injEq] at h
        refine ⟨Or.inr h.symm, fun hc => ?_⟩
        rw [if_neg hsp] at hc
        have := hc t (List.mem_cons_self _ _)
        rw [hlt] at this; cases this
    · have hlt : isLabel t = false := by simp [isLabel, hk]
      rw [if_neg hk] at h
      obtain ⟨h1, h2⟩ := ih _ _ _ h
      refine ⟨h1, fun hc => h2 ?_⟩
      have hne : (sp ++ [t]).isEmpty = false := by simp
      rw [hne]
      simp only [Bool.false_eq_true, if_false]
      by_cases hsp : sp.isEmpty = true
      · rw [if_pos hsp] at hc
        exact labelsFirst_cons_other t rest hlt hc
      · rw [if_neg hsp] at hc
        exact fun u hu => hc u (List.mem_cons_of_mem _ hu)

/-- The first pass fails only with one of the two label errors, and with the
duplicate-label error when no label follows a non-label token on its line. -/
theorem firstPass_error :
    ∀ (input : List TokenLine) (st : Dictionary) (PC : Int) (code : AssemblyCode)
      (e : ParseError),
    firstPass input st PC code = .error e →
      ((∃ name, e = duplicateLabelError name) ∨ e = misplacedLabelError) ∧
      ((∀ line ∈ input, labelsFirst line = true) → ∃ name, e = duplicateLabelError name) := by
  intro input
  induction input with
  | nil => intro st PC code e h; simp [firstPass] at h
  | cons line rest ih =>
    intro st PC code e h
    rw [firstPass_cons] at h
    cases htok : firstPassTokens PC line st [] with
    | error e1 =>
      rw [htok] at h
      simp only [Except.error.injEq] at h
      subst h
      obtain ⟨h1, h2⟩ := firstPassTokens_error PC line st [] e1 htok
      exact ⟨h1, fun hc => h2 (by simpa using hc line (List.mem_cons_self _ _))⟩
    | ok r =>
      obtain ⟨st2, sp⟩ := r
      rw [htok] at h
      obtain ⟨PC2, code2, hrest⟩ : ∃ PC2 code2, firstPass rest st2 PC2 code2 = .error e := by
        by_cases hi : sp.isEmpty = true
        · exact ⟨PC, code, by simpa [hi] using h⟩
        · exact ⟨PC + 4, code ++ [sp], by simpa [hi] using h⟩
      obtain ⟨h1, h2⟩ := ih st2 PC2 code2 e hrest
      exact ⟨h1, fun hc => h2 (fun l hl => hc l (List.mem_cons_of_mem _ hl))⟩

theorem duplicateLabelError_ne_misplaced (name : String) :
    duplicateLabelError name ≠ misplacedLabelError := by
  intro h
  have h1 := congrArg (fun e => e.content.data[18]?) h
  simp only [duplicateLabelError, misplacedLabelError, String.data_append] at h1
  rw [List.append_assoc, List.getElem?_append_left (by decide)] at h1
  revert h1
  decide

/-- C4, counterexample: on the line `a: jr $31 a:` the label `a` occurs in two
LABEL tokens, and the run fails with the label-not-first error, not with the
duplicate-label error. -/
theorem duplicate_after_instruction_not_reported :
    ¬ (labelNames [[⟨.LABEL, "a:", 0⟩, ⟨.ID, "jr", 0⟩, ⟨.REG, "$31", 31⟩,
        ⟨.LABEL, "a:", 0⟩]]).Nodup ∧
    (main [[⟨.LABEL, "a:", 0⟩, ⟨.ID, "jr", 0⟩, ⟨.REG, "$31", 31⟩,
        ⟨.LABEL, "a:", 0⟩]]).status = .error misplacedLabelError ∧
    ¬ ∃ name, (main [[⟨.LABEL, "a:", 0⟩, ⟨.ID, "jr", 0⟩, ⟨.REG, "$31", 31⟩,
        ⟨.LABEL, "a:", 0⟩]]).status = .error (duplicateLabelError name) := by
  have hs : (main [[⟨.LABEL, "a:", 0⟩, ⟨.ID, "jr", 0⟩, ⟨.REG, "$31", 31⟩,
      ⟨.LABEL, "a:", 0⟩]]).status = .error misplacedLabelError := by rfl
  refine ⟨by decide, hs, ?_⟩
  rintro ⟨name, hn⟩
  rw [hs] at hn
  simp only [Except.error.injEq] at hn
  exact duplicateLabelError_ne_misplaced name hn.symm

/-! ## The second-pass loop -/

theorem printNumber_length (value : Int) : (printNumber value).length = 4 := by
  simp [printNumber]

/-- The loop over a concatenation runs the second part from where the first
part stopped, if the first part was accepted. -/
theorem secondPass_append (st : Dictionary) :
    ∀ (a b : AssemblyCode) (PC : Int) (out : List Nat),
    secondPass st (a ++ b) PC out =
      match secondPass st a PC out with
      | (out1, .ok PC1) => secondPass st b PC1 out1
      | (out1, .error e) => (out1, .error e) := by
  intro a
  induction a with
  | nil => intro b PC out; simp [secondPass]
  | cons line rest ih =>
    intro b PC out
    rw [List.cons_append, secondPass, secondPass]
    cases encode st PC line with
    | error e => rfl
    | ok v => exact ih b _ _

/-- An accepted list of lines advances the counter by 4 and the output by four
bytes per line. -/
theorem secondPass_ok (st : Dictionary) :
    ∀ (code : AssemblyCode) (PC : Int) (out out1 : List Nat) (PC1 : Int),
    secondPass st code PC out = (out1, .ok PC1) →
      PC1 = PC + 4 * code.length ∧ out1.length = out.length + 4 * code.length := by
  intro code
  induction code with
  | nil =>
    intro PC out out1 PC1 h
    simp only [secondPass, Prod.mk.injEq, Except.ok.injEq] at h
    obtain ⟨rfl, rfl⟩ := h
    simp
  | cons line rest ih =>
    intro PC out out1 PC1 h
    rw [secondPass] at h
    cases he : encode st PC line with
    | error e => rw [he] at h; simp at h
    | ok v =>
      rw [he] at h
      obtain ⟨h1, h2⟩ := ih _ _ _ _ h
      rw [List.length_append, printNumber_length] at h2
      constructor
      · rw [h1, List.length_cons]; push_cast; ring
      · rw [h2, List.length_cons]; omega

/-- The loop only appends to the output, at most four bytes per line. -/
theorem secondPass_output (st : Dictionary) :
    ∀ (code : AssemblyCode) (PC : Int) (out : List Nat),
    ∃ more, (secondPass st code PC out).1 = out ++ more ∧ more.length ≤ 4 * code.length := by
  intro code
  induction code with
  | nil => intro PC out; exact ⟨[], by simp [secondPass], by simp⟩
  | cons line rest ih =>
    intro PC out
    rw [secondPass]
    cases he : encode st PC line with
    | error e => exact ⟨[], by simp, by simp⟩
    | ok v =>
      obtain ⟨more, h1, h2⟩ := ih (PC + 4) (out ++ printNumber v)
      refine ⟨printNumber v ++ more, by simp [h1], ?_⟩
      rw [List.length_append, printNumber_length, List.length_cons]
      omega

/-- The split of a list at an index that holds a line. -/
theorem split_at_line (code : AssemblyCode) (k : Nat) (line : TokenLine)
    (hk : code[k]? = some line) :
    code = code.take k ++ line :: code.drop (k + 1) ∧ (code.take k).length = k := by
  have hlt : k < code.length := by
    rcases Nat.lt_or_ge k code.length with hlt | hge
    · exact hlt
    · rw [List.getElem?_eq_none hge] at hk; cases hk
  have hget : code[k] = line := by
    rw [List.getElem?_eq_getElem hlt] at hk
    exact Option.some.inj hk
  constructor
  · rw [← hget, ← List.drop_eq_getElem_cons hlt, List.take_append_drop]
  · rw [List.length_take]; omega

/-- A line that the second pass rejects at every counter stops the run: the
status is an error, no word of that line or of a later line is written, and
when the earlier lines are accepted the error is the one of that line. -/
theorem main_rejected_line (input : List TokenLine) (st : Dictionary) (code : AssemblyCode)
    (h : firstPass input [] 0 [] = .ok (st, code)) (k : Nat) (line : TokenLine)
    (hk : code[k]? = some line) (e : ParseError) (he : ∀ PC, encode st PC line = .error e) :
    (∃ e1, (main input).status = .error e1) ∧ (main input).output.length ≤ 4 * k ∧
    (∀ out PC, secondPass st (code.take k) 0 [] = (out, .ok PC) →
      main input = ⟨out, .error e⟩ ∧ out.length = 4 * k) := by
  obtain ⟨hsplit, hlen⟩ := split_at_line code k line hk
  have hrun : secondPass st code 0 [] =
      match secondPass st (code.take k) 0 [] with
      | (out1, .ok _) => (out1, .error e)
      | (out1, .error e1) => (out1, .error e1) := by
    conv_lhs => rw [hsplit]
    rw [secondPass_append]
    cases hp : secondPass st (code.take k) 0 [] with
    | mk out1 r =>
      cases r with
      | error e1 => rfl
      | ok PC1 => simp only [secondPass, he]
  obtain ⟨more, hm1, hm2⟩ := secondPass_output st (code.take k) 0 []
  rw [List.nil_append] at hm1
  rw [hlen] at hm2
  have hmain : main input =
      match secondPass st (code.take k) 0 [] with
      | (out1, .ok _) => ⟨out1, .error e⟩
      | (out1, .error e1) => ⟨out1, .error e1⟩ := by
    simp only [main, h, hrun]
    cases hp : secondPass st (code.take k) 0 [] with
    | mk out1 r => cases r <;> rfl
  cases hp : secondPass st (code.take k) 0 [] with
  | mk out1 r =>
    rw [hp] at hm1 hmain
    simp only at hm1
    subst hm1
    cases r with
    | error e1 =>
      simp only at hmain
      rw [hmain]
      exact ⟨⟨e1, rfl⟩, hm2, fun out PC hx => by simp at hx⟩
    | ok PC1 =>
      simp only at hmain
      rw [hmain]
      refine ⟨⟨e, rfl⟩, hm2, fun out PC hx => ?_⟩
      simp only [Prod.mk.injEq, Except.ok.injEq] at hx
      obtain ⟨rfl, rfl⟩ := hx
      have := (secondPass_ok st (code.take k) 0 [] _ _ hp).2
      rw [hlen] at this
      exact ⟨rfl, by simpa using this⟩

/-! ## Branches -/

theorem and64_mask (v : Int) : and64 v 0xffff = (((v % 65536).toNat : Nat) : Int) := by
  have hb : bits64 0xffff = 2 ^ 16 - 1 := by rfl
  have hm : bits64 v % 2 ^ 16 = (v % 65536).toNat := by unfold bits64; omega
  have hlt : (v % 65536).toNat < 65536 := by omega
  unfold and64
  rw [hb, Nat.and_pow_two_sub_one_eq_mod, hm]
  exact toLongLong_of_range (by omega) (by omega)

/-- The word of a branch: the opcode above bit 26 stays below bit 31, so no
conversion changes the value. -/
theorem word_of_branch (op s t : Nat) (imm : Int) (hop : op ≤ 31) (hs : s ≤ 31) (ht : t ≤ 31) :
    toInt (or64 (or64 (or64 (shl32 op 26) (shl64 s 21)) (shl64 t 16)) (and64 imm 0xffff))
      = (((op <<< 26) ||| (s <<< 21) ||| (t <<< 16) ||| (imm % 65536).toNat : Nat) : Int) := by
  have h0 : op <<< 26 < 2 ^ 31 := by
    rw [Nat.shiftLeft_eq]
    calc op * 2 ^ 26 ≤ 31 * 2 ^ 26 := Nat.mul_le_mul_right _ hop
      _ < 2 ^ 31 := by norm_num
  have h1 : s <<< 21 < 2 ^ 31 :=
    Nat.lt_of_lt_of_le (shiftLeft_field_lt s 21 hs (by norm_num)) (by norm_num)
  have h2 : t <<< 16 < 2 ^ 31 :=
    Nat.lt_of_lt_of_le (shiftLeft_field_lt t 16 ht (by norm_num)) (by norm_num)
  have h3 : (imm % 65536).toNat < 2 ^ 31 := by omega
  rw [and64_mask, shl32_natCast _ _ (by omega), shl64_natCast _ _ (by omega),
    shl64_natCast _ _ (by omega)]
  have e1 := Nat.or_lt_two_pow h0 h1
  have e2 := Nat.or_lt_two_pow e1 h2
  have e3 := Nat.or_lt_two_pow e2 h3
  rw [or64_natCast _ _ (by omega) (by omega), or64_natCast _ _ (by omega) (by omega),
    or64_natCast _ _ (by omega) (by omega), toInt_of_range (by omega) (by omega)]

theorem encode_beq_shape (symbolTable : Dictionary) (PC : Int) (mn : String) (op : Int)
    (hm : mn = "beq" ∨ mn = "bne") (hop : opcode.lookupAt mn = some op)
    (x1 x2 x3 x4 : String) (v0 v2 v4 S T : Int) (imm : Token) :
    encode symbolTable PC [⟨.ID, mn, v0⟩, ⟨.REG, x1, S⟩, ⟨.COMMA, x2, v2⟩, ⟨.REG, x3, T⟩,
      ⟨.COMMA, x4, v4⟩, imm] =
    if !registerNumberInRange S then
      .error ⟨"(2nd Pass): Register D of beq/bne is out of range."⟩
    else if !registerNumberInRange T then
      .error ⟨"(2nd Pass): Register S of beq/bne is out of range."⟩
    else
      match immediateBeq symbolTable PC imm with
      | .error e => .error e
      | .ok valueI =>
        .ok (toInt (or64 (or64 (or64 (shl32 op 26) (shl64 S 21)) (shl64 T 16))
          (and64 valueI 0xffff))) := by
  rcases hm with rfl | rfl <;>
    simp [encode, encodeBeq, nth, Token.getKind, Token.getLexeme, Token.toLong, hop]

/-- The immediate of a branch to a label bound in the symbol table. -/
theorem immediateBeq_label (symbolTable : Dictionary) (PC : Int) (L : String) (v a : Int)
    (ha : symbolTable.lookupAt L = some a) :
    immediateBeq symbolTable PC ⟨.ID, L, v⟩ =
      if -32768 ≤ Int.tdiv (a - PC - 4) 4 ∧ Int.tdiv (a - PC - 4) 4 ≤ 32767 then
        .ok (Int.tdiv (a - PC - 4) 4)
      else .error ⟨"(2nd Pass) Label immediate after beq/bne is out of range."⟩ := by
  simp only [immediateBeq, Token.getKind, Token.getLexeme, ha, labelImmediateOutOfBound,
    LABEL_IMMEDIATE_MAX, LABEL_IMMEDIATE_MIN]
  by_cases h1 : -32768 ≤ Int.tdiv (a - PC - 4) 4 <;>
    by_cases h2 : Int.tdiv (a - PC - 4) 4 ≤ 32767 <;> simp [h1, h2]

/-- The immediate of a branch to a label absent from the symbol table. -/
theorem immediateBeq_undefined (symbolTable : Dictionary) (PC : Int) (L : String) (v : Int)
    (ha : symbolTable.lookupAt L = none) :
    immediateBeq symbolTable PC ⟨.ID, L, v⟩ =
      .error ⟨"(2nd Pass): Attempt to jump to undefined label after beq/bne"⟩ := by
  simp [immediateBeq, Token.getKind, Token.getLexeme, ha]

/-- A well-formed branch to a bound label: accepted exactly when the offset is
in range, with the word of the table. -/
theorem encode_branch_label (symbolTable : Dictionary) (PC : Int) (mn : String) (op : Nat)
    (hm : (mn, op) ∈ [("beq", 4), ("bne", 5)]) (rs rt : Nat) (hs : rs ≤ 31) (ht : rt ≤ 31)
    (x1 x2 x3 x4 L : String) (v0 v2 v4 v5 a : Int) (ha : symbolTable.lookupAt L = some a) :
    encode symbolTable PC [⟨.ID, mn, v0⟩, ⟨.REG, x1, rs⟩, ⟨.COMMA, x2, v2⟩, ⟨.REG, x3, rt⟩,
      ⟨.COMMA, x4, v4⟩, ⟨.ID, L, v5⟩] =
    if -32768 ≤ Int.tdiv (a - PC - 4) 4 ∧ Int.tdiv (a - PC - 4) 4 ≤ 32767 then
      .ok (((op <<< 26) ||| (rs <<< 21) ||| (rt <<< 16)
        ||| (Int.tdiv (a - PC - 4) 4 % 65536).toNat : Nat) : Int)
    else .error ⟨"(2nd Pass) Label immediate after beq/bne is out of range."⟩ := by
  have hop : opcode.lookupAt mn = some (op : Int) ∧ op ≤ 31 ∧ (mn = "beq" ∨ mn = "bne") := by
    simp only [List.mem_cons, Prod.mk.injEq, List.mem_nil_iff, or_false] at hm
    rcases hm with ⟨rfl, rfl⟩ | ⟨rfl, rfl⟩ <;> exact ⟨by rfl, by norm_num, by simp⟩
  rw [encode_beq_shape symbolTable PC mn op hop.2.2 hop.1,
    registerNumberInRange_natCast rs hs, registerNumberInRange_natCast rt ht,
    immediateBeq_label symbolTable PC L v5 a ha]
  simp only [Bool.not_true, Bool.false_eq_true, if_false]
  by_cases hc : -32768 ≤ Int.tdiv (a - PC - 4) 4 ∧ Int.tdiv (a - PC - 4) 4 ≤ 32767
  · rw [if_pos hc, if_pos hc]
    simp only
    rw [word_of_branch op rs rt _ hop.2.1 hs ht]
  · rw [if_neg hc, if_neg hc]

/-- Every address of the symbol table after a successful first pass is four
times a number of instruction-lines. -/
theorem firstPass_address (input : List TokenLine) (symbolTable : Dictionary)
    (code : AssemblyCode) (h : firstPass input [] 0 [] = .ok (symbolTable, code))
    (L : String) (a : Int) (ha : symbolTable.lookupAt L = some a) :
    ∃ n : Nat, n ≤ instructionCount input ∧ a = 4 * (n : Int) ∧
      ∃ p line, input[p]? = some line ∧ n = instructionCount (input.take p) ∧
        ∃ t ∈ line, isLabel t = true ∧ labelNameOf t = L := by
  obtain ⟨_, _, _, h4⟩ := firstPass_ok input [] 0 [] symbolTable code h
  rcases h4 L a ha with h5 | ⟨p, line, hp, hv, hex⟩
  · simp [Dictionary.lookupAt] at h5
  · refine ⟨instructionCount (input.take p), ?_, by simpa using hv, p, line, hp, rfl, hex⟩
    have hcount : instructionCount input
        = instructionCount (input.take p) + instructionCount (input.drop p) := by
      unfold instructionCount
      rw [← List.length_append, ← List.filter_append, List.take_append_drop]
    omega

/-! ## C2: the immediate of a branch to a label -/

/-- C2: after a successful first pass, for a well-formed `beq`/`bne $rs,$rt,L`
at instruction-line index `i` (the counter of the second pass at that line is
`4 * i`) whose label `L` is bound to address `a`: `a - 4*i - 4` is a multiple
of 4, the immediate computed is `imm = (a - 4*i - 4) / 4`, the line is accepted
exactly when `-32768 ≤ imm ≤ 32767`, and the word is
`(op<<26)|(rs<<21)|(rt<<16)|(imm & 0xFFFF)` with `op` 4 for `beq` and 5 for
`bne` (`imm & 0xFFFF` is `imm` modulo 65536). -/
theorem branch_to_label (input : List TokenLine) (symbolTable : Dictionary)
    (code : AssemblyCode) (h : firstPass input [] 0 [] = .ok (symbolTable, code))
    (i : Nat) (mn : String) (op : Nat) (hm : (mn, op) ∈ [("beq", 4), ("bne", 5)])
    (rs rt : Nat) (hs : rs ≤ 31) (ht : rt ≤ 31) (x1 x2 x3 x4 L : String)
    (v0 v2 v4 v5 a : Int) (line : TokenLine)
    (hshape : line = [⟨.ID, mn, v0⟩, ⟨.REG, x1, rs⟩, ⟨.COMMA, x2, v2⟩, ⟨.REG, x3, rt⟩,
      ⟨.COMMA, x4, v4⟩, ⟨.ID, L, v5⟩])
    (hline : code[i]? = some line) (ha : symbolTable.lookupAt L = some a) :
    (∀ out PC, secondPass symbolTable (code.take i) 0 [] = (out, .ok PC) → PC = 4 * (i : Int)) ∧
    (4 : Int) ∣ (a - 4 * i - 4) ∧
    immediateBeq symbolTable (4 * i) ⟨.ID, L, v5⟩ =
      (if -32768 ≤ (a - 4 * i - 4) / 4 ∧ (a - 4 * i - 4) / 4 ≤ 32767 then
        .ok ((a - 4 * i - 4) / 4)
      else .error ⟨"(2nd Pass) Label immediate after beq/bne is out of range."⟩) ∧
    (accepts symbolTable (4 * i) line ↔
      (-32768 ≤ (a - 4 * i - 4) / 4 ∧ (a - 4 * i - 4) / 4 ≤ 32767)) ∧
    (-32768 ≤ (a - 4 * i - 4) / 4 → (a - 4 * i - 4) / 4 ≤ 32767 →
      encode symbolTable (4 * i) line = .ok (((op <<< 26) ||| (rs <<< 21) ||| (rt <<< 16)
        ||| ((a - 4 * i - 4) / 4 % 65536).toNat : Nat) : Int)) := by
  obtain ⟨n, _, hn, _⟩ := firstPass_address input symbolTable code h L a ha
  have hdvd : (4 : Int) ∣ (a - 4 * i - 4) := by
    rw [hn]; exact ⟨(n : Int) - i - 1, by ring⟩
  have htd : Int.tdiv (a - 4 * i - 4) 4 = (a - 4 * i - 4) / 4 := Int.tdiv_eq_ediv_of_dvd hdvd
  have henc := encode_branch_label symbolTable (4 * i) mn op hm rs rt hs ht x1 x2 x3 x4 L
    v0 v2 v4 v5 a ha
  have himm := immediateBeq_label symbolTable (4 * i) L v5 a ha
  rw [htd] at henc himm
  rw [← hshape] at henc
  refine ⟨?_, hdvd, himm, ?_, ?_⟩
  · intro out PC hrun
    have := (secondPass_ok symbolTable (code.take i) 0 [] out PC hrun).1
    rw [(split_at_line code i line hline).2] at this
    simpa using this
  · unfold accepts
    rw [henc]
    by_cases hc : -32768 ≤ (a - 4 * i - 4) / 4 ∧ (a - 4 * i - 4) / 4 ≤ 32767
    · rw [if_pos hc]; exact ⟨fun _ => hc, fun _ => ⟨_, rfl⟩⟩
    · rw [if_neg hc]
      constructor
      · rintro ⟨w, hw⟩
        cases hw
      · exact fun hc2 => absurd hc2 hc
  · intro h1 h2
    rw [henc, if_pos ⟨h1, h2⟩]

/-- C2, witness: `beq $0,$0,L` at address 8 (index 2) with `L` at address 0:
the immediate is -3 and the word 0x1000FFFD. -/
theorem branch_to_label_witness :
    firstPass sourceBackwardBranch [] 0 [] = .ok ([("L", 0)], sourceBackwardBranchCode) ∧
    ((0 : Int) - 4 * (2 : Nat) - 4) / 4 = -3 ∧
    encode [("L", 0)] (4 * (2 : Nat)) [⟨.ID, "beq", 0⟩, ⟨.REG, "$0", ((0 : Nat) : Int)⟩,
      ⟨.COMMA, ",", 0⟩, ⟨.REG, "$0", ((0 : Nat) : Int)⟩, ⟨.COMMA, ",", 0⟩, ⟨.ID, "L", 0⟩]
      = .ok 0x1000FFFD :=
  ⟨by rfl, by decide,
    (branch_to_label sourceBackwardBranch [("L", 0)] sourceBackwardBranchCode (by rfl) 2
      "beq" 4 (by simp) 0 0 (by decide) (by decide) "$0" "," "$0" "," "L" 0 0 0 0 0 _ rfl
      (by rfl) (by rfl)).2.2.2.2 (by decide) (by decide)⟩

/-! ## The `.word` directive -/

theorem encode_word_id (symbolTable : Dictionary) (PC : Int) (x0 L : String) (v0 v1 : Int) :
    encode symbolTable PC [⟨.WORD, x0, v0⟩, ⟨.ID, L, v1⟩] =
      match symbolTable.lookupAt L with
      | some value => .ok value
      | none => .error ⟨"(2nd Pass) Attempt to retrive an undefined label."⟩ := by
  simp [encode, encodeWord, nth, Token.getKind, Token.getLexeme]

theorem encode_word_int (symbolTable : Dictionary) (PC : Int) (x0 x1 : String) (v0 v : Int) :
    encode symbolTable PC [⟨.WORD, x0, v0⟩, ⟨.INT, x1, v⟩] =
      if decimalNumberIsInRange v then .ok v
      else .error ⟨"(2nd Pass) Decimal number NOT IN RANGE"⟩ := by
  simp [encode, encodeWord, nth, Token.getKind, Token.toLong]

theorem encode_word_hexint (symbolTable : Dictionary) (PC : Int) (x0 x1 : String)
    (v0 v : Int) :
    encode symbolTable PC [⟨.WORD, x0, v0⟩, ⟨.HEXINT, x1, v⟩] =
      if hexadecimalNumberIsInRange (toUnsignedInt v) then .ok (toUnsignedInt v)
      else .error ⟨"(1st Pass): Hexadecimal number NOT IN RANGE"⟩ := by
  simp [encode, encodeWord, nth, Token.getKind, Token.toLong]

/-- The four bytes of `printNumber`, most significant first. -/
theorem printNumber_eq (value : Int) :
    printNumber value = [(value / 16777216 % 256).toNat, (value / 65536 % 256).toNat,
      (value / 256 % 256).toNat, (value % 256).toNat] := by
  have h : printNumber value = [((value >>> (24 : Nat)) % 256).toNat,
      ((value >>> (16 : Nat)) % 256).toNat, ((value >>> (8 : Nat)) % 256).toNat,
      ((value >>> (0 : Nat)) % 256).toNat] := by rfl
  rw [h]
  simp only [Int.shiftRight_eq_div_pow]
  norm_num

/-- The bytes of `printNumber` read back as a big-endian number give the value
modulo 2^32. -/
theorem printNumber_bigEndian (value : Int) :
    bigEndian (printNumber value) = (value % 4294967296).toNat := by
  rw [printNumber_eq]
  simp only [bigEndian, List.foldl_cons, List.foldl_nil]
  omega

/-! ## C5: references to undefined labels -/

/-- C5: after a successful first pass, if instruction-line `k` is a two-token
`.word L` line, or a `beq`/`bne` line of valid shape with registers in [0,31]
and the identifier `L` as its last token, and `L` is not a key of the symbol
table, then the second pass rejects line `k` at every counter with an
undefined-label error: the run fails, no word of line `k` is written (at most
`4 * k` bytes of output), and when the lines before `k` are accepted the run
ends with exactly their `4 * k` bytes and that error. -/
theorem undefined_label_fails (input : List TokenLine) (symbolTable : Dictionary)
    (code : AssemblyCode) (h : firstPass input [] 0 [] = .ok (symbolTable, code))
    (k : Nat) (line : TokenLine) (hk : code[k]? = some line) (L : String)
    (hL : symbolTable.lookupAt L = none)
    (hshape : (∃ x0 v0 v1, line = [⟨.WORD, x0, v0⟩, ⟨.ID, L, v1⟩]) ∨
      (∃ mn x1 x2 x3 x4 v0 v2 v4 v5, ∃ rs rt : Nat, (mn = "beq" ∨ mn = "bne") ∧ rs ≤ 31 ∧
        rt ≤ 31 ∧ line = [⟨.ID, mn, v0⟩, ⟨.REG, x1, rs⟩, ⟨.COMMA, x2, v2⟩, ⟨.REG, x3, rt⟩,
          ⟨.COMMA, x4, v4⟩, ⟨.ID, L, v5⟩])) :
    ∃ e : ParseError,
      (e = ⟨"(2nd Pass) Attempt to retrive an undefined label."⟩ ∨
        e = ⟨"(2nd Pass): Attempt to jump to undefined label after beq/bne"⟩) ∧
      (∀ PC, encode symbolTable PC line = .error e) ∧
      (∃ e1, (main input).status = .error e1) ∧ (main input).output.length ≤ 4 * k ∧
      (∀ out PC, secondPass symbolTable (code.take k) 0 [] = (out, .ok PC) →
        main input = ⟨out, .error e⟩ ∧ out.length = 4 * k) := by
  have key : ∃ e : ParseError,
      (e = ⟨"(2nd Pass) Attempt to retrive an undefined label."⟩ ∨
        e = ⟨"(2nd Pass): Attempt to jump to undefined label after beq/bne"⟩) ∧
      (∀ PC, encode symbolTable PC line = .error e) := by
    rcases hshape with ⟨x0, v0, v1, rfl⟩ | ⟨mn, x1, x2, x3, x4, v0, v2, v4, v5, rs, rt, hm,
      hs, ht, rfl⟩
    · refine ⟨_, Or.inl rfl, fun PC => ?_⟩
      rw [encode_word_id, hL]
    · refine ⟨_, Or.inr rfl, fun PC => ?_⟩
      have hop : ∃ op, opcode.lookupAt mn = some op := by
        rcases hm with rfl | rfl
        · exact ⟨4, by rfl⟩
        · exact ⟨5, by rfl⟩
      obtain ⟨op, hop⟩ := hop
      rw [encode_beq_shape symbolTable PC mn op hm hop, registerNumberInRange_natCast rs hs,
        registerNumberInRange_natCast rt ht, immediateBeq_undefined symbolTable PC L v5 hL]
      rfl
  obtain ⟨e, he1, he2⟩ := key
  exact ⟨e, he1, he2, main_rejected_line input symbolTable code h k line hk e he2⟩

/-- C5, witness: `.word nowhere` at index 1, after one accepted line. -/
theorem undefined_label_fails_witness :
    ∃ e : ParseError,
      (e = ⟨"(2nd Pass) Attempt to retrive an undefined label."⟩ ∨
        e = ⟨"(2nd Pass): Attempt to jump to undefined label after beq/bne"⟩) ∧
      (∀ PC, encode [] PC [⟨.WORD, ".word", 0⟩, ⟨.ID, "nowhere", 0⟩] = .error e) ∧
      (∃ e1, (main sourceUndefinedLabel).status = .error e1) ∧
      (main sourceUndefinedLabel).output.length ≤ 4 * 1 ∧
      (∀ out PC, secondPass [] (List.take 1 sourceUndefinedLabel) 0 [] = (out, .ok PC) →
        main sourceUndefinedLabel = ⟨out, .error e⟩ ∧ out.length = 4 * 1) :=
  undefined_label_fails sourceUndefinedLabel [] sourceUndefinedLabel (by rfl) 1
    [⟨.WORD, ".word", 0⟩, ⟨.ID, "nowhere", 0⟩] (by rfl) "nowhere" (by rfl)
    (Or.inl ⟨".word", 0, 0, rfl⟩)

/-! ## C6: forward references -/

/-- C6: after a successful first pass, a label defined by a LABEL token on any
source line `p` (before or after its uses) is bound to its first-pass address,
four times the number of instruction-lines before line `p`; every two-token
`.word L` line is accepted at every counter and produces that address, whose
four bytes are written most significant first; and a well-formed branch at
instruction-line index `i` to a label defined `j` instruction-lines later
(address `4 * (i + j)`, with `0 ≤ j - 1 ≤ 32767`) is accepted with immediate
`j - 1`. -/
theorem forward_references (input : List TokenLine) (symbolTable : Dictionary)
    (code : AssemblyCode) (h : firstPass input [] 0 [] = .ok (symbolTable, code))
    (p : Nat) (sourceLine : TokenLine) (hp : input[p]? = some sourceLine) (t : Token)
    (ht : t ∈ sourceLine) (hlab : isLabel t = true) :
    symbolTable.lookupAt (labelNameOf t) = some (4 * (instructionCount (input.take p) : Int)) ∧
    (∀ PC x0 v0 v1, encode symbolTable PC [⟨.WORD, x0, v0⟩, ⟨.ID, labelNameOf t, v1⟩]
      = .ok (4 * (instructionCount (input.take p) : Int))) ∧
    ((printNumber (4 * (instructionCount (input.take p) : Int))).length = 4 ∧
      bigEndian (printNumber (4 * (instructionCount (input.take p) : Int)))
        = (4 * instructionCount (input.take p)) % 4294967296) ∧
    (∀ (i j : Nat) mn (op rs rt : Nat) x1 x2 x3 x4 v0 v2 v4 v5,
      instructionCount (input.take p) = i + j → 1 ≤ j → j - 1 ≤ 32767 →
      (mn, op) ∈ [("beq", 4), ("bne", 5)] → rs ≤ 31 → rt ≤ 31 →
      encode symbolTable (4 * i) [⟨.ID, mn, v0⟩, ⟨.REG, x1, rs⟩, ⟨.COMMA, x2, v2⟩,
          ⟨.REG, x3, rt⟩, ⟨.COMMA, x4, v4⟩, ⟨.ID, labelNameOf t, v5⟩]
        = .ok (((op <<< 26) ||| (rs <<< 21) ||| (rt <<< 16) ||| (j - 1) : Nat) : Int)) := by
  have hbind := (firstPass_ok input [] 0 [] symbolTable code h).2.1 p sourceLine hp t ht hlab
  rw [Int.zero_add] at hbind
  refine ⟨hbind, ?_, ⟨printNumber_length _, ?_⟩, ?_⟩
  · intro PC x0 v0 v1
    rw [encode_word_id, hbind]
  · rw [printNumber_bigEndian]
    omega
  · intro i j mn op rs rt x1 x2 x3 x4 v0 v2 v4 v5 hij hj1 hj2 hm hs ht
    have htd : Int.tdiv (4 * ((instructionCount (input.take p) : Nat) : Int) - 4 * i - 4) 4
        = ((j - 1 : Nat) : Int) := by
      have : (4 * ((instructionCount (input.take p) : Nat) : Int) - 4 * i - 4)
          = 4 * ((j - 1 : Nat) : Int) := by
        rw [hij]; push_cast; omega
      rw [this]
      exact Int.mul_tdiv_cancel_left _ (by norm_num)
    rw [encode_branch_label symbolTable (4 * i) mn op hm rs rt hs ht x1 x2 x3 x4 _ v0 v2 v4
      v5 _ hbind, htd]
    have hmod : (((j - 1 : Nat) : Int) % 65536).toNat = j - 1 := by omega
    rw [if_pos (by omega), hmod]

/-- C6, witness: in `sourceForward` the label `end` is defined on the last
line, at address 12; `.word end` on the first line produces 12, and the branch
at index 1 to `end`, two instruction-lines later, has immediate 1. -/
theorem forward_references_witness :
    (main sourceForward).output = [0, 0, 0, 12, 16, 34, 0, 1, 3, 224, 0, 8, 3, 224, 0, 8] ∧
    encode [("end", 12)] 0 [⟨.WORD, ".word", 0⟩, ⟨.ID, "end", 0⟩] = .ok 12 ∧
    encode [("end", 12)] (4 * (1 : Nat)) [⟨.ID, "beq", 0⟩, ⟨.REG, "$1", ((1 : Nat) : Int)⟩,
        ⟨.COMMA, ",", 0⟩, ⟨.REG, "$2", ((2 : Nat) : Int)⟩, ⟨.COMMA, ",", 0⟩, ⟨.ID, "end", 0⟩]
      = .ok 0x10220001 :=
  ⟨by rfl,
    (forward_references sourceForward [("end", 12)] (instructionLines sourceForward) (by rfl) 3
      [⟨.LABEL, "end:", 0⟩, ⟨.ID, "jr", 0⟩, ⟨.REG, "$31", 31⟩] (by rfl)
      ⟨.LABEL, "end:", 0⟩ (by simp) (by rfl)).2.1 0 ".word" 0 0,
    (forward_references sourceForward [("end", 12)] (instructionLines sourceForward) (by rfl) 3
      [⟨.LABEL, "end:", 0⟩, ⟨.ID, "jr", 0⟩, ⟨.REG, "$31", 31⟩] (by rfl)
      ⟨.LABEL, "end:", 0⟩ (by simp) (by rfl)).2.2.2 1 2 "beq" 4 1 2 "$1" "," "$2" "," 0 0 0 0
      (by rfl) (by decide) (by decide) (by simp) (by decide) (by decide)⟩

/-! ## Acceptance of each family -/

theorem rejects_iff_not_accepts (symbolTable : Dictionary) (PC : Int) (line : TokenLine) :
    rejects symbolTable PC line ↔ ¬ accepts symbolTable PC line := by
  unfold rejects accepts
  cases encode symbolTable PC line with
  | error e => simp
  | ok w => simp

theorem encode_lw_shape (symbolTable : Dictionary) (PC : Int) (mn : String) (op : Int)
    (hm : mn = "lw" ∨ mn = "sw") (hop : opcode.lookupAt mn = some op)
    (x1 x2 x4 x5 x6 : String) (v0 v2 v4 v6 S T : Int) (imm : Token) :
    encode symbolTable PC [⟨.ID, mn, v0⟩, ⟨.REG, x1, T⟩, ⟨.COMMA, x2, v2⟩, imm,
      ⟨.LPAREN, x4, v4⟩, ⟨.REG, x5, S⟩, ⟨.RPAREN, x6, v6⟩] =
    if !registerNumberInRange T then
      .error ⟨"(2nd Pass): Register T of lw/sw is out of range."⟩
    else
      match immediateLw imm with
      | .error e => .error e
      | .ok valueOfImmediate =>
        if !registerNumberInRange S then
          .error ⟨"(2nd Pass): Register S of lw/sw is out of range."⟩
        else
          .ok (toInt (or64 (or64 (or64 (shl32 op 26) (shl64 S 21)) (shl64 T 16))
            (and64 valueOfImmediate 0xffff))) := by
  rcases hm with rfl | rfl <;>
    simp [encode, encodeLw, nth, Token.getKind, Token.getLexeme, Token.toLong, hop]

theorem accepts_jr_iff (symbolTable : Dictionary) (PC : Int) (mn : String)
    (hm : mn = "jr" ∨ mn = "jalr") (x1 : String) (v0 S : Int) :
    accepts symbolTable PC [⟨.ID, mn, v0⟩, ⟨.REG, x1, S⟩]
      ↔ registerNumberInRange (toShort S) = true := by
  have hop : ∃ op, opcode.lookupAt mn = some op := by
    rcases hm with rfl | rfl <;> exact ⟨_, by rfl⟩
  obtain ⟨op, hop⟩ := hop
  unfold accepts
  rw [encode_jr_shape symbolTable PC mn op hm hop]
  cases registerNumberInRange (toShort S) <;> simp

theorem accepts_add_iff (symbolTable : Dictionary) (PC : Int) (mn : String)
    (hm : mn = "add" ∨ mn = "sub" ∨ mn = "slt" ∨ mn = "sltu")
    (x1 x2 x3 x4 x5 : String) (v0 v2 v4 D S T : Int) :
    accepts symbolTable PC [⟨.ID, mn, v0⟩, ⟨.REG, x1, D⟩, ⟨.COMMA, x2, v2⟩, ⟨.REG, x3, S⟩,
      ⟨.COMMA, x4, v4⟩, ⟨.REG, x5, T⟩]
      ↔ (registerNumberInRange D = true ∧ registerNumberInRange S = true ∧
          registerNumberInRange T = true) := by
  have hop : ∃ op, opcode.lookupAt mn = some op := by
    rcases hm with rfl | rfl | rfl | rfl <;> exact ⟨_, by rfl⟩
  obtain ⟨op, hop⟩ := hop
  unfold accepts
  rw [encode_add_shape symbolTable PC mn op hm hop]
  cases registerNumberInRange D <;> cases registerNumberInRange S <;>
    cases registerNumberInRange T <;> simp

theorem accepts_beq_iff (symbolTable : Dictionary) (PC : Int) (mn : String)
    (hm : mn = "beq" ∨ mn = "bne") (x1 x2 x3 x4 : String) (v0 v2 v4 S T : Int)
    (imm : Token) :
    accepts symbolTable PC [⟨.ID, mn, v0⟩, ⟨.REG, x1, S⟩, ⟨.COMMA, x2, v2⟩, ⟨.REG, x3, T⟩,
      ⟨.COMMA, x4, v4⟩, imm]
      ↔ (registerNumberInRange S = true ∧ registerNumberInRange T = true ∧
          ∃ v, immediateBeq symbolTable PC imm = .ok v) := by
  have hop : ∃ op, opcode.lookupAt mn = some op := by
    rcases hm with rfl | rfl <;> exact ⟨_, by rfl⟩
  obtain ⟨op, hop⟩ := hop
  unfold accepts
  rw [encode_beq_shape symbolTable PC mn op hm hop]
  cases registerNumberInRange S <;> cases registerNumberInRange T <;>
    cases immediateBeq symbolTable PC imm <;> simp

theorem accepts_lis_iff (symbolTable : Dictionary) (PC : Int) (mn : String)
    (hm : mn = "lis" ∨ mn = "mfhi" ∨ mn = "mflo") (x1 : String) (v0 D : Int) :
    accepts symbolTable PC [⟨.ID, mn, v0⟩, ⟨.REG, x1, D⟩]
      ↔ registerNumberInRange D = true := by
  have hop : ∃ op, opcode.lookupAt mn = some op := by
    rcases hm with rfl | rfl | rfl <;> exact ⟨_, by rfl⟩
  obtain ⟨op, hop⟩ := hop
  unfold accepts
  rw [encode_lis_shape symbolTable PC mn op hm hop]
  cases registerNumberInRange D <;> simp

theorem accepts_mult_iff (symbolTable : Dictionary) (PC : Int) (mn : String)
    (hm : mn = "mult" ∨ mn = "multu" ∨ mn = "div" ∨ mn = "divu")
    (x1 x2 x3 : String) (v0 v2 S T : Int) :
    accepts symbolTable PC [⟨.ID, mn, v0⟩, ⟨.REG, x1, S⟩, ⟨.COMMA, x2, v2⟩, ⟨.REG, x3, T⟩]
      ↔ (registerNumberInRange S = true ∧ registerNumberInRange T = true) := by
  have hop : ∃ op, opcode.lookupAt mn = some op := by
    rcases hm with rfl | rfl | rfl | rfl <;> exact ⟨_, by rfl⟩
  obtain ⟨op, hop⟩ := hop
  unfold accepts
  rw [encode_mult_shape symbolTable PC mn op hm hop]
  cases registerNumberInRange S <;> cases registerNumberInRange T <;> simp

theorem accepts_lw_iff (symbolTable : Dictionary) (PC : Int) (mn : String)
    (hm : mn = "lw" ∨ mn = "sw") (x1 x2 x4 x5 x6 : String) (v0 v2 v4 v6 S T : Int)
    (imm : Token) :
    accepts symbolTable PC [⟨.ID, mn, v0⟩, ⟨.REG, x1, T⟩, ⟨.COMMA, x2, v2⟩, imm,
      ⟨.LPAREN, x4, v4⟩, ⟨.REG, x5, S⟩, ⟨.RPAREN, x6, v6⟩]
      ↔ (registerNumberInRange T = true ∧ registerNumberInRange S = true ∧
          ∃ v, immediateLw imm = .ok v) := by
  have hop : ∃ op, opcode.lookupAt mn = some op := by
    rcases hm with rfl | rfl <;> exact ⟨_, by rfl⟩
  obtain ⟨op, hop⟩ := hop
  unfold accepts
  rw [encode_lw_shape symbolTable PC mn op hm hop]
  cases registerNumberInRange T <;> cases registerNumberInRange S <;>
    cases immediateLw imm <;> simp

/-- A valid branch immediate is accepted. -/
theorem immediateBeq_valid (symbolTable : Dictionary) (PC : Int) (imm : Token)
    (h : validBranchImmediate symbolTable PC imm) :
    ∃ v, immediateBeq symbolTable PC imm = .ok v := by
  rcases h with ⟨hk, h1, h2⟩ | ⟨hk, h1, h2⟩ | ⟨hk, a, ha, h1, h2⟩
  · refine ⟨imm.value, ?_⟩
    simp only [immediateBeq, Token.getKind, Token.toLong, hk, decimalImmediateOutOfBound,
      DECIMAL_IMMEDIATE_MAX, DECIMAL_IMMEDIATE_MIN]
    have e1 : ¬ imm.value > 32767 := by omega
    have e2 : ¬ imm.value < -32768 := by omega
    simp [e1, e2]
  · refine ⟨imm.value, ?_⟩
    simp only [immediateBeq, Token.getKind, Token.toLong, hk, hexadecimalImmediateOutOfBound,
      HEXADECIMAL_IMMEDIATE_MAX, HEXADECIMAL_IMMEDIATE_MIN]
    have e1 : ¬ imm.value > 65535 := by omega
    have e2 : ¬ imm.value < 0 := by omega
    simp [e1, e2]
  · refine ⟨Int.tdiv (a - PC - 4) 4, ?_⟩
    have := immediateBeq_label symbolTable PC imm.lexeme imm.value a ha
    rw [if_pos ⟨h1, h2⟩] at this
    rw [← this]
    congr 1
    cases imm
    simp only at hk
    subst hk
    rfl

/-- A valid load/store immediate is accepted. -/
theorem immediateLw_valid (imm : Token) (h : validMemoryImmediate imm) :
    ∃ v, immediateLw imm = .ok v := by
  rcases h with ⟨hk, h1, h2⟩ | ⟨hk, h1, h2⟩
  · refine ⟨imm.value, ?_⟩
    simp only [immediateLw, Token.getKind, Token.toLong, hk, decimalImmediateOutOfBound,
      DECIMAL_IMMEDIATE_MAX, DECIMAL_IMMEDIATE_MIN]
    have e1 : ¬ imm.value > 32767 := by omega
    have e2 : ¬ imm.value < -32768 := by omega
    simp [e1, e2]
  · refine ⟨imm.value, ?_⟩
    simp only [immediateLw, Token.getKind, Token.toLong, hk, hexadecimalImmediateOutOfBound,
      HEXADECIMAL_IMMEDIATE_MAX, HEXADECIMAL_IMMEDIATE_MIN]
    have e1 : ¬ imm.value > 65535 := by omega
    have e2 : ¬ imm.value < 0 := by omega
    simp [e1, e2]

theorem registerNumberInRange_32 : registerNumberInRange 32 = false := by decide

theorem registerNumberInRange_toShort_32 : registerNumberInRange (toShort 32) = false := by
  decide

theorem registerNumberInRange_toShort_natCast (r : Nat) (h : r ≤ 31) :
    registerNumberInRange (toShort (r : Int)) = true := by
  rw [toShort_of_range (by omega) (by omega)]
  exact registerNumberInRange_natCast r h

/-! ## C8: the register boundaries 0, 31 and 32 -/

/-- C8: in each of the six mnemonic families and at each register position of a
line that is otherwise valid (the other registers `a`, `b` in [0,31], a valid
immediate), the register value 32 is rejected and the register values 0 and 31
(`e`) are accepted. -/
theorem register_boundaries (symbolTable : Dictionary) (PC : Int)
    (e : Nat) (he : e = 0 ∨ e = 31) (a b : Nat) (ha : a ≤ 31) (hb : b ≤ 31)
    (x1 x2 x3 x4 x5 x6 : String) (v0 v2 v4 v6 : Int) (imm : Token) :
    (∀ mn, mn ∈ ["jr", "jalr"] →
      accepts symbolTable PC [⟨.ID, mn, v0⟩, ⟨.REG, x1, e⟩] ∧
      rejects symbolTable PC [⟨.ID, mn, v0⟩, ⟨.REG, x1, 32⟩]) ∧
    (∀ mn, mn ∈ ["add", "sub", "slt", "sltu"] →
      accepts symbolTable PC [⟨.ID, mn, v0⟩, ⟨.REG, x1, e⟩, ⟨.COMMA, x2, v2⟩, ⟨.REG, x3, a⟩,
        ⟨.COMMA, x4, v4⟩, ⟨.REG, x5, b⟩] ∧
      accepts symbolTable PC [⟨.ID, mn, v0⟩, ⟨.REG, x1, a⟩, ⟨.COMMA, x2, v2⟩, ⟨.REG, x3, e⟩,
        ⟨.COMMA, x4, v4⟩, ⟨.REG, x5, b⟩] ∧
      accepts symbolTable PC [⟨.ID, mn, v0⟩, ⟨.REG, x1, a⟩, ⟨.COMMA, x2, v2⟩, ⟨.REG, x3, b⟩,
        ⟨.COMMA, x4, v4⟩, ⟨.REG, x5, e⟩] ∧
      rejects symbolTable PC [⟨.ID, mn, v0⟩, ⟨.REG, x1, 32⟩, ⟨.COMMA, x2, v2⟩, ⟨.REG, x3, a⟩,
        ⟨.COMMA, x4, v4⟩, ⟨.REG, x5, b⟩] ∧
      rejects symbolTable PC [⟨.ID, mn, v0⟩, ⟨.REG, x1, a⟩, ⟨.COMMA, x2, v2⟩, ⟨.REG, x3, 32⟩,
        ⟨.COMMA, x4, v4⟩, ⟨.REG, x5, b⟩] ∧
      rejects symbolTable PC [⟨.ID, mn, v0⟩, ⟨.REG, x1, a⟩, ⟨.COMMA, x2, v2⟩, ⟨.REG, x3, b⟩,
        ⟨.COMMA, x4, v4⟩, ⟨.REG, x5, 32⟩]) ∧
    (∀ mn, mn ∈ ["beq", "bne"] → validBranchImmediate symbolTable PC imm →
      accepts symbolTable PC [⟨.ID, mn, v0⟩, ⟨.REG, x1, e⟩, ⟨.COMMA, x2, v2⟩, ⟨.REG, x3, a⟩,
        ⟨.COMMA, x4, v4⟩, imm] ∧
      accepts symbolTable PC [⟨.ID, mn, v0⟩, ⟨.REG, x1, a⟩, ⟨.COMMA, x2, v2⟩, ⟨.REG, x3, e⟩,
        ⟨.COMMA, x4, v4⟩, imm] ∧
      rejects symbolTable PC [⟨.ID, mn, v0⟩, ⟨.REG, x1, 32⟩, ⟨.COMMA, x2, v2⟩, ⟨.REG, x3, a⟩,
        ⟨.COMMA, x4, v4⟩, imm] ∧
      rejects symbolTable PC [⟨.ID, mn, v0⟩, ⟨.REG, x1, a⟩, ⟨.COMMA, x2, v2⟩, ⟨.REG, x3, 32⟩,
        ⟨.COMMA, x4, v4⟩, imm]) ∧
    (∀ mn, mn ∈ ["lis", "mfhi", "mflo"] →
      accepts symbolTable PC [⟨.ID, mn, v0⟩, ⟨.REG, x1, e⟩] ∧
      rejects symbolTable PC [⟨.ID, mn, v0⟩, ⟨.REG, x1, 32⟩]) ∧
    (∀ mn, mn ∈ ["mult", "multu", "div", "divu"] →
      accepts symbolTable PC [⟨.ID, mn, v0⟩, ⟨.REG, x1, e⟩, ⟨.COMMA, x2, v2⟩, ⟨.REG, x3, a⟩] ∧
      accepts symbolTable PC [⟨.ID, mn, v0⟩, ⟨.REG, x1, a⟩, ⟨.COMMA, x2, v2⟩, ⟨.REG, x3, e⟩] ∧
      rejects symbolTable PC [⟨.ID, mn, v0⟩, ⟨.REG, x1, 32⟩, ⟨.COMMA, x2, v2⟩, ⟨.REG, x3, a⟩] ∧
      rejects symbolTable PC [⟨.ID, mn, v0⟩, ⟨.REG, x1, a⟩, ⟨.COMMA, x2, v2⟩,
        ⟨.REG, x3, 32⟩]) ∧
    (∀ mn, mn ∈ ["lw", "sw"] → validMemoryImmediate imm →
      accepts symbolTable PC [⟨.ID, mn, v0⟩, ⟨.REG, x1, e⟩, ⟨.COMMA, x2, v2⟩, imm,
        ⟨.LPAREN, x4, v4⟩, ⟨.REG, x5, a⟩, ⟨.RPAREN, x6, v6⟩] ∧
      accepts symbolTable PC [⟨.ID, mn, v0⟩, ⟨.REG, x1, a⟩, ⟨.COMMA, x2, v2⟩, imm,
        ⟨.LPAREN, x4, v4⟩, ⟨.REG, x5, e⟩, ⟨.RPAREN, x6, v6⟩] ∧
      rejects symbolTable PC [⟨.ID, mn, v0⟩, ⟨.REG, x1, 32⟩, ⟨.COMMA, x2, v2⟩, imm,
        ⟨.LPAREN, x4, v4⟩, ⟨.REG, x5, a⟩, ⟨.RPAREN, x6, v6⟩] ∧
      rejects symbolTable PC [⟨.ID, mn, v0⟩, ⟨.REG, x1, a⟩, ⟨.COMMA, x2, v2⟩, imm,
        ⟨.LPAREN, x4, v4⟩, ⟨.REG, x5, 32⟩, ⟨.RPAREN, x6, v6⟩]) := by
  have hle : e ≤ 31 := by omega
  have re := registerNumberInRange_natCast e hle
  have ra := registerNumberInRange_natCast a ha
  have rb := registerNumberInRange_natCast b hb
  have r32 := registerNumberInRange_32
  refine ⟨?_, ?_, ?_, ?_, ?_, ?_⟩
  · intro mn hmn
    have hm : mn = "jr" ∨ mn = "jalr" := by simpa using hmn
    rw [rejects_iff_not_accepts, accepts_jr_iff _ _ _ hm, accepts_jr_iff _ _ _ hm,
      registerNumberInRange_toShort_32]
    exact ⟨registerNumberInRange_toShort_natCast e hle, by simp⟩
  · intro mn hmn
    have hm : mn = "add" ∨ mn = "sub" ∨ mn = "slt" ∨ mn = "sltu" := by simpa using hmn
    simp only [rejects_iff_not_accepts, accepts_add_iff _ _ _ hm, re, ra, rb, r32]
    simp
  · intro mn hmn himm
    have hm : mn = "beq" ∨ mn = "bne" := by simpa using hmn
    have hv := immediateBeq_valid symbolTable PC imm himm
    simp only [rejects_iff_not_accepts, accepts_beq_iff _ _ _ hm, re, ra, r32]
    simp [hv]
  · intro mn hmn
    have hm : mn = "lis" ∨ mn = "mfhi" ∨ mn = "mflo" := by simpa using hmn
    simp only [rejects_iff_not_accepts, accepts_lis_iff _ _ _ hm, re, r32]
    simp
  · intro mn hmn
    have hm : mn = "mult" ∨ mn = "multu" ∨ mn = "div" ∨ mn = "divu" := by simpa using hmn
    simp only [rejects_iff_not_accepts, accepts_mult_iff _ _ _ hm, re, ra, r32]
    simp
  · intro mn hmn himm
    have hm : mn = "lw" ∨ mn = "sw" := by simpa using hmn
    have hv := immediateLw_valid imm himm
    simp only [rejects_iff_not_accepts, accepts_lw_iff _ _ _ hm, re, ra, r32]
    simp [hv]

/-- C8, witness: `e = 31` with the other registers 1 and 2, for `add`. -/
theorem register_boundaries_witness :
    accepts [] 0 [⟨.ID, "add", 0⟩, ⟨.REG, "$31", ((31 : Nat) : Int)⟩, ⟨.COMMA, ",", 0⟩,
        ⟨.REG, "$1", ((1 : Nat) : Int)⟩, ⟨.COMMA, ",", 0⟩, ⟨.REG, "$2", ((2 : Nat) : Int)⟩] ∧
    rejects [] 0 [⟨.ID, "add", 0⟩, ⟨.REG, "$32", 32⟩, ⟨.COMMA, ",", 0⟩,
        ⟨.REG, "$1", ((1 : Nat) : Int)⟩, ⟨.COMMA, ",", 0⟩, ⟨.REG, "$2", ((2 : Nat) : Int)⟩] :=
  ⟨((register_boundaries [] 0 31 (Or.inr rfl) 1 2 (by decide) (by decide)
      "$31" "," "$1" "," "$2" ")" 0 0 0 0 ⟨.INT, "4", 4⟩).2.1 "add" (by simp)).1,
    ((register_boundaries [] 0 31 (Or.inr rfl) 1 2 (by decide) (by decide)
      "$32" "," "$1" "," "$2" ")" 0 0 0 0 ⟨.INT, "4", 4⟩).2.1 "add" (by simp)).2.2.2.1⟩

/-! ## C7: register values outside the 16-bit and 32-bit ranges -/

/-- C7 (the code at the failing inputs): `jr $65536` is accepted, because the
register value is converted to `short` before the range check, and the run
writes the word of `jr $0`; `add $4294967296,$0,$0` is accepted, because
`registerNumberInRange` takes an `int`, and produces the word of
`add $0,$0,$0`. -/
theorem register_out_of_range_accepted :
    encode [] 0 [⟨.ID, "jr", 0⟩, ⟨.REG, "$65536", 65536⟩] = .ok 8 ∧
    (main [[⟨.ID, "jr", 0⟩, ⟨.REG, "$65536", 65536⟩]]).output = [0, 0, 0, 8] ∧
    (main [[⟨.ID, "jr", 0⟩, ⟨.REG, "$65536", 65536⟩]]).status = .ok [] ∧
    encode [] 0 [⟨.ID, "add", 0⟩, ⟨.REG, "$4294967296", 4294967296⟩, ⟨.COMMA, ",", 0⟩,
      ⟨.REG, "$0", 0⟩, ⟨.COMMA, ",", 0⟩, ⟨.REG, "$0", 0⟩] = .ok 0x20 := by
  refine ⟨?_, ?_, ?_, ?_⟩ <;> rfl

/-! ## C9: `.word` with a hexadecimal operand -/

/-- The `.word` branch accepts every HEXINT operand: the value is converted to
`unsigned int` before `hexadecimalNumberIsInRange` sees it. -/
theorem encode_word_hexint_always (symbolTable : Dictionary) (PC : Int) (x0 x1 : String)
    (v0 v : Int) :
    encode symbolTable PC [⟨.WORD, x0, v0⟩, ⟨.HEXINT, x1, v⟩] = .ok (v % 4294967296) := by
  rw [encode_word_hexint]
  have h : hexadecimalNumberIsInRange (toUnsignedInt v) = true := by
    simp only [hexadecimalNumberIsInRange, HEXADECIMAL_MIN, HEXADECIMAL_MAX, toUnsignedInt,
      Bool.and_eq_true, decide_eq_true_eq]
    omega
  rw [h]
  rfl

/-- C9 (the code at the failing input): `.word 0x100000000`, a HEXINT of value
2^32, is accepted and the run writes 00 00 00 00; `.word 0xFFFFFFFF` writes
FF FF FF FF. -/
theorem word_hexint_out_of_range_accepted :
    encode [] 0 [⟨.WORD, ".word", 0⟩, ⟨.HEXINT, "0x100000000", 4294967296⟩] = .ok 0 ∧
    (main [[⟨.WORD, ".word", 0⟩, ⟨.HEXINT, "0x100000000", 4294967296⟩]]).output
      = [0, 0, 0, 0] ∧
    (main [[⟨.WORD, ".word", 0⟩, ⟨.HEXINT, "0x100000000", 4294967296⟩]]).status = .ok [] ∧
    (main [[⟨.WORD, ".word", 0⟩, ⟨.HEXINT, "0xFFFFFFFF", 4294967295⟩]]).output
      = [255, 255, 255, 255] := by
  refine ⟨?_, ?_, ?_, ?_⟩ <;> rfl

/-! ## C10: `.word` with a decimal operand -/

theorem printNumber_bytes (value : Int) :
    printNumber value = bigEndianBytes (value % 4294967296).toNat := by
  rw [printNumber_eq]
  simp only [bigEndianBytes, List.cons.injEq, and_true]
  norm_num
  refine ⟨?_, ?_, ?_, ?_⟩ <;> omega

/-- C10: a two-token `.word` line with an INT operand of value `v` is accepted
if and only if `-2^31 ≤ v ≤ 2^32 - 1`; when accepted, the value handed to the
emitter is `v` and the four bytes written are the big-endian bytes of
`v mod 2^32`, so that an accepted negative `v` and `v + 2^32` (also accepted)
write the same bytes; outside the range the decimal range error is thrown. -/
theorem word_int_range (symbolTable : Dictionary) (PC : Int) (x0 x1 : String) (v0 v : Int) :
    (accepts symbolTable PC [⟨.WORD, x0, v0⟩, ⟨.INT, x1, v⟩]
      ↔ (-2147483648 ≤ v ∧ v ≤ 4294967295)) ∧
    (-2147483648 ≤ v → v ≤ 4294967295 →
      encode symbolTable PC [⟨.WORD, x0, v0⟩, ⟨.INT, x1, v⟩] = .ok v ∧
      printNumber v = bigEndianBytes (v % 4294967296).toNat ∧
      bigEndian (printNumber v) = (v % 4294967296).toNat) ∧
    (-2147483648 ≤ v → v < 0 →
      encode symbolTable PC [⟨.WORD, x0, v0⟩, ⟨.INT, x1, v + 4294967296⟩]
        = .ok (v + 4294967296) ∧
      printNumber (v + 4294967296) = printNumber v) ∧
    (¬ (-2147483648 ≤ v ∧ v ≤ 4294967295) →
      encode symbolTable PC [⟨.WORD, x0, v0⟩, ⟨.INT, x1, v⟩]
        = .error ⟨"(2nd Pass) Decimal number NOT IN RANGE"⟩) := by
  have hr : ∀ u : Int, decimalNumberIsInRange u = true ↔ (-2147483648 ≤ u ∧ u ≤ 4294967295) := by
    intro u
    simp [decimalNumberIsInRange, DECIMAL_MIN, DECIMAL_MAX]
  refine ⟨?_, ?_, ?_, ?_⟩
  · unfold accepts
    rw [encode_word_int, ← hr]
    cases decimalNumberIsInRange v <;> simp
  · intro h1 h2
    rw [encode_word_int, if_pos ((hr v).mpr ⟨h1, h2⟩)]
    exact ⟨rfl, printNumber_bytes v, printNumber_bigEndian v⟩
  · intro h1 h2
    rw [encode_word_int, if_pos ((hr _).mpr ⟨by omega, by omega⟩)]
    refine ⟨rfl, ?_⟩
    rw [printNumber_bytes, printNumber_bytes]
    congr 2
    omega
  · intro h
    rw [encode_word_int, if_neg (fun hc => h ((hr v).mp hc))]

/-- C10, witness: `.word -1` is accepted and writes FF FF FF FF, the bytes of
4294967295. -/
theorem word_int_range_witness :
    encode [] 0 [⟨.WORD, ".word", 0⟩, ⟨.INT, "-1", -1⟩] = .ok (-1) ∧
    printNumber (-1) = bigEndianBytes 4294967295 ∧
    printNumber (-1 + 4294967296) = printNumber (-1) ∧
    printNumber (-1) = [255, 255, 255, 255] :=
  ⟨((word_int_range [] 0 ".word" "-1" 0 (-1)).2.1 (by decide) (by decide)).1,
    ((word_int_range [] 0 ".word" "-1" 0 (-1)).2.1 (by decide) (by decide)).2.1,
    ((word_int_range [] 0 ".word" "-1" 0 (-1)).2.2.1 (by decide) (by decide)).2,
    by rfl⟩

/-! ## C11: the directive `.word -1` -/

/-- A source of one `.word` line with an INT operand outside the decimal range:
the run fails in the second pass and writes nothing. -/
theorem main_word_int_out_of_range (x0 x1 : String) (v0 v : Int)
    (h : v < -2147483648 ∨ 4294967295 < v) :
    main [[⟨.WORD, x0, v0⟩, ⟨.INT, x1, v⟩]]
      = ⟨[], .error ⟨"(2nd Pass) Decimal number NOT IN RANGE"⟩⟩ := by
  have hr : decimalNumberIsInRange v = false := by
    rcases h with h | h <;> simp [decimalNumberIsInRange, DECIMAL_MIN, DECIMAL_MAX] <;> omega
  have hf : firstPass [[⟨.WORD, x0, v0⟩, ⟨.INT, x1, v⟩]] [] 0 []
      = .ok ([], [[⟨.WORD, x0, v0⟩, ⟨.INT, x1, v⟩]]) := by
    simp [firstPass, firstPassTokens, Token.getKind]
  simp only [main, hf, secondPass, encode_word_int, hr]
  simp

/-- C11 (amended): the directive `.word -1` is accepted: the value handed to the
emitter is -1, the run succeeds and writes FF FF FF FF, the bytes of
4294967295.  A two-token `.word` line with an INT operand of value `v` is
rejected if and only if `v < -2^31` or `v > 2^32 - 1`; the error is then the
decimal range error, and a run on that line alone writes no word. -/
theorem word_minus_one_accepted :
    (encode [] 0 [⟨.WORD, ".word", 0⟩, ⟨.INT, "-1", -1⟩] = .ok (-1) ∧
      (main [[⟨.WORD, ".word", 0⟩, ⟨.INT, "-1", -1⟩]]).output = [255, 255, 255, 255] ∧
      (main [[⟨.WORD, ".word", 0⟩, ⟨.INT, "-1", -1⟩]]).status = .ok []) ∧
    ∀ (symbolTable : Dictionary) (PC : Int) (x0 x1 : String) (v0 v : Int),
      (rejects symbolTable PC [⟨.WORD, x0, v0⟩, ⟨.INT, x1, v⟩]
        ↔ (v < -2147483648 ∨ 4294967295 < v)) ∧
      ((v < -2147483648 ∨ 4294967295 < v) →
        encode symbolTable PC [⟨.WORD, x0, v0⟩, ⟨.INT, x1, v⟩]
          = .error ⟨"(2nd Pass) Decimal number NOT IN RANGE"⟩ ∧
        (main [[⟨.WORD, x0, v0⟩, ⟨.INT, x1, v⟩]]).output = [] ∧
        (main [[⟨.WORD, x0, v0⟩, ⟨.INT, x1, v⟩]]).status
          = .error ⟨"(2nd Pass) Decimal number NOT IN RANGE"⟩) := by
  refine ⟨⟨by rfl, by rfl, by rfl⟩, ?_⟩
  intro symbolTable PC x0 x1 v0 v
  have hr : decimalNumberIsInRange v = true ↔ (-2147483648 ≤ v ∧ v ≤ 4294967295) := by
    simp [decimalNumberIsInRange, DECIMAL_MIN, DECIMAL_MAX]
  constructor
  · unfold rejects
    rw [encode_word_int]
    by_cases hv : decimalNumberIsInRange v = true
    · have := hr.mp hv
      simp only [hv, if_true]
      constructor
      · rintro ⟨e, he⟩
        cases he
      · intro h
        omega
    · have hn : ¬ (-2147483648 ≤ v ∧ v ≤ 4294967295) := fun hc => hv (hr.mpr hc)
      simp only [hv]
      constructor
      · intro _
        omega
      · intro _
        exact ⟨_, rfl⟩
  · intro h
    have hn : ¬ decimalNumberIsInRange v = true := fun hc => by
      have := hr.mp hc
      omega
    rw [encode_word_int, if_neg hn, main_word_int_out_of_range x0 x1 v0 v h]
    exact ⟨rfl, rfl, rfl⟩

/-- C11, witness: `.word -2147483649`, an INT below -2^31, is rejected with the
decimal range error and the run on it writes no word. -/
theorem word_minus_one_accepted_witness :
    (-2147483649 : Int) < -2147483648 ∧
    encode [] 0 [⟨.WORD, ".word", 0⟩, ⟨.INT, "-2147483649", -2147483649⟩]
      = .error ⟨"(2nd Pass) Decimal number NOT IN RANGE"⟩ ∧
    (main [[⟨.WORD, ".word", 0⟩, ⟨.INT, "-2147483649", -2147483649⟩]]).output = [] ∧
    (main [[⟨.WORD, ".word", 0⟩, ⟨.INT, "-2147483649", -2147483649⟩]]).status
      = .error ⟨"(2nd Pass) Decimal number NOT IN RANGE"⟩ :=
  ⟨by decide, (word_minus_one_accepted.2 [] 0 ".word" "-2147483649" 0 (-2147483649)).2
    (Or.inl (by decide))⟩

/-- C11, counterexample: the second pass does not reject `.word -1`, and the run
on it does not fail. -/
theorem word_minus_one_not_rejected :
    ¬ rejects [] 0 [⟨.WORD, ".word", 0⟩, ⟨.INT, "-1", -1⟩] ∧
    ¬ ∃ e, (main [[⟨.WORD, ".word", 0⟩, ⟨.INT, "-1", -1⟩]]).status = .error e := by
  constructor
  · rw [rejects_iff_not_accepts, not_not]
    exact ⟨-1, by rfl⟩
  · rintro ⟨e, he⟩
    have hs : (main [[⟨.WORD, ".word", 0⟩, ⟨.INT, "-1", -1⟩]]).status = .ok [] := by rfl
    rw [hs] at he
    cases he

/-! ## C12: immediates of branches and of loads and stores -/

theorem immediateBeq_int (symbolTable : Dictionary) (PC : Int) (x : String) (v : Int) :
    immediateBeq symbolTable PC ⟨.INT, x, v⟩ =
      if -32768 ≤ v ∧ v ≤ 32767 then .ok v
      else .error ⟨"(2nd Pass): Decimal immediate after beq/bne is out of range."⟩ := by
  simp only [immediateBeq, Token.getKind, Token.toLong, decimalImmediateOutOfBound,
    DECIMAL_IMMEDIATE_MAX, DECIMAL_IMMEDIATE_MIN]
  by_cases h1 : -32768 ≤ v <;> by_cases h2 : v ≤ 32767 <;> simp [h1, h2]

theorem immediateBeq_hexint (symbolTable : Dictionary) (PC : Int) (x : String) (v : Int) :
    immediateBeq symbolTable PC ⟨.HEXINT, x, v⟩ =
      if 0 ≤ v ∧ v ≤ 65535 then .ok v
      else .error ⟨"(2nd Pass): Hexadecimal immediate after beq/bne is out of range."⟩ := by
  simp only [immediateBeq, Token.getKind, Token.toLong, hexadecimalImmediateOutOfBound,
    HEXADECIMAL_IMMEDIATE_MAX, HEXADECIMAL_IMMEDIATE_MIN]
  by_cases h1 : 0 ≤ v <;> by_cases h2 : v ≤ 65535 <;> simp [h1, h2]

theorem immediateLw_int (x : String) (v : Int) :
    immediateLw ⟨.INT, x, v⟩ =
      if -32768 ≤ v ∧ v ≤ 32767 then .ok v
      else .error ⟨"(2nd Pass): Decimal Immediate of lw/sw is out of range."⟩ := by
  simp only [immediateLw, Token.getKind, Token.toLong, decimalImmediateOutOfBound,
    DECIMAL_IMMEDIATE_MAX, DECIMAL_IMMEDIATE_MIN]
  by_cases h1 : -32768 ≤ v <;> by_cases h2 : v ≤ 32767 <;> simp [h1, h2]

theorem immediateLw_hexint (x : String) (v : Int) :
    immediateLw ⟨.HEXINT, x, v⟩ =
      if 0 ≤ v ∧ v ≤ 65535 then .ok v
      else .error ⟨"(2nd Pass): Hexadecimal immediate of lw/sw is out of range."⟩ := by
  simp only [immediateLw, Token.getKind, Token.toLong, hexadecimalImmediateOutOfBound,
    HEXADECIMAL_IMMEDIATE_MAX, HEXADECIMAL_IMMEDIATE_MIN]
  by_cases h1 : 0 ≤ v <;> by_cases h2 : v ≤ 65535 <;> simp [h1, h2]

theorem immediateLw_other (imm : Token) (h1 : imm.kind ≠ Kind.INT) (h2 : imm.kind ≠ Kind.HEXINT) :
    immediateLw imm
      = .error ⟨"(2nd Pass): Expecting a decimal/hexadecimal immediate at lw/sw[3]."⟩ := by
  simp [immediateLw, Token.getKind, h1, h2]

theorem ok_ite_iff (c : Prop) [Decidable c] (v : Int) (e : ParseError) :
    (∃ u, (if c then (Except.ok v : Except ParseError Int) else .error e) = .ok u) ↔ c := by
  by_cases h : c <;> simp [h]

/-- C12: on a `beq`/`bne` or `lw`/`sw` line that is otherwise valid (required
shape, registers `rs`, `rt` in [0,31]), an INT immediate of value `v` is
accepted if and only if `-32768 ≤ v ≤ 32767`, a HEXINT immediate of value `v`
is accepted if and only if `0 ≤ v ≤ 65535`, and an `lw`/`sw` line whose
immediate position holds a token of any kind other than INT or HEXINT (an ID
for instance) is rejected. -/
theorem immediate_ranges (symbolTable : Dictionary) (PC : Int) (rs rt : Nat)
    (hs : rs ≤ 31) (ht : rt ≤ 31) (x1 x2 x3 x4 x5 x6 : String) (v0 v2 v4 v6 v : Int) :
    (∀ mn, mn ∈ ["beq", "bne"] →
      (accepts symbolTable PC [⟨.ID, mn, v0⟩, ⟨.REG, x1, rs⟩, ⟨.COMMA, x2, v2⟩,
          ⟨.REG, x3, rt⟩, ⟨.COMMA, x4, v4⟩, ⟨.INT, x5, v⟩] ↔ (-32768 ≤ v ∧ v ≤ 32767)) ∧
      (accepts symbolTable PC [⟨.ID, mn, v0⟩, ⟨.REG, x1, rs⟩, ⟨.COMMA, x2, v2⟩,
          ⟨.REG, x3, rt⟩, ⟨.COMMA, x4, v4⟩, ⟨.HEXINT, x5, v⟩] ↔ (0 ≤ v ∧ v ≤ 65535))) ∧
    (∀ mn, mn ∈ ["lw", "sw"] →
      (accepts symbolTable PC [⟨.ID, mn, v0⟩, ⟨.REG, x1, rt⟩, ⟨.COMMA, x2, v2⟩,
          ⟨.INT, x3, v⟩, ⟨.LPAREN, x4, v4⟩, ⟨.REG, x5, rs⟩, ⟨.RPAREN, x6, v6⟩]
        ↔ (-32768 ≤ v ∧ v ≤ 32767)) ∧
      (accepts symbolTable PC [⟨.ID, mn, v0⟩, ⟨.REG, x1, rt⟩, ⟨.COMMA, x2, v2⟩,
          ⟨.HEXINT, x3, v⟩, ⟨.LPAREN, x4, v4⟩, ⟨.REG, x5, rs⟩, ⟨.RPAREN, x6, v6⟩]
        ↔ (0 ≤ v ∧ v ≤ 65535)) ∧
      (∀ imm : Token, imm.kind ≠ Kind.INT → imm.kind ≠ Kind.HEXINT →
        rejects symbolTable PC [⟨.ID, mn, v0⟩, ⟨.REG, x1, rt⟩, ⟨.COMMA, x2, v2⟩, imm,
          ⟨.LPAREN, x4, v4⟩, ⟨.REG, x5, rs⟩, ⟨.RPAREN, x6, v6⟩])) := by
  have rs_ok := registerNumberInRange_natCast rs hs
  have rt_ok := registerNumberInRange_natCast rt ht
  constructor
  · intro mn hmn
    have hm : mn = "beq" ∨ mn = "bne" := by simpa using hmn
    rw [accepts_beq_iff _ _ _ hm, accepts_beq_iff _ _ _ hm, immediateBeq_int,
      immediateBeq_hexint, ok_ite_iff, ok_ite_iff]
    simp [rs_ok, rt_ok]
  · intro mn hmn
    have hm : mn = "lw" ∨ mn = "sw" := by simpa using hmn
    refine ⟨?_, ?_, ?_⟩
    · rw [accepts_lw_iff _ _ _ hm, immediateLw_int, ok_ite_iff]
      simp [rs_ok, rt_ok]
    · rw [accepts_lw_iff _ _ _ hm, immediateLw_hexint, ok_ite_iff]
      simp [rs_ok, rt_ok]
    · intro imm h1 h2
      rw [rejects_iff_not_accepts, accepts_lw_iff _ _ _ hm, immediateLw_other imm h1 h2]
      simp

/-- C12, witness: `lw $1, 32768($2)` is rejected and `lw $1, 0xFFFF($2)` is
accepted; `lw $1, L($2)` with an identifier is rejected. -/
theorem immediate_ranges_witness :
    ¬ accepts [] 0 [⟨.ID, "lw", 0⟩, ⟨.REG, "$1", ((1 : Nat) : Int)⟩, ⟨.COMMA, ",", 0⟩,
        ⟨.INT, "32768", 32768⟩, ⟨.LPAREN, "(", 0⟩, ⟨.REG, "$2", ((2 : Nat) : Int)⟩,
        ⟨.RPAREN, ")", 0⟩] ∧
    accepts [] 0 [⟨.ID, "lw", 0⟩, ⟨.REG, "$1", ((1 : Nat) : Int)⟩, ⟨.COMMA, ",", 0⟩,
        ⟨.HEXINT, "0xFFFF", 65535⟩, ⟨.LPAREN, "(", 0⟩, ⟨.REG, "$2", ((2 : Nat) : Int)⟩,
        ⟨.RPAREN, ")", 0⟩] ∧
    rejects [] 0 [⟨.ID, "lw", 0⟩, ⟨.REG, "$1", ((1 : Nat) : Int)⟩, ⟨.COMMA, ",", 0⟩,
        ⟨.ID, "L", 0⟩, ⟨.LPAREN, "(", 0⟩, ⟨.REG, "$2", ((2 : Nat) : Int)⟩,
        ⟨.RPAREN, ")", 0⟩] :=
  ⟨fun h => absurd (((immediate_ranges [] 0 2 1 (by decide) (by decide) "$1" "," "32768" "("
      "$2" ")" 0 0 0 0 32768).2 "lw" (by simp)).1.mp h) (by decide),
    ((immediate_ranges [] 0 2 1 (by decide) (by decide) "$1" "," "0xFFFF" "("
      "$2" ")" 0 0 0 0 65535).2 "lw" (by simp)).2.1.mpr (by decide),
    ((immediate_ranges [] 0 2 1 (by decide) (by decide) "$1" "," "L" "("
      "$2" ")" 0 0 0 0 0).2 "lw" (by simp)).2.2 ⟨.ID, "L", 0⟩ (by decide) (by decide)⟩

/-! ## C14: the emitter -/

/-- C14: for every integer value `v` handed to `printNumber`, exactly four bytes
are written, most significant first, byte `i` being
`floor(v / 2^(24 - 8*i)) mod 256`, so that
`b0*2^24 + b1*2^16 + b2*2^8 + b3 = v mod 2^32`: the bytes read back as a
big-endian word give the 32-bit word. -/
theorem print_number_big_endian (v : Int) :
    (printNumber v).length = 4 ∧
    (∀ i : Nat, i < 4 →
      (printNumber v)[i]? = some ((v / 2 ^ (24 - 8 * i)) % 256).toNat) ∧
    (∀ b ∈ printNumber v, b < 256) ∧
    (∃ b0 b1 b2 b3 : Nat, printNumber v = [b0, b1, b2, b3] ∧
      ((b0 * 2 ^ 24 + b1 * 2 ^ 16 + b2 * 2 ^ 8 + b3 : Nat) : Int) = v % 2 ^ 32) ∧
    bigEndian (printNumber v) = (v % 2 ^ 32).toNat := by
  have heq := printNumber_eq v
  refine ⟨printNumber_length v, ?_, ?_, ?_, ?_⟩
  · intro i hi
    rw [heq]
    have hcases : i = 0 ∨ i = 1 ∨ i = 2 ∨ i = 3 := by omega
    rcases hcases with rfl | rfl | rfl | rfl <;> norm_num
  · intro b hb
    rw [heq] at hb
    simp only [List.mem_cons, List.mem_nil_iff, or_false] at hb
    rcases hb with rfl | rfl | rfl | rfl <;> omega
  · refine ⟨_, _, _, _, heq, ?_⟩
    norm_num
    omega
  · rw [printNumber_bigEndian]
    norm_num

/-! ## C17: the dispatch on the first token -/

theorem encode_unknown_id (symbolTable : Dictionary) (PC : Int) (token : Token)
    (rest : TokenLine) (hk : token.kind = Kind.ID) (hl : token.lexeme ∉ mnemonics) :
    encode symbolTable PC (token :: rest) = .error ⟨"(2nd Pass) Unexpected token type of ID."⟩ := by
  simp only [mnemonics, List.mem_cons, List.mem_nil_iff, or_false, not_or] at hl
  obtain ⟨h1, h2, h3, h4, h5, h6, h7, h8, h9, h10, h11, h12, h13, h14, h15, h16, h17⟩ := hl
  simp [encode, nth, Token.getKind, Token.getLexeme, hk, h1, h2, h3, h4, h5, h6, h7, h8, h9,
    h10, h11, h12, h13, h14, h15, h16, h17]

theorem encode_other_kind (symbolTable : Dictionary) (PC : Int) (token : Token)
    (rest : TokenLine) (h1 : token.kind ≠ Kind.WORD) (h2 : token.kind ≠ Kind.ID) :
    encode symbolTable PC (token :: rest)
      = .error ⟨"(2nd Pass): Unexpected token type other than [word] or [ID]."⟩ := by
  simp [encode, nth, Token.getKind, h1, h2]

/-- C17: the second pass looks at the first token of an instruction-line.  If
its kind is ID and its lexeme is not exactly one of the 17 mnemonics, or if its
kind is neither WORD nor ID, the line is rejected at every counter, whatever
tokens follow: the run fails, no word of that line is written (at most `4 * k`
bytes of output for line `k`), and when the earlier lines are accepted the run
ends with exactly their `4 * k` bytes and the error of this line. -/
theorem unknown_first_token_rejected (input : List TokenLine) (symbolTable : Dictionary)
    (code : AssemblyCode) (h : firstPass input [] 0 [] = .ok (symbolTable, code))
    (k : Nat) (token : Token) (rest : TokenLine) (hk : code[k]? = some (token :: rest))
    (hbad : (token.kind = Kind.ID ∧ token.lexeme ∉ mnemonics) ∨
      (token.kind ≠ Kind.WORD ∧ token.kind ≠ Kind.ID)) :
    ∃ e : ParseError,
      (e = ⟨"(2nd Pass) Unexpected token type of ID."⟩ ∨
        e = ⟨"(2nd Pass): Unexpected token type other than [word] or [ID]."⟩) ∧
      (∀ st PC, encode st PC (token :: rest) = .error e) ∧
      (∃ e1, (main input).status = .error e1) ∧ (main input).output.length ≤ 4 * k ∧
      (∀ out PC, secondPass symbolTable (code.take k) 0 [] = (out, .ok PC) →
        main input = ⟨out, .error e⟩ ∧ out.length = 4 * k) := by
  rcases hbad with ⟨h1, h2⟩ | ⟨h1, h2⟩
  · exact ⟨_, Or.inl rfl, fun st PC => encode_unknown_id st PC token rest h1 h2,
      main_rejected_line input symbolTable code h k _ hk _
        (fun PC => encode_unknown_id symbolTable PC token rest h1 h2)⟩
  · exact ⟨_, Or.inr rfl, fun st PC => encode_other_kind st PC token rest h1 h2,
      main_rejected_line input symbolTable code h k _ hk _
        (fun PC => encode_other_kind symbolTable PC token rest h1 h2)⟩

/-- C17, witness: `ADD $1,$2,$3` at index 1 is rejected, the match on the
mnemonic being case-sensitive; the four bytes of the line before it remain. -/
theorem unknown_first_token_rejected_witness :
    (main sourceUpperCase).output = [3, 224, 0, 8] ∧
    ∃ e : ParseError,
      (e = ⟨"(2nd Pass) Unexpected token type of ID."⟩ ∨
        e = ⟨"(2nd Pass): Unexpected token type other than [word] or [ID]."⟩) ∧
      (∀ st PC, encode st PC (⟨.ID, "ADD", 0⟩ :: [⟨.REG, "$1", 1⟩, ⟨.COMMA, ",", 0⟩,
        ⟨.REG, "$2", 2⟩, ⟨.COMMA, ",", 0⟩, ⟨.REG, "$3", 3⟩]) = .error e) ∧
      (∃ e1, (main sourceUpperCase).status = .error e1) ∧
      (main sourceUpperCase).output.length ≤ 4 * 1 ∧
      (∀ out PC, secondPass [] (List.take 1 sourceUpperCase) 0 [] = (out, .ok PC) →
        main sourceUpperCase = ⟨out, .error e⟩ ∧ out.length = 4 * 1) :=
  ⟨by rfl, unknown_first_token_rejected sourceUpperCase [] sourceUpperCase (by rfl) 1
    ⟨.ID, "ADD", 0⟩ _ (by rfl) (Or.inl ⟨rfl, by decide⟩)⟩

/-! ## C18: the invariant of the two passes -/

/-- The keys of the table after the token loop: the names of the labels of the
line, the last one first, in front of the earlier keys. -/
theorem firstPassTokens_keys (PC : Int) :
    ∀ (tokens : TokenLine) (st : Dictionary) (sp : TokenLine) (st1 : Dictionary)
      (sp1 : TokenLine),
    firstPassTokens PC tokens st sp = .ok (st1, sp1) →
      st1.map Prod.fst = ((tokens.filter isLabel).map labelNameOf).reverse ++ st.map Prod.fst := by
  intro tokens
  induction tokens with
  | nil =>
    intro st sp st1 sp1 h
    simp only [firstPassTokens, Except.ok.injEq, Prod.mk.injEq] at h
    obtain ⟨rfl, rfl⟩ := h
    simp
  | cons t rest ih =>
    intro st sp st1 sp1 h
    rw [firstPassTokens] at h
    by_cases hk : t.getKind = Kind.LABEL
    · rw [if_pos hk] at h
      by_cases hsp : sp.isEmpty = true
      · rw [if_pos hsp] at h
        by_cases hdef : labelIsNotPreviouslyDefined (labelNameOf t) st = true
        · simp only [hdef, if_true] at h
          have hlt : isLabel t = true := by simp [isLabel, hk]
          rw [ih _ _ _ _ h, List.filter_cons, if_pos hlt]
          simp
        · simp only [hdef] at h
          cases h
      · rw [if_neg hsp] at h
        cases h
    · rw [if_neg hk] at h
      have hlt : isLabel t = false := by simp [isLabel, hk]
      rw [ih _ _ _ _ h, List.filter_cons]
      simp [hlt]

/-- The keys of the table after the first pass: the label names of the source,
the last one first, in front of the earlier keys. -/
theorem firstPass_keys :
    ∀ (input : List TokenLine) (st : Dictionary) (PC : Int) (code : AssemblyCode)
      (st1 : Dictionary) (code1 : AssemblyCode),
    firstPass input st PC code = .ok (st1, code1) →
      st1.map Prod.fst = (labelNames input).reverse ++ st.map Prod.fst := by
  intro input
  induction input with
  | nil =>
    intro st PC code st1 code1 h
    simp only [firstPass, Except.ok.injEq, Prod.mk.injEq] at h
    obtain ⟨rfl, rfl⟩ := h
    simp [labelNames]
  | cons line rest ih =>
    intro st PC code st1 code1 h
    rw [firstPass_cons] at h
    cases htok : firstPassTokens PC line st [] with
    | error e => rw [htok] at h; cases h
    | ok r =>
      obtain ⟨st2, sp⟩ := r
      rw [htok] at h
      have hkeys := firstPassTokens_keys PC line st [] st2 sp htok
      obtain ⟨PC2, code2, hrest⟩ : ∃ PC2 code2, firstPass rest st2 PC2 code2 = .ok (st1, code1) := by
        by_cases hi : sp.isEmpty = true
        · exact ⟨PC, code, by simpa [hi] using h⟩
        · exact ⟨PC + 4, code ++ [sp], by simpa [hi] using h⟩
      rw [ih st2 PC2 code2 st1 code1 hrest, hkeys, labelNames_cons]
      simp

/-- C18: after a successful first pass producing `n` instruction-lines, every
address of the symbol table is a multiple of 4 in [0, 4n]; every label name was
inserted exactly once (the keys of the table are the label names of the source,
without repetition); the counter of the second pass when instruction-line `i`
is reached equals `4 * i`; therefore, for every instruction-line index `i` and
every defined label of address `a`, `a - 4*i - 4` is divisible by 4 and the
division of the offset formula is exact. -/
theorem two_pass_invariant (input : List TokenLine) (symbolTable : Dictionary)
    (code : AssemblyCode) (h : firstPass input [] 0 [] = .ok (symbolTable, code)) :
    (∀ L a, symbolTable.lookupAt L = some a →
      ∃ m : Nat, a = 4 * (m : Int) ∧ m ≤ code.length ∧ 0 ≤ a ∧ a ≤ 4 * (code.length : Int)) ∧
    (symbolTable.map Prod.fst = (labelNames input).reverse ∧
      (symbolTable.map Prod.fst).Nodup ∧
      ∀ name ∈ labelNames input, (symbolTable.map Prod.fst).count name = 1) ∧
    (∀ i, i ≤ code.length → ∀ out PC,
      secondPass symbolTable (code.take i) 0 [] = (out, .ok PC) → PC = 4 * (i : Int)) ∧
    (∀ (i : Nat) L a, symbolTable.lookupAt L = some a →
      (4 : Int) ∣ (a - 4 * i - 4) ∧ 4 * Int.tdiv (a - 4 * i - 4) 4 = a - 4 * i - 4 ∧
      Int.tdiv (a - 4 * i - 4) 4 = (a - 4 * i - 4) / 4) := by
  have hcode : code.length = instructionCount input := by
    rw [(firstPass_ok input [] 0 [] symbolTable code h).1, List.nil_append,
      instructionLines_length]
  have hkeys := firstPass_keys input [] 0 [] symbolTable code h
  simp only [List.map_nil, List.append_nil] at hkeys
  have hnodup := (firstPass_fresh input [] 0 [] symbolTable code h).2
  refine ⟨?_, ⟨hkeys, ?_, ?_⟩, ?_, ?_⟩
  · intro L a ha
    obtain ⟨m, hm, rfl, _⟩ := firstPass_address input symbolTable code h L a ha
    exact ⟨m, rfl, by omega, by omega, by omega⟩
  · rw [hkeys]; exact List.nodup_reverse.mpr hnodup
  · intro name hname
    rw [hkeys, List.count_reverse]
    exact List.count_eq_one_of_mem hnodup hname
  · intro i hi out PC hrun
    have := (secondPass_ok symbolTable (code.take i) 0 [] out PC hrun).1
    rw [List.length_take, Nat.min_eq_left hi] at this
    simpa using this
  · intro i L a ha
    obtain ⟨m, _, rfl, _⟩ := firstPass_address input symbolTable code h L a ha
    have hdvd : (4 : Int) ∣ (4 * (m : Int) - 4 * i - 4) := ⟨(m : Int) - i - 1, by ring⟩
    exact ⟨hdvd, Int.mul_tdiv_cancel' hdvd, Int.tdiv_eq_ediv_of_dvd hdvd⟩

/-- C18, witness: the source `L: jr $31`, `jr $31`, `beq $0,$0,L`. -/
theorem two_pass_invariant_witness :
    (∀ L a, Dictionary.lookupAt [("L", 0)] L = some a →
      ∃ m : Nat, a = 4 * (m : Int) ∧ m ≤ sourceBackwardBranchCode.length ∧ 0 ≤ a ∧
        a ≤ 4 * (sourceBackwardBranchCode.length : Int)) ∧
    (List.map Prod.fst [("L", (0 : Int))] = (labelNames sourceBackwardBranch).reverse ∧
      (List.map Prod.fst [("L", (0 : Int))]).Nodup ∧
      ∀ name ∈ labelNames sourceBackwardBranch,
        (List.map Prod.fst [("L", (0 : Int))]).count name = 1) :=
  ⟨(two_pass_invariant sourceBackwardBranch [("L", 0)] sourceBackwardBranchCode (by rfl)).1,
    (two_pass_invariant sourceBackwardBranch [("L", 0)] sourceBackwardBranchCode (by rfl)).2.1⟩

/-! ## C20: the label-immediate range error in short programs -/

/-- C20: in a program of `n ≤ 32768` instruction-lines on which the first pass
succeeds, for a branch at instruction-line index `i < n` to a defined label of
address `a`, the offset `(a - 4*i - 4) / 4` lies in [-n, n-1], hence in
[-32768, 32767]: the immediate of the branch is computed without the
label-immediate range error, and a well-formed `beq`/`bne` with registers in
[0,31] at that line is accepted. -/
theorem label_offset_in_range (input : List TokenLine) (symbolTable : Dictionary)
    (code : AssemblyCode) (h : firstPass input [] 0 [] = .ok (symbolTable, code))
    (hn : code.length ≤ 32768) (i : Nat) (hi : i < code.length) (L : String) (a : Int)
    (ha : symbolTable.lookupAt L = some a) :
    (-(code.length : Int) ≤ (a - 4 * i - 4) / 4 ∧ (a - 4 * i - 4) / 4 ≤ (code.length : Int) - 1) ∧
    (-32768 ≤ (a - 4 * i - 4) / 4 ∧ (a - 4 * i - 4) / 4 ≤ 32767) ∧
    labelImmediateOutOfBound (Int.tdiv (a - 4 * i - 4) 4) = false ∧
    (∀ v, immediateBeq symbolTable (4 * i) ⟨.ID, L, v⟩ = .ok ((a - 4 * i - 4) / 4)) ∧
    (∀ mn, mn ∈ ["beq", "bne"] → ∀ (rs rt : Nat), rs ≤ 31 → rt ≤ 31 →
      ∀ x1 x2 x3 x4 v0 v2 v4 v5,
        accepts symbolTable (4 * i) [⟨.ID, mn, v0⟩, ⟨.REG, x1, rs⟩, ⟨.COMMA, x2, v2⟩,
          ⟨.REG, x3, rt⟩, ⟨.COMMA, x4, v4⟩, ⟨.ID, L, v5⟩]) := by
  have hcode : code.length = instructionCount input := by
    rw [(firstPass_ok input [] 0 [] symbolTable code h).1, List.nil_append,
      instructionLines_length]
  obtain ⟨m, hm, rfl, _⟩ := firstPass_address input symbolTable code h L a ha
  have hdvd : (4 : Int) ∣ (4 * (m : Int) - 4 * i - 4) := ⟨(m : Int) - i - 1, by ring⟩
  have htd : Int.tdiv (4 * (m : Int) - 4 * i - 4) 4 = (4 * (m : Int) - 4 * i - 4) / 4 :=
    Int.tdiv_eq_ediv_of_dvd hdvd
  have hq : (4 * (m : Int) - 4 * i - 4) / 4 = (m : Int) - i - 1 := by omega
  have hr1 : -32768 ≤ (4 * (m : Int) - 4 * i - 4) / 4 := by rw [hq]; omega
  have hr2 : (4 * (m : Int) - 4 * i - 4) / 4 ≤ 32767 := by rw [hq]; omega
  have himm : ∀ v, immediateBeq symbolTable (4 * i) ⟨.ID, L, v⟩
      = .ok ((4 * (m : Int) - 4 * i - 4) / 4) := by
    intro v
    rw [immediateBeq_label symbolTable (4 * i) L v _ ha, htd, if_pos ⟨hr1, hr2⟩]
  refine ⟨⟨by rw [hq]; omega, by rw [hq]; omega⟩, ⟨hr1, hr2⟩, ?_, himm, ?_⟩
  · rw [htd]
    simp only [labelImmediateOutOfBound, LABEL_IMMEDIATE_MAX, LABEL_IMMEDIATE_MIN,
      Bool.or_eq_false_iff, decide_eq_false_iff_not]
    omega
  · intro mn hmn rs rt hs ht x1 x2 x3 x4 v0 v2 v4 v5
    have hm2 : mn = "beq" ∨ mn = "bne" := by simpa using hmn
    rw [accepts_beq_iff _ _ _ hm2]
    exact ⟨registerNumberInRange_natCast rs hs, registerNumberInRange_natCast rt ht, _, himm v5⟩

/-- C20, witness: the branch at index 2 of `sourceBackwardBranch` (3
instruction-lines) to `L` at address 0 has offset -3, in [-3, 2]. -/
theorem label_offset_in_range_witness :
    (-((sourceBackwardBranchCode.length : Nat) : Int) ≤ ((0 : Int) - 4 * (2 : Nat) - 4) / 4 ∧
      ((0 : Int) - 4 * (2 : Nat) - 4) / 4 ≤ ((sourceBackwardBranchCode.length : Nat) : Int) - 1) ∧
    (-32768 ≤ ((0 : Int) - 4 * (2 : Nat) - 4) / 4 ∧ ((0 : Int) - 4 * (2 : Nat) - 4) / 4 ≤ 32767) :=
  ⟨(label_offset_in_range sourceBackwardBranch [("L", 0)] sourceBackwardBranchCode (by rfl)
      (by decide) 2 (by decide) "L" 0 (by rfl)).1,
    (label_offset_in_range sourceBackwardBranch [("L", 0)] sourceBackwardBranchCode (by rfl)
      (by decide) 2 (by decide) "L" 0 (by rfl)).2.1⟩

/-! ## C15: the output of a run -/

/-- The slice of four bytes at position `4 * i` of a concatenation of emitted
words is the emission of word `i`. -/
theorem flatten_printNumber_slice :
    ∀ (words : List Int) (i : Nat) (w : Int), words[i]? = some w →
      (((words.map printNumber).flatten).drop (4 * i)).take 4 = printNumber w := by
  intro words
  induction words with
  | nil => intro i w h; simp at h
  | cons v rest ih =>
    intro i w h
    cases i with
    | zero =>
      simp only [List.getElem?_cons_zero, Option.some.injEq] at h
      subst h
      simp only [List.map_cons, List.flatten_cons, Nat.mul_zero, List.drop_zero]
      exact List.take_left' (printNumber_length v)
    | succ j =>
      simp only [List.getElem?_cons_succ] at h
      have hd : 4 * (j + 1) = (printNumber v).length + 4 * j := by
        rw [printNumber_length]; omega
      simp only [List.map_cons, List.flatten_cons]
      rw [hd, List.drop_append]
      exact ih j w h

theorem flatten_printNumber_length (words : List Int) :
    ((words.map printNumber).flatten).length = 4 * words.length := by
  induction words with
  | nil => rfl
  | cons v rest ih =>
    simp only [List.map_cons, List.flatten_cons, List.length_append, List.length_cons, ih,
      printNumber_length]
    omega

/-- The second-pass loop writes the words of the lines before the first one it
rejects, each encoded at the counter of its index, and stops there. -/
theorem secondPass_trace (st : Dictionary) :
    ∀ (code : AssemblyCode) (PC : Int) (out : List Nat),
    ∃ words : List Int, words.length ≤ code.length ∧
      (secondPass st code PC out).1 = out ++ (words.map printNumber).flatten ∧
      (∀ (i : Nat) (w : Int), words[i]? = some w →
        ∃ line, code[i]? = some line ∧ encode st (PC + 4 * i) line = .ok w) ∧
      (words.length < code.length → ∃ line e, code[words.length]? = some line ∧
        encode st (PC + 4 * words.length) line = .error e ∧
        (secondPass st code PC out).2 = .error e) ∧
      (words.length = code.length →
        (secondPass st code PC out).2 = .ok (PC + 4 * code.length)) := by
  intro code
  induction code with
  | nil =>
    intro PC out
    exact ⟨[], by simp, by simp [secondPass], by simp, by simp, by simp [secondPass]⟩
  | cons line rest ih =>
    intro PC out
    rw [secondPass]
    cases he : encode st PC line with
    | error e =>
      refine ⟨[], by simp, by simp, by simp, ?_, by simp⟩
      intro _
      exact ⟨line, e, by simp, by simpa using he, rfl⟩
    | ok v =>
      obtain ⟨words, h1, h2, h3, h4, h5⟩ := ih (PC + 4) (out ++ printNumber v)
      refine ⟨v :: words, by simpa using h1, ?_, ?_, ?_, ?_⟩
      · simp only [h2, List.map_cons, List.flatten_cons, List.append_assoc]
      · intro i w hw
        cases i with
        | zero =>
          simp only [List.getElem?_cons_zero, Option.some.injEq] at hw
          subst hw
          exact ⟨line, by simp, by simpa using he⟩
        | succ j =>
          simp only [List.getElem?_cons_succ] at hw
          obtain ⟨l, hl, hle⟩ := h3 j w hw
          refine ⟨l, by simpa using hl, ?_⟩
          rw [← hle]
          congr 1
          push_cast
          ring
      · intro hlt
        simp only [List.length_cons, Nat.add_lt_add_iff_right] at hlt
        obtain ⟨l, e, hl, hle, hs⟩ := h4 hlt
        refine ⟨l, e, by simpa using hl, ?_, hs⟩
        rw [← hle]
        congr 1
        simp only [List.length_cons]
        push_cast
        ring
      · intro heq
        simp only [List.length_cons, Nat.add_right_cancel_iff] at heq
        rw [h5 heq]
        congr 1
        simp only [List.length_cons]
        push_cast
        ring

/-- C15: when the first pass fails nothing is written.  Otherwise the bytes
written are exactly the concatenation, in order, of the four-byte emissions of
the words of instruction-lines `0 .. k-1`, line `i` encoded at counter `4 * i`,
where `k` is the index of the first line the second pass rejects, or the number
`n` of instruction-lines when none is rejected: the output has `4 * k` bytes,
instruction `i` occupies bytes `[4i, 4i+4)`, the run fails with the error of
line `k` when `k < n` and succeeds when `k = n` (with `4 * n` bytes). -/
theorem output_of_accepted_lines (input : List TokenLine) :
    (∀ e, firstPass input [] 0 [] = .error e → main input = ⟨[], .error e⟩) ∧
    (∀ symbolTable code, firstPass input [] 0 [] = .ok (symbolTable, code) →
      ∃ words : List Int, words.length ≤ code.length ∧
        (main input).output = (words.map printNumber).flatten ∧
        (main input).output.length = 4 * words.length ∧
        (∀ (i : Nat) (w : Int), words[i]? = some w →
          (∃ line, code[i]? = some line ∧ encode symbolTable (4 * i) line = .ok w) ∧
          ((main input).output.drop (4 * i)).take 4 = printNumber w) ∧
        (words.length < code.length → ∃ line e, code[words.length]? = some line ∧
          encode symbolTable (4 * words.length) line = .error e ∧
          (main input).status = .error e) ∧
        (words.length = code.length → (main input).status = .ok symbolTable)) := by
  constructor
  · intro e he
    simp [main, he]
  · intro st code h
    obtain ⟨words, h1, h2, h3, h4, h5⟩ := secondPass_trace st code 0 []
    have hout : (main input).output = (secondPass st code 0 []).1 := by
      simp only [main, h]
      cases hp : secondPass st code 0 [] with
      | mk o r => cases r <;> rfl
    have hstat : ∀ e, (secondPass st code 0 []).2 = .error e → (main input).status = .error e := by
      intro e he
      simp only [main, h]
      cases hp : secondPass st code 0 [] with
      | mk o r =>
        rw [hp] at he
        simp only at he
        subst he
        rfl
    have hstat2 : ∀ PC, (secondPass st code 0 []).2 = .ok PC → (main input).status = .ok st := by
      intro PC he
      simp only [main, h]
      cases hp : secondPass st code 0 [] with
      | mk o r =>
        rw [hp] at he
        simp only at he
        subst he
        rfl
    rw [List.nil_append] at h2
    rw [← hout] at h2
    refine ⟨words, h1, h2, by rw [h2, flatten_printNumber_length], ?_, ?_, ?_⟩
    · intro i w hw
      obtain ⟨line, hl, he⟩ := h3 i w hw
      refine ⟨⟨line, hl, by simpa using he⟩, ?_⟩
      rw [h2]
      exact flatten_printNumber_slice words i w hw
    · intro hlt
      obtain ⟨line, e, hl, he, hs⟩ := h4 hlt
      exact ⟨line, e, hl, by simpa using he, hstat e hs⟩
    · intro heq
      exact hstat2 _ (h5 heq)

/-- C15, witness: in `sourceFailingThird` the third of four instruction-lines is
rejected; the output is the eight bytes of the first two lines. -/
theorem output_of_accepted_lines_witness :
    (main sourceFailingThird).output = [3, 224, 0, 8, 0, 0, 0, 7] ∧
    ∃ words : List Int, words.length ≤ sourceFailingThird.length ∧
      (main sourceFailingThird).output = (words.map printNumber).flatten ∧
      (main sourceFailingThird).output.length = 4 * words.length ∧
      (∀ (i : Nat) (w : Int), words[i]? = some w →
        (∃ line, sourceFailingThird[i]? = some line ∧ encode [] (4 * i) line = .ok w) ∧
        ((main sourceFailingThird).output.drop (4 * i)).take 4 = printNumber w) ∧
      (words.length < sourceFailingThird.length → ∃ line e,
        sourceFailingThird[words.length]? = some line ∧
        encode [] (4 * words.length) line = .error e ∧
        (main sourceFailingThird).status = .error e) ∧
      (words.length = sourceFailingThird.length → (main sourceFailingThird).status = .ok []) :=
  ⟨by rfl, (output_of_accepted_lines sourceFailingThird).2 [] sourceFailingThird (by rfl)⟩

/-! ## C16: labels after an instruction -/

/-- The token loop once a non-label token has been kept: any further label is
an error, and otherwise the rest of the line is kept. -/
theorem firstPassTokens_kept (PC : Int) :
    ∀ (tokens : TokenLine) (st : Dictionary) (sp : TokenLine), sp.isEmpty = false →
      firstPassTokens PC tokens st sp =
        if tokens.any isLabel then .error misplacedLabelError else .ok (st, sp ++ tokens) := by
  intro tokens
  induction tokens with
  | nil => intro st sp _; simp [firstPassTokens]
  | cons t rest ih =>
    intro st sp hsp
    rw [firstPassTokens]
    by_cases hk : t.getKind = Kind.LABEL
    · have hlt : isLabel t = true := by simp [isLabel, hk]
      simp [hk, hsp, hlt, misplacedLabelError]
    · have hlt : isLabel t = false := by simp [isLabel, hk]
      rw [if_neg hk, ih st (sp ++ [t]) (by simp)]
      simp [hlt]

theorem labelsFirst_false_iff (line : TokenLine) :
    labelsFirst line = false ↔ labelAfterInstruction line := by
  induction line with
  | nil =>
    constructor
    · intro h; simp [labelsFirst] at h
    · rintro ⟨a, u, b, t, c, h, _, _⟩
      simp at h
  | cons x rest ih =>
    by_cases hx : isLabel x = true
    · rw [labelsFirst_cons_label x rest hx, ih]
      constructor
      · rintro ⟨a, u, b, t, c, h, hu, ht⟩
        exact ⟨x :: a, u, b, t, c, by rw [h]; rfl, hu, ht⟩
      · rintro ⟨a, u, b, t, c, h, hu, ht⟩
        cases a with
        | nil =>
          simp only [List.nil_append, List.cons.injEq] at h
          rw [← h.1, hx] at hu
          cases hu
        | cons y a1 =>
          simp only [List.cons_append, List.cons.injEq] at h
          exact ⟨a1, u, b, t, c, h.2, hu, ht⟩
    · have hx2 : isLabel x = false := by simpa using hx
      have hlf : labelsFirst (x :: rest) = rest.all fun t => !isLabel t := by
        simp [labelsFirst, List.dropWhile_cons, hx2]
      rw [hlf]
      constructor
      · intro h
        have : ∃ t ∈ rest, isLabel t = true := by
          by_contra hc
          have hall : (rest.all fun t => !isLabel t) = true := by
            rw [List.all_eq_true]
            intro t ht
            have : ¬ isLabel t = true := fun h2 => hc ⟨t, ht, h2⟩
            simpa using this
          rw [hall] at h
          cases h
        obtain ⟨t, ht, hl⟩ := this
        obtain ⟨b, c, rfl⟩ := List.append_of_mem ht
        exact ⟨[], x, b, t, c, rfl, hx2, hl⟩
      · rintro ⟨a, u, b, t, c, h, hu, ht⟩
        have hmem : t ∈ rest := by
          cases a with
          | nil =>
            simp only [List.nil_append, List.cons.injEq] at h
            rw [h.2]; simp
          | cons y a1 =>
            simp only [List.cons_append, List.cons.injEq] at h
            rw [h.2]; simp
        cases hall : (rest.all fun t => !isLabel t) with
        | false => rfl
        | true =>
          have := List.all_eq_true.mp hall t hmem
          simp [ht] at this

theorem leadingLabels_cons_label (t : Token) (rest : TokenLine) (h : isLabel t = true) :
    leadingLabels (t :: rest) = labelNameOf t :: leadingLabels rest := by
  simp [leadingLabels, List.takeWhile_cons, h]

theorem leadingLabels_cons_other (t : Token) (rest : TokenLine) (h : isLabel t = false) :
    leadingLabels (t :: rest) = [] := by
  simp [leadingLabels, List.takeWhile_cons, h]

theorem leadingFresh_cons_label (st : Dictionary) (PC : Int) (t : Token) (rest : TokenLine)
    (h : isLabel t = true) :
    leadingFresh st (t :: rest) ↔
      (st.lookupAt (labelNameOf t) = none ∧ leadingFresh ((labelNameOf t, PC) :: st) rest) := by
  unfold leadingFresh
  rw [leadingLabels_cons_label t rest h, List.nodup_cons]
  simp only [List.mem_cons, forall_eq_or_imp, lookupAt_cons]
  constructor
  · rintro ⟨⟨h1, h2⟩, h3, h4⟩
    refine ⟨h3, h2, fun name hn => ?_⟩
    have hne : name ≠ labelNameOf t := fun hc => h1 (hc ▸ hn)
    simpa [hne] using h4 name hn
  · rintro ⟨h1, h2, h3⟩
    refine ⟨⟨fun hn => ?_, h2⟩, h1, fun name hn => ?_⟩
    · have := h3 _ hn
      simp at this
    · have := h3 name hn
      by_cases hne : name = labelNameOf t
      · simp [hne] at this
      · simpa [hne] using this

/-- The token loop from an empty kept list fails with the label-not-first
error exactly when a label follows a non-label token and no duplicate stops the
loop before it. -/
theorem firstPassTokens_misplaced_iff (PC : Int) :
    ∀ (tokens : TokenLine) (st : Dictionary),
      firstPassTokens PC tokens st [] = .error misplacedLabelError ↔
        (labelsFirst tokens = false ∧ leadingFresh st tokens) := by
  intro tokens
  induction tokens with
  | nil =>
    intro st
    simp [firstPassTokens, labelsFirst]
  | cons t rest ih =>
    intro st
    by_cases hk : t.getKind = Kind.LABEL
    · have hlt : isLabel t = true := by simp [isLabel, hk]
      rw [labelsFirst_cons_label t rest hlt, leadingFresh_cons_label st PC t rest hlt,
        firstPassTokens, if_pos hk]
      simp only [List.isEmpty_nil, if_true]
      by_cases hdef : labelIsNotPreviouslyDefined (labelNameOf t) st = true
      · have hnone : st.lookupAt (labelNameOf t) = none := by
          simpa [labelIsNotPreviouslyDefined] using hdef
        rw [if_pos hdef, ih, hnone]
        simp
      · have hsome : st.lookupAt (labelNameOf t) ≠ none := by
          simpa [labelIsNotPreviouslyDefined] using hdef
        rw [if_neg hdef]
        constructor
        · intro h
          simp only [Except.error.injEq] at h
          exact absurd h (duplicateLabelError_ne_misplaced (labelNameOf t))
        · rintro ⟨_, h, _⟩
          exact absurd h hsome
    · have hlt : isLabel t = false := by simp [isLabel, hk]
      have hlf : labelsFirst (t :: rest) = rest.all fun u => !isLabel u := by
        simp [labelsFirst, List.dropWhile_cons, hlt]
      have hfresh : leadingFresh st (t :: rest) := by
        unfold leadingFresh
        rw [leadingLabels_cons_other t rest hlt]
        simp
      rw [firstPassTokens, if_neg hk, firstPassTokens_kept PC rest st _ (by simp), hlf]
      cases hany : rest.any isLabel with
      | true =>
        have : (rest.all fun u => !isLabel u) = false := by
          rw [List.any_eq_true] at hany
          obtain ⟨u, hu, hul⟩ := hany
          cases hall : (rest.all fun u => !isLabel u) with
          | false => rfl
          | true =>
            have := List.all_eq_true.mp hall u hu
            simp [hul] at this
        simp [this, hfresh]
      | false =>
        have : (rest.all fun u => !isLabel u) = true := by
          rw [List.all_eq_true]
          intro u hu
          have hn : ¬ (isLabel u = true) := by
            intro hul
            have : rest.any isLabel = true := List.any_eq_true.mpr ⟨u, hu, hul⟩
            rw [hany] at this
            cases this
          simpa using hn
        simp [this]

/-- The token loop accepts a line whose labels all stand first, with distinct
names that the table does not hold. -/
theorem firstPassTokens_accepts (PC : Int) :
    ∀ (tokens : TokenLine) (st : Dictionary), labelsFirst tokens = true →
      leadingFresh st tokens →
      ∃ st1, firstPassTokens PC tokens st [] = .ok (st1, stripLabels tokens) := by
  intro tokens
  induction tokens with
  | nil => intro st _ _; exact ⟨st, by simp [firstPassTokens, stripLabels]⟩
  | cons t rest ih =>
    intro st hlf hfresh
    by_cases hk : t.getKind = Kind.LABEL
    · have hlt : isLabel t = true := by simp [isLabel, hk]
      rw [labelsFirst_cons_label t rest hlt] at hlf
      rw [leadingFresh_cons_label st PC t rest hlt] at hfresh
      obtain ⟨st1, h1⟩ := ih ((labelNameOf t, PC) :: st) hlf hfresh.2
      refine ⟨st1, ?_⟩
      have hdef : labelIsNotPreviouslyDefined (labelNameOf t) st = true := by
        simp [labelIsNotPreviouslyDefined, hfresh.1]
      rw [firstPassTokens, if_pos hk]
      simp only [List.isEmpty_nil, if_true, hdef]
      rw [h1, stripLabels_cons_label t rest hk]
    · have hlt : isLabel t = false := by simp [isLabel, hk]
      have hno := labelsFirst_cons_other t rest hlt hlf
      have hany : rest.any isLabel = false := by
        cases hany : rest.any isLabel with
        | false => rfl
        | true =>
          rw [List.any_eq_true] at hany
          obtain ⟨u, hu, hul⟩ := hany
          rw [hno u hu] at hul
          cases hul
      have hstrip : stripLabels rest = rest := by
        unfold stripLabels
        rw [List.filter_eq_self]
        intro u hu
        simp [hno u hu]
      refine ⟨st, ?_⟩
      rw [firstPassTokens, if_neg hk, firstPassTokens_kept PC rest st _ (by simp), hany,
        stripLabels_cons_other t rest hk, hstrip]
      simp

theorem labelNameOf_eq_dropLast (t : Token) :
    labelNameOf t = String.mk t.lexeme.data.dropLast := by
  unfold labelNameOf substr Token.getLexeme
  rw [List.dropLast_eq_take]
  rfl

/-- The first pass over a concatenation continues on the second part with the
table, the counter and the lines the first part produced. -/
theorem firstPass_append :
    ∀ (a b : List TokenLine) (st : Dictionary) (PC : Int) (code : AssemblyCode),
    firstPass (a ++ b) st PC code =
      match firstPass a st PC code with
      | .error e => .error e
      | .ok (st1, code1) => firstPass b st1 (PC + 4 * instructionCount a) code1 := by
  intro a
  induction a with
  | nil => intro b st PC code; simp [firstPass, instructionCount]
  | cons line rest ih =>
    intro b st PC code
    rw [List.cons_append, firstPass_cons, firstPass_cons]
    cases htok : firstPassTokens PC line st [] with
    | error e => rfl
    | ok r =>
      obtain ⟨st2, sp⟩ := r
      obtain ⟨t1, _, _, _⟩ := firstPassTokens_ok PC line st [] st2 sp htok
      rw [List.nil_append] at t1
      have hins : hasInstruction line = !sp.isEmpty := by rw [hasInstruction_iff, t1]
      simp only
      rw [instructionCount_cons]
      by_cases hi : hasInstruction line = true
      · have hsp : (!sp.isEmpty) = true := by rw [← hins]; exact hi
        rw [if_pos hsp, if_pos hsp, ih, if_pos hi]
        have : PC + 4 + 4 * (instructionCount rest : Int)
            = PC + 4 * ((1 + instructionCount rest : Nat) : Int) := by push_cast; ring
        rw [this]
      · have hsp : ¬ (!sp.isEmpty) = true := by rw [← hins]; exact hi
        rw [if_neg hsp, if_neg hsp, ih, if_neg hi]
        simp

/-- C16: when no error occurred on the earlier lines, a source line is
rejected in the first pass with the error "Label is not the first element of a
line" if and only if some LABEL token of it comes after a non-label token of it
and no duplicate label precedes that token on the line; the error ends the run
with nothing written.  A line whose LABEL tokens all stand before its first
non-label token (with names not defined before) is accepted, and each of its
labels is bound to the current counter under its lexeme without the last
character. -/
theorem misplaced_label_rule (pre : List TokenLine) (line : TokenLine)
    (post : List TokenLine) (symbolTable : Dictionary) (code : AssemblyCode)
    (hpre : firstPass pre [] 0 [] = .ok (symbolTable, code)) :
    (firstPassTokens (4 * instructionCount pre) line symbolTable []
        = .error misplacedLabelError
      ↔ (labelAfterInstruction line ∧ leadingFresh symbolTable line)) ∧
    (∀ e, firstPassTokens (4 * instructionCount pre) line symbolTable [] = .error e →
      main (pre ++ line :: post) = ⟨[], .error e⟩) ∧
    (¬ labelAfterInstruction line → leadingFresh symbolTable line →
      ∃ st1, firstPassTokens (4 * instructionCount pre) line symbolTable []
          = .ok (st1, stripLabels line) ∧
        ∀ t ∈ line, isLabel t = true →
          st1.lookupAt (labelNameOf t) = some (4 * (instructionCount pre : Int)) ∧
          labelNameOf t = String.mk t.lexeme.data.dropLast) := by
  refine ⟨?_, ?_, ?_⟩
  · rw [firstPassTokens_misplaced_iff, labelsFirst_false_iff]
  · intro e he
    have hfp : firstPass (pre ++ line :: post) [] 0 [] = .error e := by
      rw [firstPass_append, hpre]
      simp only [Int.zero_add]
      rw [firstPass_cons, he]
    simp [main, hfp]
  · intro hno hfresh
    have hlf : labelsFirst line = true := by
      cases h : labelsFirst line with
      | true => rfl
      | false => exact absurd ((labelsFirst_false_iff line).mp h) hno
    obtain ⟨st1, h1⟩ := firstPassTokens_accepts (4 * instructionCount pre) line symbolTable
      hlf hfresh
    refine ⟨st1, h1, fun t ht hlab => ⟨?_, ?_⟩⟩
    · exact (firstPassTokens_ok _ line symbolTable [] st1 _ h1).2.1 t ht hlab
    · exact labelNameOf_eq_dropLast t

/-- C16, witness: after `jr $31`, the line `a: b: jr $31 c:` is rejected with
the label-not-first error, and the run writes nothing. -/
theorem misplaced_label_rule_witness :
    firstPassTokens (4 * instructionCount [[⟨.ID, "jr", 0⟩, ⟨.REG, "$31", 31⟩]])
      [⟨.LABEL, "a:", 0⟩, ⟨.LABEL, "b:", 0⟩, ⟨.ID, "jr", 0⟩, ⟨.REG, "$31", 31⟩,
        ⟨.LABEL, "c:", 0⟩] [] [] = .error misplacedLabelError ∧
    main ([[⟨.ID, "jr", 0⟩, ⟨.REG, "$31", 31⟩]] ++
      [⟨.LABEL, "a:", 0⟩, ⟨.LABEL, "b:", 0⟩, ⟨.ID, "jr", 0⟩, ⟨.REG, "$31", 31⟩,
        ⟨.LABEL, "c:", 0⟩] :: []) = ⟨[], .error misplacedLabelError⟩ :=
  ⟨by rfl,
    (misplaced_label_rule [[⟨.ID, "jr", 0⟩, ⟨.REG, "$31", 31⟩]]
      [⟨.LABEL, "a:", 0⟩, ⟨.LABEL, "b:", 0⟩, ⟨.ID, "jr", 0⟩, ⟨.REG, "$31", 31⟩,
        ⟨.LABEL, "c:", 0⟩] [] []
      [[⟨.ID, "jr", 0⟩, ⟨.REG, "$31", 31⟩]] (by rfl)).2.1 misplacedLabelError (by rfl)⟩

/-! ## Words at the level of their 32-bit patterns -/

theorem or_mod_two_pow (a b n : Nat) : (a ||| b) % 2 ^ n = a % 2 ^ n ||| b % 2 ^ n := by
  apply Nat.eq_of_testBit_eq
  intro i
  simp only [Nat.testBit_mod_two_pow, Nat.testBit_or]
  by_cases h : i < n <;> simp [h]

theorem bits32_toInt (x : Int) : bits32 (toInt x) = bits64 x % 2 ^ 32 := by
  unfold bits32 toInt bits64
  omega

theorem bits64_or64 (a b : Int) : bits64 (or64 a b) = bits64 a ||| bits64 b := by
  have ha : bits64 a < 2 ^ 64 := by unfold bits64; omega
  have hb : bits64 b < 2 ^ 64 := by unfold bits64; omega
  have hab := Nat.or_lt_two_pow ha hb
  unfold or64 toLongLong
  generalize bits64 a ||| bits64 b = n at hab ⊢
  unfold bits64
  omega

theorem bits64_shl64_21 (S : Int) :
    bits64 (shl64 S 21) % 2 ^ 32 = (bits64 S <<< 21) % 2 ^ 32 := by
  rw [Nat.shiftLeft_eq]
  unfold shl64 toLongLong bits64
  norm_num
  omega

theorem bits64_shl64_16 (S : Int) :
    bits64 (shl64 S 16) % 2 ^ 32 = (bits64 S <<< 16) % 2 ^ 32 := by
  rw [Nat.shiftLeft_eq]
  unfold shl64 toLongLong bits64
  norm_num
  omega

theorem bits64_shl32_26 (op : Nat) :
    bits64 (shl32 (op : Int) 26) % 2 ^ 32 = (op <<< 26) % 2 ^ 32 := by
  rw [Nat.shiftLeft_eq]
  unfold shl32 toInt bits64
  norm_num
  omega

theorem bits64_and64_mask (v : Int) : bits64 (and64 v 0xffff) = (v % 65536).toNat := by
  rw [and64_mask]
  unfold bits64
  omega

/-- The 32-bit pattern of the word of a branch or of a load or store, for any
register and immediate values: the pattern of the C++ expression
`(op << 26) | (S << 21) | (T << 16) | (v & 0xffff)` cut to 32 bits. -/
theorem bits32_word (op : Nat) (S T v : Int) :
    bits32 (toInt (or64 (or64 (or64 (shl32 op 26) (shl64 S 21)) (shl64 T 16))
        (and64 v 0xffff)))
      = ((op <<< 26) ||| (bits64 S <<< 21) ||| (bits64 T <<< 16) ||| (v % 65536).toNat)
          % 2 ^ 32 := by
  rw [bits32_toInt, bits64_or64, bits64_or64, bits64_or64, bits64_and64_mask]
  rw [or_mod_two_pow, or_mod_two_pow, or_mod_two_pow, bits64_shl32_26, bits64_shl64_21,
    bits64_shl64_16]
  rw [or_mod_two_pow ((op <<< 26) ||| (bits64 S <<< 21) ||| (bits64 T <<< 16)),
    or_mod_two_pow ((op <<< 26) ||| (bits64 S <<< 21)), or_mod_two_pow (op <<< 26)]

/-- A word whose fields do not overlap is the sum of its fields. -/
theorem fields_or_eq_add (top s t low : Nat) (hs : s ≤ 31) (ht : t ≤ 31) (hlow : low < 2 ^ 16) :
    (top <<< 26) ||| (s <<< 21) ||| (t <<< 16) ||| low
      = top * 2 ^ 26 + s * 2 ^ 21 + t * 2 ^ 16 + low := by
  rw [Nat.or_assoc, Nat.or_assoc]
  simp only [Nat.shiftLeft_eq]
  have e1 : t * 2 ^ 16 ||| low = t * 2 ^ 16 + low := by
    rw [Nat.mul_comm, ← Nat.mul_add_lt_is_or hlow]
  have h1 : t * 2 ^ 16 + low < 2 ^ 21 := by omega
  have e2 : s * 2 ^ 21 ||| (t * 2 ^ 16 + low) = s * 2 ^ 21 + (t * 2 ^ 16 + low) := by
    rw [Nat.mul_comm, ← Nat.mul_add_lt_is_or h1]
  have h2 : s * 2 ^ 21 + (t * 2 ^ 16 + low) < 2 ^ 26 := by omega
  have e3 : top * 2 ^ 26 ||| (s * 2 ^ 21 + (t * 2 ^ 16 + low))
      = top * 2 ^ 26 + (s * 2 ^ 21 + (t * 2 ^ 16 + low)) := by
    rw [Nat.mul_comm, ← Nat.mul_add_lt_is_or h2]
  rw [e1, e2, e3]
  omega

theorem low_or_eq_add (d op : Nat) (hop : op < 2 ^ 11) :
    (d <<< 11) ||| op = d * 2 ^ 11 + op := by
  rw [Nat.shiftLeft_eq, Nat.mul_comm, ← Nat.mul_add_lt_is_or hop]
theorem encodeLw_ok_shape (line : TokenLine) (w : Int) (hw : encodeLw line = .ok w) :
    line.length = 7 ∧ (nth line 2).kind = Kind.COMMA ∧ (nth line 4).kind = Kind.LPAREN ∧
      (nth line 6).kind = Kind.RPAREN ∧ (nth line 1).kind = Kind.REG ∧
      (nth line 5).kind = Kind.REG := by
  unfold encodeLw at hw
  by_cases hlen : line.length = 7
  · rw [if_neg (by simpa using hlen)] at hw
    by_cases hp : (nth line 2).getKind ≠ Kind.COMMA ∨ (nth line 4).getKind ≠ Kind.LPAREN
        ∨ (nth line 6).getKind ≠ Kind.RPAREN
    · rw [if_pos hp] at hw; cases hw
    · rw [if_neg hp] at hw
      simp only [not_or, not_not, Token.getKind] at hp
      cases hop : opcode.lookupAt (nth line 0).getLexeme with
      | none => rw [hop] at hw; cases hw
      | some op =>
        rw [hop] at hw
        simp only at hw
        by_cases h1 : (nth line 1).getKind ≠ Kind.REG
        · rw [if_pos h1] at hw; cases hw
        · rw [if_neg h1] at hw
          by_cases r1 : (!registerNumberInRange (nth line 1).toLong) = true
          · rw [if_pos r1] at hw; cases hw
          · rw [if_neg r1] at hw
            cases himm : immediateLw (nth line 3) with
            | error e => rw [himm] at hw; cases hw
            | ok v =>
              rw [himm] at hw
              simp only at hw
              by_cases h5 : (nth line 5).getKind ≠ Kind.REG
              · rw [if_pos h5] at hw; cases hw
              · simp only [not_not, Token.getKind] at h1 h5
                exact ⟨hlen, hp.1, hp.2.1, hp.2.2, h1, h5⟩
  · rw [if_pos hlen] at hw; cases hw

theorem immediateLw_ok (imm : Token) (v : Int) (h : immediateLw imm = .ok v) :
    v = imm.value ∧ validMemoryImmediate imm := by
  unfold immediateLw at h
  simp only [Token.getKind, Token.toLong, decimalImmediateOutOfBound,
    hexadecimalImmediateOutOfBound, DECIMAL_IMMEDIATE_MAX, DECIMAL_IMMEDIATE_MIN,
    HEXADECIMAL_IMMEDIATE_MAX, HEXADECIMAL_IMMEDIATE_MIN, Bool.or_eq_true,
    decide_eq_true_eq] at h
  by_cases hk : imm.kind = Kind.INT
  · rw [if_pos hk] at h
    by_cases hb : imm.value > 32767 ∨ imm.value < -32768
    · rw [if_pos hb] at h; cases h
    · rw [if_neg hb] at h
      simp only [Except.ok.injEq] at h
      exact ⟨h.symm, Or.inl ⟨hk, by omega, by omega⟩⟩
  · rw [if_neg hk] at h
    by_cases hk2 : imm.kind = Kind.HEXINT
    · rw [if_pos hk2] at h
      by_cases hb : imm.value > 65535 ∨ imm.value < 0
      · rw [if_pos hb] at h; cases h
      · rw [if_neg hb] at h
        simp only [Except.ok.injEq] at h
        exact ⟨h.symm, Or.inr ⟨hk2, by omega, by omega⟩⟩
    · rw [if_neg hk2] at h; cases h

/-- An accepted load or store of the required shape: its registers pass the
range check, its immediate is accepted, and its word is the C++ expression. -/
theorem encode_lw_ok (symbolTable : Dictionary) (PC : Int) (mn : String) (op : Int)
    (hm : mn = "lw" ∨ mn = "sw") (hop : opcode.lookupAt mn = some op)
    (x1 x2 x4 x5 x6 : String) (v0 v2 v4 v6 S T : Int) (imm : Token) (w : Int)
    (h : encode symbolTable PC [⟨.ID, mn, v0⟩, ⟨.REG, x1, T⟩, ⟨.COMMA, x2, v2⟩, imm,
      ⟨.LPAREN, x4, v4⟩, ⟨.REG, x5, S⟩, ⟨.RPAREN, x6, v6⟩] = .ok w) :
    registerNumberInRange T = true ∧ registerNumberInRange S = true ∧
    ∃ v, immediateLw imm = .ok v ∧
      w = toInt (or64 (or64 (or64 (shl32 op 26) (shl64 S 21)) (shl64 T 16))
        (and64 v 0xffff)) := by
  rw [encode_lw_shape symbolTable PC mn op hm hop] at h
  cases hT : registerNumberInRange T with
  | false => rw [hT] at h; simp at h
  | true =>
    rw [hT] at h
    cases himm : immediateLw imm with
    | error e => rw [himm] at h; simp at h
    | ok v =>
      rw [himm] at h
      cases hS : registerNumberInRange S with
      | false => rw [hS] at h; simp at h
      | true =>
        rw [hS] at h
        simp only [Bool.not_true, Bool.false_eq_true, if_false, Except.ok.injEq] at h
        exact ⟨rfl, rfl, v, rfl, h.symm⟩

theorem printNumber_bits32 (w : Int) : printNumber w = bigEndianBytes (bits32 w) :=
  printNumber_bytes w

/-! ## C13: loads and stores -/

/-- C13: a line starting with `lw` or `sw` is accepted only if it has exactly 7
tokens with COMMA at index 2, LPAREN at index 4, RPAREN at index 6 and REG
tokens at indices 1 and 5.  For every accepted `mnem $rt,IMM($rs)` the four
bytes written are the big-endian bytes of the unsigned 32-bit word
`(op<<26)|(rs<<21)|(rt<<16)|(imm & 0xFFFF)` (the expression cut to 32 bits;
`rs`, `rt` are the 64-bit patterns of the register values, the values
themselves when they are not negative), with `op` 0x23 for `lw` and 0x2b for
`sw`; with registers in [0,31] and a valid immediate the line is accepted and
the word is the expression itself, although `op<<26` is at least 2^31. -/
theorem memory_lines (symbolTable : Dictionary) (PC : Int) :
    (∀ line : TokenLine, (nth line 0).kind = Kind.ID →
      ((nth line 0).lexeme = "lw" ∨ (nth line 0).lexeme = "sw") →
      accepts symbolTable PC line →
      line.length = 7 ∧ (nth line 2).kind = Kind.COMMA ∧ (nth line 4).kind = Kind.LPAREN ∧
        (nth line 6).kind = Kind.RPAREN ∧ (nth line 1).kind = Kind.REG ∧
        (nth line 5).kind = Kind.REG) ∧
    (∀ mn op, (mn, op) ∈ [("lw", 0x23), ("sw", 0x2b)] →
      ∀ (x1 x2 x4 x5 x6 : String) (v0 v2 v4 v6 S T : Int) (imm : Token) (w : Int),
      encode symbolTable PC [⟨.ID, mn, v0⟩, ⟨.REG, x1, T⟩, ⟨.COMMA, x2, v2⟩, imm,
        ⟨.LPAREN, x4, v4⟩, ⟨.REG, x5, S⟩, ⟨.RPAREN, x6, v6⟩] = .ok w →
      printNumber w = bigEndianBytes (((op <<< 26) ||| (bits64 S <<< 21)
        ||| (bits64 T <<< 16) ||| (imm.value % 65536).toNat) % 2 ^ 32)) ∧
    (∀ mn op, (mn, op) ∈ [("lw", 0x23), ("sw", 0x2b)] →
      ∀ (rs rt : Nat), rs ≤ 31 → rt ≤ 31 →
      ∀ (x1 x2 x4 x5 x6 : String) (v0 v2 v4 v6 : Int) (imm : Token),
      validMemoryImmediate imm →
      2 ^ 31 ≤ op <<< 26 ∧
      ∃ w, encode symbolTable PC [⟨.ID, mn, v0⟩, ⟨.REG, x1, rt⟩, ⟨.COMMA, x2, v2⟩, imm,
          ⟨.LPAREN, x4, v4⟩, ⟨.REG, x5, rs⟩, ⟨.RPAREN, x6, v6⟩] = .ok w ∧
        printNumber w = bigEndianBytes ((op <<< 26) ||| (rs <<< 21) ||| (rt <<< 16)
          ||| (imm.value % 65536).toNat)) := by
  have hfam : ∀ mn op, (mn, op) ∈ [("lw", 0x23), ("sw", 0x2b)] →
      opcode.lookupAt mn = some ((op : Nat) : Int) ∧ (mn = "lw" ∨ mn = "sw") ∧
        (op = 35 ∨ op = 43) := by
    intro mn op h
    simp only [List.mem_cons, Prod.mk.injEq, List.mem_nil_iff, or_false] at h
    rcases h with ⟨rfl, rfl⟩ | ⟨rfl, rfl⟩
    · exact ⟨by rfl, by simp, by simp⟩
    · exact ⟨by rfl, by simp, by simp⟩
  have hgen : ∀ mn op, (mn, op) ∈ [("lw", 0x23), ("sw", 0x2b)] →
      ∀ (x1 x2 x4 x5 x6 : String) (v0 v2 v4 v6 S T : Int) (imm : Token) (w : Int),
      encode symbolTable PC [⟨.ID, mn, v0⟩, ⟨.REG, x1, T⟩, ⟨.COMMA, x2, v2⟩, imm,
        ⟨.LPAREN, x4, v4⟩, ⟨.REG, x5, S⟩, ⟨.RPAREN, x6, v6⟩] = .ok w →
      printNumber w = bigEndianBytes (((op <<< 26) ||| (bits64 S <<< 21)
        ||| (bits64 T <<< 16) ||| (imm.value % 65536).toNat) % 2 ^ 32) := by
    intro mn op hmem x1 x2 x4 x5 x6 v0 v2 v4 v6 S T imm w hw
    obtain ⟨hop, hm, _⟩ := hfam mn op hmem
    obtain ⟨_, _, v, hv, hw2⟩ := encode_lw_ok symbolTable PC mn (op : Int) hm hop x1 x2 x4
      x5 x6 v0 v2 v4 v6 S T imm w hw
    rw [hw2, printNumber_bits32, bits32_word, (immediateLw_ok imm v hv).1]
  refine ⟨?_, hgen, ?_⟩
  · intro line h0 hm hacc
    obtain ⟨w, hw⟩ := hacc
    have henc : encode symbolTable PC line = encodeLw line := by
      rcases hm with h | h <;> simp [encode, Token.getKind, Token.getLexeme, h0, h]
    rw [henc] at hw
    exact encodeLw_ok_shape line w hw
  · intro mn op hmem rs rt hs ht x1 x2 x4 x5 x6 v0 v2 v4 v6 imm himm
    obtain ⟨hop, hm, hop2⟩ := hfam mn op hmem
    have hacc : accepts symbolTable PC [⟨.ID, mn, v0⟩, ⟨.REG, x1, rt⟩, ⟨.COMMA, x2, v2⟩, imm,
        ⟨.LPAREN, x4, v4⟩, ⟨.REG, x5, rs⟩, ⟨.RPAREN, x6, v6⟩] := by
      rw [accepts_lw_iff _ _ _ hm]
      exact ⟨registerNumberInRange_natCast rt ht, registerNumberInRange_natCast rs hs,
        immediateLw_valid imm himm⟩
    obtain ⟨w, hw⟩ := hacc
    refine ⟨?_, w, hw, ?_⟩
    · rcases hop2 with rfl | rfl <;> norm_num [Nat.shiftLeft_eq]
    · rw [hgen mn op hmem x1 x2 x4 x5 x6 v0 v2 v4 v6 rs rt imm w hw,
        bits64_natCast rs (by omega), bits64_natCast rt (by omega)]
      have hlow : (imm.value % 65536).toNat < 2 ^ 16 := by omega
      have hsum := fields_or_eq_add op rs rt _ hs ht hlow
      have hlt : (op <<< 26) ||| (rs <<< 21) ||| (rt <<< 16) ||| (imm.value % 65536).toNat
          < 2 ^ 32 := by
        rw [hsum]
        rcases hop2 with rfl | rfl <;> omega
      rw [Nat.mod_eq_of_lt hlt]

/-- C13, witness: `lw $1, 4($2)` writes 8C 41 00 04 and `sw $1, 4($2)` writes
AC 41 00 04; `lw $1, 4 $2`, without the parentheses, is rejected. -/
theorem memory_lines_witness :
    (main [[⟨.ID, "lw", 0⟩, ⟨.REG, "$1", 1⟩, ⟨.COMMA, ",", 0⟩, ⟨.INT, "4", 4⟩,
      ⟨.LPAREN, "(", 0⟩, ⟨.REG, "$2", 2⟩, ⟨.RPAREN, ")", 0⟩]]).output = [0x8C, 0x41, 0x00, 0x04] ∧
    (main [[⟨.ID, "sw", 0⟩, ⟨.REG, "$1", 1⟩, ⟨.COMMA, ",", 0⟩, ⟨.INT, "4", 4⟩,
      ⟨.LPAREN, "(", 0⟩, ⟨.REG, "$2", 2⟩, ⟨.RPAREN, ")", 0⟩]]).output = [0xAC, 0x41, 0x00, 0x04] ∧
    ¬ accepts [] 0 [⟨.ID, "lw", 0⟩, ⟨.REG, "$1", 1⟩, ⟨.COMMA, ",", 0⟩, ⟨.INT, "4", 4⟩,
      ⟨.REG, "$2", 2⟩] ∧
    (∃ w, encode [] 0 [⟨.ID, "lw", 0⟩, ⟨.REG, "$1", ((1 : Nat) : Int)⟩, ⟨.COMMA, ",", 0⟩,
        ⟨.INT, "4", 4⟩, ⟨.LPAREN, "(", 0⟩, ⟨.REG, "$2", ((2 : Nat) : Int)⟩, ⟨.RPAREN, ")", 0⟩]
        = .ok w ∧
      printNumber w = bigEndianBytes ((0x23 <<< 26) ||| (2 <<< 21) ||| (1 <<< 16)
        ||| ((4 : Int) % 65536).toNat)) :=
  ⟨by rfl, by rfl,
    fun h => absurd ((memory_lines [] 0).1 [⟨.ID, "lw", 0⟩, ⟨.REG, "$1", 1⟩, ⟨.COMMA, ",", 0⟩,
      ⟨.INT, "4", 4⟩, ⟨.REG, "$2", 2⟩] rfl (Or.inl rfl) h).1 (by decide),
    ((memory_lines [] 0).2.2 "lw" 0x23 (by simp) 2 1 (by decide) (by decide) "$1" "," "("
      "$2" ")" 0 0 0 0 ⟨.INT, "4", 4⟩ (Or.inl ⟨rfl, by decide, by decide⟩)).2⟩

/-! ## Reading a word back -/

theorem pack_fields (top s t low : Nat) (hs : s ≤ 31) (ht : t ≤ 31) (hlow : low < 2 ^ 16) :
    pack top s t low / 2 ^ 26 = top ∧ pack top s t low / 2 ^ 21 % 32 = s ∧
    pack top s t low / 2 ^ 16 % 32 = t ∧ pack top s t low % 2 ^ 16 = low ∧
    pack top s t low / 2 ^ 11 % 32 = low / 2 ^ 11 ∧
    pack top s t low % 2 ^ 11 = low % 2 ^ 11 := by
  unfold pack
  refine ⟨?_, ?_, ?_, ?_, ?_, ?_⟩ <;> omega

theorem decode_pack_immediate (mn : String) (top : Nat)
    (hm : (mn, top) ∈ [("beq", 4), ("bne", 5)]) (s t low : Nat)
    (hs : s ≤ 31) (ht : t ≤ 31) (hlow : low < 2 ^ 16) :
    decode (pack top s t low) = some (mn, [s, t], some low) := by
  obtain ⟨h1, h2, h3, h4, _, _⟩ := pack_fields top s t low hs ht hlow
  simp only [List.mem_cons, Prod.mk.injEq, List.mem_nil_iff, or_false] at hm
  rcases hm with ⟨rfl, rfl⟩ | ⟨rfl, rfl⟩ <;> (simp only [decode, h1, h2, h3, h4]; simp)

theorem decode_pack_memory (mn : String) (top : Nat)
    (hm : (mn, top) ∈ [("lw", 0x23), ("sw", 0x2b)]) (s t low : Nat)
    (hs : s ≤ 31) (ht : t ≤ 31) (hlow : low < 2 ^ 16) :
    decode (pack top s t low) = some (mn, [t, s], some low) := by
  obtain ⟨h1, h2, h3, h4, _, _⟩ := pack_fields top s t low hs ht hlow
  simp only [List.mem_cons, Prod.mk.injEq, List.mem_nil_iff, or_false] at hm
  rcases hm with ⟨rfl, rfl⟩ | ⟨rfl, rfl⟩ <;> (simp only [decode, h1, h2, h3, h4]; simp)

theorem decode_pack_add (mn : String) (op : Nat)
    (hm : (mn, op) ∈ [("add", 0x20), ("sub", 0x22), ("slt", 0x2a), ("sltu", 0x2b)])
    (s t d : Nat) (hs : s ≤ 31) (ht : t ≤ 31) (hd : d ≤ 31) :
    decode (pack 0 s t (d * 2 ^ 11 + op)) = some (mn, [d, s, t], none) := by
  simp only [List.mem_cons, Prod.mk.injEq, List.mem_nil_iff, or_false] at hm
  have hop : op < 2 ^ 11 := by rcases hm with ⟨_, rfl⟩ | ⟨_, rfl⟩ | ⟨_, rfl⟩ | ⟨_, rfl⟩ <;> norm_num
  obtain ⟨h1, h2, h3, _, h5, h6⟩ := pack_fields 0 s t (d * 2 ^ 11 + op) hs ht (by omega)
  have h7 : (d * 2 ^ 11 + op) / 2 ^ 11 = d := by omega
  have h8 : (d * 2 ^ 11 + op) % 2 ^ 11 = op := by omega
  rw [h7] at h5
  rw [h8] at h6
  rcases hm with ⟨rfl, rfl⟩ | ⟨rfl, rfl⟩ | ⟨rfl, rfl⟩ | ⟨rfl, rfl⟩ <;>
    (simp only [decode, h1, h2, h3, h5, h6]; simp)

theorem decode_pack_jr (mn : String) (op : Nat) (hm : (mn, op) ∈ [("jr", 0x8), ("jalr", 0x9)])
    (s : Nat) (hs : s ≤ 31) :
    decode (pack 0 s 0 op) = some (mn, [s], none) := by
  simp only [List.mem_cons, Prod.mk.injEq, List.mem_nil_iff, or_false] at hm
  have hop : op < 2 ^ 11 := by rcases hm with ⟨_, rfl⟩ | ⟨_, rfl⟩ <;> norm_num
  obtain ⟨h1, h2, _, _, _, h6⟩ := pack_fields 0 s 0 op hs (by omega) (by omega)
  have h8 : op % 2 ^ 11 = op := by omega
  rw [h8] at h6
  rcases hm with ⟨rfl, rfl⟩ | ⟨rfl, rfl⟩ <;> (simp only [decode, h1, h2, h6]; simp)

theorem decode_pack_lis (mn : String) (op : Nat)
    (hm : (mn, op) ∈ [("lis", 0x14), ("mfhi", 0x10), ("mflo", 0x12)]) (d : Nat) (hd : d ≤ 31) :
    decode (pack 0 0 0 (d * 2 ^ 11 + op)) = some (mn, [d], none) := by
  simp only [List.mem_cons, Prod.mk.injEq, List.mem_nil_iff, or_false] at hm
  have hop : op < 2 ^ 11 := by rcases hm with ⟨_, rfl⟩ | ⟨_, rfl⟩ | ⟨_, rfl⟩ <;> norm_num
  obtain ⟨h1, _, _, _, h5, h6⟩ := pack_fields 0 0 0 (d * 2 ^ 11 + op) (by omega) (by omega)
    (by omega)
  have h7 : (d * 2 ^ 11 + op) / 2 ^ 11 = d := by omega
  have h8 : (d * 2 ^ 11 + op) % 2 ^ 11 = op := by omega
  rw [h7] at h5
  rw [h8] at h6
  rcases hm with ⟨rfl, rfl⟩ | ⟨rfl, rfl⟩ | ⟨rfl, rfl⟩ <;> (simp only [decode, h1, h5, h6]; simp)

theorem decode_pack_mult (mn : String) (op : Nat)
    (hm : (mn, op) ∈ [("mult", 0x18), ("multu", 0x19), ("div", 0x1a), ("divu", 0x1b)])
    (s t : Nat) (hs : s ≤ 31) (ht : t ≤ 31) :
    decode (pack 0 s t op) = some (mn, [s, t], none) := by
  simp only [List.mem_cons, Prod.mk.injEq, List.mem_nil_iff, or_false] at hm
  have hop : op < 2 ^ 11 := by rcases hm with ⟨_, rfl⟩ | ⟨_, rfl⟩ | ⟨_, rfl⟩ | ⟨_, rfl⟩ <;> norm_num
  obtain ⟨h1, h2, h3, _, _, h6⟩ := pack_fields 0 s t op hs ht (by omega)
  have h8 : op % 2 ^ 11 = op := by omega
  rw [h8] at h6
  rcases hm with ⟨rfl, rfl⟩ | ⟨rfl, rfl⟩ | ⟨rfl, rfl⟩ | ⟨rfl, rfl⟩ <;>
    (simp only [decode, h1, h2, h3, h6]; simp)

theorem cons_of_length {α : Type} (l : List α) (n : Nat) (h : l.length = n + 1) :
    ∃ a t, l = a :: t ∧ t.length = n := by
  cases l with
  | nil => simp at h
  | cons a t => exact ⟨a, t, rfl, by simpa using h⟩

theorem list_of_length_two {α : Type} (l : List α) (h : l.length = 2) :
    ∃ a b, l = [a, b] := by
  obtain ⟨a, l1, rfl, h1⟩ := cons_of_length l 1 h
  obtain ⟨b, l2, rfl, h2⟩ := cons_of_length l1 0 h1
  rw [List.length_eq_zero] at h2
  exact ⟨a, b, by rw [h2]⟩

theorem list_of_length_four {α : Type} (l : List α) (h : l.length = 4) :
    ∃ a b c d, l = [a, b, c, d] := by
  obtain ⟨a, l1, rfl, h1⟩ := cons_of_length l 3 h
  obtain ⟨b, l2, rfl, h2⟩ := cons_of_length l1 2 h1
  obtain ⟨c, d, rfl⟩ := list_of_length_two l2 h2
  exact ⟨a, b, c, d, rfl⟩

theorem list_of_length_six {α : Type} (l : List α) (h : l.length = 6) :
    ∃ a b c d e f, l = [a, b, c, d, e, f] := by
  obtain ⟨a, l1, rfl, h1⟩ := cons_of_length l 5 h
  obtain ⟨b, l2, rfl, h2⟩ := cons_of_length l1 4 h1
  obtain ⟨c, d, e, f, rfl⟩ := list_of_length_four l2 h2
  exact ⟨a, b, c, d, e, f, rfl⟩

theorem list_of_length_seven {α : Type} (l : List α) (h : l.length = 7) :
    ∃ a b c d e f g, l = [a, b, c, d, e, f, g] := by
  obtain ⟨a, l1, rfl, h1⟩ := cons_of_length l 6 h
  obtain ⟨b, c, d, e, f, g, rfl⟩ := list_of_length_six l1 h1
  exact ⟨a, b, c, d, e, f, g, rfl⟩

theorem token_eta (t : Token) (k : Kind) (h : t.kind = k) : t = ⟨k, t.lexeme, t.value⟩ := by
  cases t
  simp only at h
  subst h
  rfl

theorem register_natCast (v : Int) (h : 0 ≤ v ∧ v ≤ 31) : ∃ r : Nat, v = r ∧ r ≤ 31 :=
  ⟨v.toNat, by omega, by omega⟩

theorem encodeAdd_ok_shape (line : TokenLine) (w : Int) (hw : encodeAdd line = .ok w) :
    line.length = 6 ∧ (nth line 2).kind = Kind.COMMA ∧ (nth line 4).kind = Kind.COMMA ∧
      (nth line 1).kind = Kind.REG ∧ (nth line 3).kind = Kind.REG ∧
      (nth line 5).kind = Kind.REG := by
  unfold encodeAdd at hw
  by_cases hlen : line.length = 6
  · rw [if_neg (by simpa using hlen)] at hw
    by_cases hp : (nth line 2).getKind ≠ Kind.COMMA ∨ (nth line 4).getKind ≠ Kind.COMMA
    · rw [if_pos hp] at hw; cases hw
    · rw [if_neg hp] at hw
      simp only [not_or, not_not, Token.getKind] at hp
      cases hop : opcode.lookupAt (nth line 0).getLexeme with
      | none => rw [hop] at hw; cases hw
      | some op =>
        rw [hop] at hw
        simp only at hw
        by_cases h1 : (nth line 1).getKind ≠ Kind.REG
        · rw [if_pos h1] at hw; cases hw
        · rw [if_neg h1] at hw
          by_cases r1 : (!registerNumberInRange (nth line 1).toLong) = true
          · rw [if_pos r1] at hw; cases hw
          · rw [if_neg r1] at hw
            by_cases h3 : (nth line 3).getKind ≠ Kind.REG
            · rw [if_pos h3] at hw; cases hw
            · rw [if_neg h3] at hw
              by_cases r3 : (!registerNumberInRange (nth line 3).toLong) = true
              · rw [if_pos r3] at hw; cases hw
              · rw [if_neg r3] at hw
                by_cases h5 : (nth line 5).getKind ≠ Kind.REG
                · rw [if_pos h5] at hw; cases hw
                · simp only [not_not, Token.getKind] at h1 h3 h5
                  exact ⟨hlen, hp.1, hp.2, h1, h3, h5⟩
  · rw [if_pos hlen] at hw; cases hw

theorem or_fields_pack (s t d op : Nat) (hs : s ≤ 31) (ht : t ≤ 31) (hd : d ≤ 31)
    (hop : op < 2 ^ 11) :
    (s <<< 21) ||| (t <<< 16) ||| (d <<< 11) ||| op = pack 0 s t (d * 2 ^ 11 + op) := by
  have h := fields_or_eq_add 0 s t (d * 2 ^ 11 + op) hs ht (by omega)
  rw [← low_or_eq_add d op hop] at h
  unfold pack
  rw [← low_or_eq_add d op hop, ← h]
  simp [Nat.or_assoc]

/-- The word of an accepted line of the `add` family reads back as its
mnemonic and its registers. -/
theorem decode_encode_add (symbolTable : Dictionary) (PC : Int) (line : TokenLine) (w : Int)
    (h : encode symbolTable PC line = .ok w) (h0 : (nth line 0).kind = Kind.ID)
    (hm : (nth line 0).lexeme = "add" ∨ (nth line 0).lexeme = "sub" ∨
      (nth line 0).lexeme = "slt" ∨ (nth line 0).lexeme = "sltu")
    (hr : ∀ t ∈ line, t.kind = Kind.REG → 0 ≤ t.value ∧ t.value ≤ 31) :
    decode (bits32 w) = some ((nth line 0).lexeme, (registersOf line).map Int.toNat,
      (immediateOf symbolTable PC line).map fun v => (v % 65536).toNat) := by
  have henc : encode symbolTable PC line = encodeAdd line := by
    rcases hm with h1 | h1 | h1 | h1 <;>
      simp [encode, Token.getKind, Token.getLexeme, h0, h1]
  obtain ⟨hlen, k2, k4, k1, k3, k5⟩ := encodeAdd_ok_shape line w (henc ▸ h)
  obtain ⟨t0, t1, t2, t3, t4, t5, rfl⟩ := list_of_length_six line hlen
  simp only [nth, List.getD_cons_zero, List.getD_cons_succ] at h0 hm k1 k2 k3 k4 k5
  obtain ⟨d, hd1, hd⟩ := register_natCast t1.value (hr t1 (by simp) k1)
  obtain ⟨s, hs1, hs⟩ := register_natCast t3.value (hr t3 (by simp) k3)
  obtain ⟨t, ht1, ht⟩ := register_natCast t5.value (hr t5 (by simp) k5)
  rw [token_eta t0 _ h0, token_eta t1 _ k1, token_eta t2 _ k2, token_eta t3 _ k3,
    token_eta t4 _ k4, token_eta t5 _ k5] at h ⊢
  simp only [hd1, hs1, ht1] at h ⊢
  have hfam : ∃ op : Nat, (t0.lexeme, op) ∈ [("add", 0x20), ("sub", 0x22), ("slt", 0x2a),
      ("sltu", 0x2b)] ∧ opcode.lookupAt t0.lexeme = some (op : Int) ∧ op < 2 ^ 11 := by
    rcases hm with h1 | h1 | h1 | h1 <;> rw [h1]
    · exact ⟨0x20, by simp, by rfl, by norm_num⟩
    · exact ⟨0x22, by simp, by rfl, by norm_num⟩
    · exact ⟨0x2a, by simp, by rfl, by norm_num⟩
    · exact ⟨0x2b, by simp, by rfl, by norm_num⟩
  obtain ⟨op, hmem, hop, hoplt⟩ := hfam
  rw [encode_add_shape symbolTable PC t0.lexeme op hm hop, registerNumberInRange_natCast d hd,
    registerNumberInRange_natCast s hs, registerNumberInRange_natCast t ht] at h
  simp only [Bool.not_true, Bool.false_eq_true, if_false, Except.ok.injEq] at h
  rw [word_of_fields s t d op hs ht hd hoplt] at h
  have hlt : (s <<< 21) ||| (t <<< 16) ||| (d <<< 11) ||| op < 4294967296 := by
    rw [or_fields_pack s t d op hs ht hd hoplt]; unfold pack; omega
  rw [← h, bits32_natCast _ hlt, or_fields_pack s t d op hs ht hd hoplt,
    decode_pack_add t0.lexeme op hmem s t d hs ht hd]
  have himm : immediateOf symbolTable PC [⟨.ID, t0.lexeme, t0.value⟩, ⟨.REG, t1.lexeme, d⟩,
      ⟨.COMMA, t2.lexeme, t2.value⟩, ⟨.REG, t3.lexeme, s⟩, ⟨.COMMA, t4.lexeme, t4.value⟩,
      ⟨.REG, t5.lexeme, t⟩] = none := by
    rcases hm with h1 | h1 | h1 | h1 <;> simp [immediateOf, nth, h1]
  rw [himm]
  simp [registersOf, nth]

theorem encodeJr_ok_shape (line : TokenLine) (w : Int) (hw : encodeJr line = .ok w) :
    line.length = 2 ∧ (nth line 1).kind = Kind.REG := by
  unfold encodeJr at hw
  by_cases hlen : line.length = 2
  · rw [if_neg (by simpa using hlen)] at hw
    cases hop : opcode.lookupAt (nth line 0).getLexeme with
    | none => rw [hop] at hw; cases hw
    | some op =>
      rw [hop] at hw
      simp only at hw
      by_cases h1 : (nth line 1).getKind ≠ Kind.REG
      · rw [if_pos h1] at hw; cases hw
      · simp only [not_not, Token.getKind] at h1
        exact ⟨hlen, h1⟩
  · rw [if_pos hlen] at hw; cases hw

theorem encodeLis_ok_shape (line : TokenLine) (w : Int) (hw : encodeLis line = .ok w) :
    line.length = 2 ∧ (nth line 1).kind = Kind.REG := by
  unfold encodeLis at hw
  by_cases hlen : line.length = 2
  · rw [if_neg (by simpa using hlen)] at hw
    cases hop : opcode.lookupAt (nth line 0).getLexeme with
    | none => rw [hop] at hw; cases hw
    | some op =>
      rw [hop] at hw
      simp only at hw
      by_cases h1 : (nth line 1).getKind ≠ Kind.REG
      · rw [if_pos h1] at hw; cases hw
      · simp only [not_not, Token.getKind] at h1
        exact ⟨hlen, h1⟩
  · rw [if_pos hlen] at hw; cases hw

theorem encodeMult_ok_shape (line : TokenLine) (w : Int) (hw : encodeMult line = .ok w) :
    line.length = 4 ∧ (nth line 2).kind = Kind.COMMA ∧ (nth line 1).kind = Kind.REG ∧
      (nth line 3).kind = Kind.REG := by
  unfold encodeMult at hw
  by_cases hlen : line.length = 4
  · rw [if_neg (by simpa using hlen)] at hw
    by_cases hp : (nth line 2).getKind ≠ Kind.COMMA
    · rw [if_pos hp] at hw; cases hw
    · rw [if_neg hp] at hw
      simp only [not_not, Token.getKind] at hp
      cases hop : opcode.lookupAt (nth line 0).getLexeme with
      | none => rw [hop] at hw; cases hw
      | some op =>
        rw [hop] at hw
        simp only at hw
        by_cases h1 : (nth line 1).getKind ≠ Kind.REG
        · rw [if_pos h1] at hw; cases hw
        · rw [if_neg h1] at hw
          by_cases r1 : (!registerNumberInRange (nth line 1).toLong) = true
          · rw [if_pos r1] at hw; cases hw
          · rw [if_neg r1] at hw
            by_cases h3 : (nth line 3).getKind ≠ Kind.REG
            · rw [if_pos h3] at hw; cases hw
            · simp only [not_not, Token.getKind] at h1 h3
              exact ⟨hlen, hp, h1, h3⟩
  · rw [if_pos hlen] at hw; cases hw

theorem encodeBeq_ok_shape (symbolTable : Dictionary) (PC : Int) (line : TokenLine) (w : Int)
    (hw : encodeBeq symbolTable PC line = .ok w) :
    line.length = 6 ∧ (nth line 2).kind = Kind.COMMA ∧ (nth line 4).kind = Kind.COMMA ∧
      (nth line 1).kind = Kind.REG ∧ (nth line 3).kind = Kind.REG := by
  unfold encodeBeq at hw
  by_cases hlen : line.length = 6
  · rw [if_neg (by simpa using hlen)] at hw
    by_cases hp : (nth line 2).getKind ≠ Kind.COMMA ∨ (nth line 4).getKind ≠ Kind.COMMA
    · rw [if_pos hp] at hw; cases hw
    · rw [if_neg hp] at hw
      simp only [not_or, not_not, Token.getKind] at hp
      cases hop : opcode.lookupAt (nth line 0).getLexeme with
      | none => rw [hop] at hw; cases hw
      | some op =>
        rw [hop] at hw
        simp only at hw
        by_cases h1 : (nth line 1).getKind ≠ Kind.REG
        · rw [if_pos h1] at hw; cases hw
        · rw [if_neg h1] at hw
          by_cases r1 : (!registerNumberInRange (nth line 1).toLong) = true
          · rw [if_pos r1] at hw; cases hw
          · rw [if_neg r1] at hw
            by_cases h3 : (nth line 3).getKind ≠ Kind.REG
            · rw [if_pos h3] at hw; cases hw
            · simp only [not_not, Token.getKind] at h1 h3
              exact ⟨hlen, hp.1, hp.2, h1, h3⟩
  · rw [if_pos hlen] at hw; cases hw

theorem immediateBeq_ok_kind (symbolTable : Dictionary) (PC : Int) (t : Token) (v : Int)
    (h : immediateBeq symbolTable PC t = .ok v) : t.kind ≠ Kind.REG := by
  intro hk
  simp [immediateBeq, Token.getKind, hk] at h

theorem or_jr_pack (s op : Nat) (hs : s ≤ 31) (hop : op < 2 ^ 11) :
    (s <<< 21) ||| op = pack 0 s 0 op := by
  have h := or_fields_pack s 0 0 op hs (by omega) (by omega) hop
  simpa using h

theorem or_lis_pack (d op : Nat) (hd : d ≤ 31) (hop : op < 2 ^ 11) :
    (d <<< 11) ||| op = pack 0 0 0 (d * 2 ^ 11 + op) := by
  have h := or_fields_pack 0 0 d op (by omega) (by omega) hd hop
  simpa using h

theorem or_mult_pack (s t op : Nat) (hs : s ≤ 31) (ht : t ≤ 31) (hop : op < 2 ^ 11) :
    (s <<< 21) ||| (t <<< 16) ||| op = pack 0 s t op := by
  have h := or_fields_pack s t 0 op hs ht (by omega) hop
  simpa using h

/-- The word of an accepted line of the `jr` family reads back as its mnemonic
and its register. -/
theorem decode_encode_jr (symbolTable : Dictionary) (PC : Int) (line : TokenLine) (w : Int)
    (h : encode symbolTable PC line = .ok w) (h0 : (nth line 0).kind = Kind.ID)
    (hm : (nth line 0).lexeme = "jr" ∨ (nth line 0).lexeme = "jalr")
    (hr : ∀ t ∈ line, t.kind = Kind.REG → 0 ≤ t.value ∧ t.value ≤ 31) :
    decode (bits32 w) = some ((nth line 0).lexeme, (registersOf line).map Int.toNat,
      (immediateOf symbolTable PC line).map fun v => (v % 65536).toNat) := by
  have henc : encode symbolTable PC line = encodeJr line := by
    rcases hm with h1 | h1 <;> simp [encode, Token.getKind, Token.getLexeme, h0, h1]
  obtain ⟨hlen, k1⟩ := encodeJr_ok_shape line w (henc ▸ h)
  obtain ⟨t0, t1, rfl⟩ := list_of_length_two line hlen
  simp only [nth, List.getD_cons_zero, List.getD_cons_succ] at h0 hm k1
  obtain ⟨s, hs1, hs⟩ := register_natCast t1.value (hr t1 (by simp) k1)
  rw [token_eta t0 _ h0, token_eta t1 _ k1] at h ⊢
  simp only [hs1] at h ⊢
  have hfam : ∃ op : Nat, (t0.lexeme, op) ∈ [("jr", 0x8), ("jalr", 0x9)] ∧
      opcode.lookupAt t0.lexeme = some (op : Int) ∧ op < 2 ^ 11 := by
    rcases hm with h1 | h1 <;> rw [h1]
    · exact ⟨0x8, by simp, by rfl, by norm_num⟩
    · exact ⟨0x9, by simp, by rfl, by norm_num⟩
  obtain ⟨op, hmem, hop, hoplt⟩ := hfam
  rw [encode_jr_shape symbolTable PC t0.lexeme op hm hop,
    registerNumberInRange_toShort_natCast s hs] at h
  simp only [Bool.not_true, Bool.false_eq_true, if_false, Except.ok.injEq] at h
  rw [word_of_jr s op hs hoplt] at h
  have hlt : (s <<< 21) ||| op < 4294967296 := by
    rw [or_jr_pack s op hs hoplt]; unfold pack; omega
  rw [← h, bits32_natCast _ hlt, or_jr_pack s op hs hoplt, decode_pack_jr t0.lexeme op hmem s hs]
  have himm : immediateOf symbolTable PC [⟨.ID, t0.lexeme, t0.value⟩, ⟨.REG, t1.lexeme, s⟩]
      = none := by
    rcases hm with h1 | h1 <;> simp [immediateOf, nth, h1]
  rw [himm]
  simp [registersOf, nth]

/-- The word of an accepted line of the `lis` family reads back as its mnemonic
and its register. -/
theorem decode_encode_lis (symbolTable : Dictionary) (PC : Int) (line : TokenLine) (w : Int)
    (h : encode symbolTable PC line = .ok w) (h0 : (nth line 0).kind = Kind.ID)
    (hm : (nth line 0).lexeme = "lis" ∨ (nth line 0).lexeme = "mfhi" ∨
      (nth line 0).lexeme = "mflo")
    (hr : ∀ t ∈ line, t.kind = Kind.REG → 0 ≤ t.value ∧ t.value ≤ 31) :
    decode (bits32 w) = some ((nth line 0).lexeme, (registersOf line).map Int.toNat,
      (immediateOf symbolTable PC line).map fun v => (v % 65536).toNat) := by
  have henc : encode symbolTable PC line = encodeLis line := by
    rcases hm with h1 | h1 | h1 <;> simp [encode, Token.getKind, Token.getLexeme, h0, h1]
  obtain ⟨hlen, k1⟩ := encodeLis_ok_shape line w (henc ▸ h)
  obtain ⟨t0, t1, rfl⟩ := list_of_length_two line hlen
  simp only [nth, List.getD_cons_zero, List.getD_cons_succ] at h0 hm k1
  obtain ⟨d, hd1, hd⟩ := register_natCast t1.value (hr t1 (by simp) k1)
  rw [token_eta t0 _ h0, token_eta t1 _ k1] at h ⊢
  simp only [hd1] at h ⊢
  have hfam : ∃ op : Nat, (t0.lexeme, op) ∈ [("lis", 0x14), ("mfhi", 0x10), ("mflo", 0x12)] ∧
      opcode.lookupAt t0.lexeme = some (op : Int) ∧ op < 2 ^ 11 := by
    rcases hm with h1 | h1 | h1 <;> rw [h1]
    · exact ⟨0x14, by simp, by rfl, by norm_num⟩
    · exact ⟨0x10, by simp, by rfl, by norm_num⟩
    · exact ⟨0x12, by simp, by rfl, by norm_num⟩
  obtain ⟨op, hmem, hop, hoplt⟩ := hfam
  rw [encode_lis_shape symbolTable PC t0.lexeme op hm hop,
    registerNumberInRange_natCast d hd] at h
  simp only [Bool.not_true, Bool.false_eq_true, if_false, Except.ok.injEq] at h
  rw [word_of_lis d op hd hoplt] at h
  have hlt : (d <<< 11) ||| op < 4294967296 := by
    rw [or_lis_pack d op hd hoplt]; unfold pack; omega
  rw [← h, bits32_natCast _ hlt, or_lis_pack d op hd hoplt,
    decode_pack_lis t0.lexeme op hmem d hd]
  have himm : immediateOf symbolTable PC [⟨.ID, t0.lexeme, t0.value⟩, ⟨.REG, t1.lexeme, d⟩]
      = none := by
    rcases hm with h1 | h1 | h1 <;> simp [immediateOf, nth, h1]
  rw [himm]
  simp [registersOf, nth]

/-- The word of an accepted line of the `mult` family reads back as its
mnemonic and its registers. -/
theorem decode_encode_mult (symbolTable : Dictionary) (PC : Int) (line : TokenLine) (w : Int)
    (h : encode symbolTable PC line = .ok w) (h0 : (nth line 0).kind = Kind.ID)
    (hm : (nth line 0).lexeme = "mult" ∨ (nth line 0).lexeme = "multu" ∨
      (nth line 0).lexeme = "div" ∨ (nth line 0).lexeme = "divu")
    (hr : ∀ t ∈ line, t.kind = Kind.REG → 0 ≤ t.value ∧ t.value ≤ 31) :
    decode (bits32 w) = some ((nth line 0).lexeme, (registersOf line).map Int.toNat,
      (immediateOf symbolTable PC line).map fun v => (v % 65536).toNat) := by
  have henc : encode symbolTable PC line = encodeMult line := by
    rcases hm with h1 | h1 | h1 | h1 <;>
      simp [encode, Token.getKind, Token.getLexeme, h0, h1]
  obtain ⟨hlen, k2, k1, k3⟩ := encodeMult_ok_shape line w (henc ▸ h)
  obtain ⟨t0, t1, t2, t3, rfl⟩ := list_of_length_four line hlen
  simp only [nth, List.getD_cons_zero, List.getD_cons_succ] at h0 hm k1 k2 k3
  obtain ⟨s, hs1, hs⟩ := register_natCast t1.value (hr t1 (by simp) k1)
  obtain ⟨t, ht1, ht⟩ := register_natCast t3.value (hr t3 (by simp) k3)
  rw [token_eta t0 _ h0, token_eta t1 _ k1, token_eta t2 _ k2, token_eta t3 _ k3] at h ⊢
  simp only [hs1, ht1] at h ⊢
  have hfam : ∃ op : Nat, (t0.lexeme, op) ∈ [("mult", 0x18), ("multu", 0x19), ("div", 0x1a),
      ("divu", 0x1b)] ∧ opcode.lookupAt t0.lexeme = some (op : Int) ∧ op < 2 ^ 11 := by
    rcases hm with h1 | h1 | h1 | h1 <;> rw [h1]
    · exact ⟨0x18, by simp, by rfl, by norm_num⟩
    · exact ⟨0x19, by simp, by rfl, by norm_num⟩
    · exact ⟨0x1a, by simp, by rfl, by norm_num⟩
    · exact ⟨0x1b, by simp, by rfl, by norm_num⟩
  obtain ⟨op, hmem, hop, hoplt⟩ := hfam
  rw [encode_mult_shape symbolTable PC t0.lexeme op hm hop,
    registerNumberInRange_natCast s hs, registerNumberInRange_natCast t ht] at h
  simp only [Bool.not_true, Bool.false_eq_true, if_false, Except.ok.injEq] at h
  rw [word_of_mult s t op hs ht hoplt] at h
  have hlt : (s <<< 21) ||| (t <<< 16) ||| op < 4294967296 := by
    rw [or_mult_pack s t op hs ht hoplt]; unfold pack; omega
  rw [← h, bits32_natCast _ hlt, or_mult_pack s t op hs ht hoplt,
    decode_pack_mult t0.lexeme op hmem s t hs ht]
  have himm : immediateOf symbolTable PC [⟨.ID, t0.lexeme, t0.value⟩, ⟨.REG, t1.lexeme, s⟩,
      ⟨.COMMA, t2.lexeme, t2.value⟩, ⟨.REG, t3.lexeme, t⟩] = none := by
    rcases hm with h1 | h1 | h1 | h1 <;> simp [immediateOf, nth, h1]
  rw [himm]
  simp [registersOf, nth]

/-- An accepted branch immediate is the one its operand token denotes. -/
theorem immediateBeq_ok_operand (symbolTable : Dictionary) (PC : Int) (t : Token) (v : Int)
    (h : immediateBeq symbolTable PC t = .ok v) : branchOperand symbolTable PC t = some v := by
  unfold immediateBeq at h
  simp only [Token.getKind, Token.toLong, Token.getLexeme] at h
  unfold branchOperand
  by_cases h1 : t.kind = Kind.INT
  · rw [if_pos h1] at h
    split_ifs at h
    simp only [Except.ok.injEq] at h
    simp [h1, h]
  · rw [if_neg h1] at h
    by_cases h2 : t.kind = Kind.HEXINT
    · rw [if_pos h2] at h
      split_ifs at h
      simp only [Except.ok.injEq] at h
      simp [h2, h]
    · rw [if_neg h2] at h
      by_cases h3 : t.kind = Kind.ID
      · rw [if_pos h3] at h
        cases ha : symbolTable.lookupAt t.lexeme with
        | none => rw [ha] at h; cases h
        | some a =>
          rw [ha] at h
          simp only at h
          split_ifs at h
          simp only [Except.ok.injEq] at h
          simp [h1, h2, h3, h]
      · rw [if_neg h3] at h; cases h

/-- An accepted load or store immediate is the one its operand token denotes. -/
theorem immediateLw_ok_operand (t : Token) (v : Int) (h : immediateLw t = .ok v) :
    memoryOperand t = some v := by
  obtain ⟨hv, hk⟩ := immediateLw_ok t v h
  unfold memoryOperand
  rcases hk with ⟨hk, _⟩ | ⟨hk, _⟩ <;> simp [hk, hv]

/-- The word of an accepted branch reads back as its mnemonic, its registers
and its immediate modulo 65536. -/
theorem decode_encode_beq (symbolTable : Dictionary) (PC : Int) (line : TokenLine) (w : Int)
    (h : encode symbolTable PC line = .ok w) (h0 : (nth line 0).kind = Kind.ID)
    (hm : (nth line 0).lexeme = "beq" ∨ (nth line 0).lexeme = "bne")
    (hr : ∀ t ∈ line, t.kind = Kind.REG → 0 ≤ t.value ∧ t.value ≤ 31) :
    decode (bits32 w) = some ((nth line 0).lexeme, (registersOf line).map Int.toNat,
      (immediateOf symbolTable PC line).map fun v => (v % 65536).toNat) := by
  have henc : encode symbolTable PC line = encodeBeq symbolTable PC line := by
    rcases hm with h1 | h1 <;> simp [encode, Token.getKind, Token.getLexeme, h0, h1]
  obtain ⟨hlen, k2, k4, k1, k3⟩ := encodeBeq_ok_shape symbolTable PC line w (henc ▸ h)
  obtain ⟨t0, t1, t2, t3, t4, t5, rfl⟩ := list_of_length_six line hlen
  simp only [nth, List.getD_cons_zero, List.getD_cons_succ] at h0 hm k1 k2 k3 k4
  obtain ⟨s, hs1, hs⟩ := register_natCast t1.value (hr t1 (by simp) k1)
  obtain ⟨t, ht1, ht⟩ := register_natCast t3.value (hr t3 (by simp) k3)
  rw [token_eta t0 _ h0, token_eta t1 _ k1, token_eta t2 _ k2, token_eta t3 _ k3,
    token_eta t4 _ k4] at h ⊢
  simp only [hs1, ht1] at h ⊢
  have hfam : ∃ op : Nat, (t0.lexeme, op) ∈ [("beq", 4), ("bne", 5)] ∧
      opcode.lookupAt t0.lexeme = some (op : Int) ∧ op ≤ 31 := by
    rcases hm with h1 | h1 <;> rw [h1]
    · exact ⟨4, by simp, by rfl, by norm_num⟩
    · exact ⟨5, by simp, by rfl, by norm_num⟩
  obtain ⟨op, hmem, hop, hople⟩ := hfam
  rw [encode_beq_shape symbolTable PC t0.lexeme op hm hop,
    registerNumberInRange_natCast s hs, registerNumberInRange_natCast t ht] at h
  simp only [Bool.not_true, Bool.false_eq_true, if_false] at h
  cases himm : immediateBeq symbolTable PC t5 with
  | error e => rw [himm] at h; cases h
  | ok v =>
    rw [himm] at h
    simp only [Except.ok.injEq] at h
    rw [word_of_branch op s t v hople hs ht] at h
    have hlow : (v % 65536).toNat < 2 ^ 16 := by omega
    have hsum := fields_or_eq_add op s t _ hs ht hlow
    have hlt : (op <<< 26) ||| (s <<< 21) ||| (t <<< 16) ||| (v % 65536).toNat
        < 4294967296 := by
      rw [hsum]; omega
    have hpack : (op <<< 26) ||| (s <<< 21) ||| (t <<< 16) ||| (v % 65536).toNat
        = pack op s t (v % 65536).toNat := by rw [hsum]; rfl
    rw [← h, bits32_natCast _ hlt, hpack,
      decode_pack_immediate t0.lexeme op hmem s t _ hs ht hlow]
    have hk5 := immediateBeq_ok_kind symbolTable PC t5 v himm
    have hio : immediateOf symbolTable PC [⟨.ID, t0.lexeme, t0.value⟩, ⟨.REG, t1.lexeme, s⟩,
        ⟨.COMMA, t2.lexeme, t2.value⟩, ⟨.REG, t3.lexeme, t⟩, ⟨.COMMA, t4.lexeme, t4.value⟩,
        t5] = some v := by
      have hop5 := immediateBeq_ok_operand symbolTable PC t5 v himm
      rcases hm with h1 | h1 <;> simp [immediateOf, nth, h1, hop5]
    rw [hio]
    simp [registersOf, nth, hk5]

/-- The word of an accepted load or store reads back as its mnemonic, its
registers and its immediate modulo 65536. -/
theorem decode_encode_lw (symbolTable : Dictionary) (PC : Int) (line : TokenLine) (w : Int)
    (h : encode symbolTable PC line = .ok w) (h0 : (nth line 0).kind = Kind.ID)
    (hm : (nth line 0).lexeme = "lw" ∨ (nth line 0).lexeme = "sw")
    (hr : ∀ t ∈ line, t.kind = Kind.REG → 0 ≤ t.value ∧ t.value ≤ 31) :
    decode (bits32 w) = some ((nth line 0).lexeme, (registersOf line).map Int.toNat,
      (immediateOf symbolTable PC line).map fun v => (v % 65536).toNat) := by
  have henc : encode symbolTable PC line = encodeLw line := by
    rcases hm with h1 | h1 <;> simp [encode, Token.getKind, Token.getLexeme, h0, h1]
  obtain ⟨hlen, k2, k4, k6, k1, k5⟩ := encodeLw_ok_shape line w (henc ▸ h)
  obtain ⟨t0, t1, t2, t3, t4, t5, t6, rfl⟩ := list_of_length_seven line hlen
  simp only [nth, List.getD_cons_zero, List.getD_cons_succ] at h0 hm k1 k2 k4 k5 k6
  obtain ⟨t, ht1, ht⟩ := register_natCast t1.value (hr t1 (by simp) k1)
  obtain ⟨s, hs1, hs⟩ := register_natCast t5.value (hr t5 (by simp) k5)
  rw [token_eta t0 _ h0, token_eta t1 _ k1, token_eta t2 _ k2, token_eta t4 _ k4,
    token_eta t5 _ k5, token_eta t6 _ k6] at h ⊢
  simp only [hs1, ht1] at h ⊢
  have hfam : ∃ op : Nat, (t0.lexeme, op) ∈ [("lw", 0x23), ("sw", 0x2b)] ∧
      opcode.lookupAt t0.lexeme = some (op : Int) ∧ op ≤ 63 := by
    rcases hm with h1 | h1 <;> rw [h1]
    · exact ⟨0x23, by simp, by rfl, by norm_num⟩
    · exact ⟨0x2b, by simp, by rfl, by norm_num⟩
  obtain ⟨op, hmem, hop, hople⟩ := hfam
  obtain ⟨_, _, v, himm, hw2⟩ := encode_lw_ok symbolTable PC t0.lexeme (op : Int) hm hop
    t1.lexeme t2.lexeme t4.lexeme t5.lexeme t6.lexeme t0.value t2.value t4.value t6.value
    s t t3 w h
  have hlow : (v % 65536).toNat < 2 ^ 16 := by omega
  have hsum := fields_or_eq_add op s t _ hs ht hlow
  have hlt : (op <<< 26) ||| (s <<< 21) ||| (t <<< 16) ||| (v % 65536).toNat < 2 ^ 32 := by
    rw [hsum]; omega
  have hpack : (op <<< 26) ||| (s <<< 21) ||| (t <<< 16) ||| (v % 65536).toNat
      = pack op s t (v % 65536).toNat := by rw [hsum]; rfl
  rw [hw2, bits32_word, bits64_natCast s (by omega), bits64_natCast t (by omega),
    Nat.mod_eq_of_lt hlt, hpack, decode_pack_memory t0.lexeme op hmem s t _ hs ht hlow]
  have hk3 : t3.kind ≠ Kind.REG := by
    rcases (immediateLw_ok t3 v himm).2 with ⟨hk, _⟩ | ⟨hk, _⟩ <;> rw [hk] <;> decide
  have hio : immediateOf symbolTable PC [⟨.ID, t0.lexeme, t0.value⟩, ⟨.REG, t1.lexeme, t⟩,
      ⟨.COMMA, t2.lexeme, t2.value⟩, t3, ⟨.LPAREN, t4.lexeme, t4.value⟩,
      ⟨.REG, t5.lexeme, s⟩, ⟨.RPAREN, t6.lexeme, t6.value⟩] = some v := by
    have hop3 := immediateLw_ok_operand t3 v himm
    rcases hm with h1 | h1 <;> simp [immediateOf, nth, h1, hop3]
  rw [hio]
  simp [registersOf, nth, hk3]

/-- An accepted line that does not start with a WORD token starts with one of
the 17 mnemonics. -/
theorem encode_ok_family (symbolTable : Dictionary) (PC : Int) (line : TokenLine) (w : Int)
    (h : encode symbolTable PC line = .ok w) (hw : (nth line 0).kind ≠ Kind.WORD) :
    (nth line 0).kind = Kind.ID ∧
    (((nth line 0).lexeme = "jr" ∨ (nth line 0).lexeme = "jalr") ∨
      ((nth line 0).lexeme = "add" ∨ (nth line 0).lexeme = "sub" ∨
        (nth line 0).lexeme = "slt" ∨ (nth line 0).lexeme = "sltu") ∨
      ((nth line 0).lexeme = "beq" ∨ (nth line 0).lexeme = "bne") ∨
      ((nth line 0).lexeme = "lis" ∨ (nth line 0).lexeme = "mfhi" ∨
        (nth line 0).lexeme = "mflo") ∨
      ((nth line 0).lexeme = "mult" ∨ (nth line 0).lexeme = "multu" ∨
        (nth line 0).lexeme = "div" ∨ (nth line 0).lexeme = "divu") ∨
      ((nth line 0).lexeme = "lw" ∨ (nth line 0).lexeme = "sw")) := by
  unfold encode at h
  simp only [Token.getKind, Token.getLexeme] at h
  rw [if_neg hw] at h
  by_cases hk : (nth line 0).kind = Kind.ID
  · refine ⟨hk, ?_⟩
    rw [if_pos hk] at h
    by_cases f1 : (nth line 0).lexeme = "jr" ∨ (nth line 0).lexeme = "jalr"
    · exact Or.inl f1
    · rw [if_neg f1] at h
      by_cases f2 : (nth line 0).lexeme = "add" ∨ (nth line 0).lexeme = "sub" ∨
          (nth line 0).lexeme = "slt" ∨ (nth line 0).lexeme = "sltu"
      · exact Or.inr (Or.inl f2)
      · rw [if_neg f2] at h
        by_cases f3 : (nth line 0).lexeme = "beq" ∨ (nth line 0).lexeme = "bne"
        · exact Or.inr (Or.inr (Or.inl f3))
        · rw [if_neg f3] at h
          by_cases f4 : (nth line 0).lexeme = "lis" ∨ (nth line 0).lexeme = "mfhi" ∨
              (nth line 0).lexeme = "mflo"
          · exact Or.inr (Or.inr (Or.inr (Or.inl f4)))
          · rw [if_neg f4] at h
            by_cases f5 : (nth line 0).lexeme = "mult" ∨ (nth line 0).lexeme = "multu" ∨
                (nth line 0).lexeme = "div" ∨ (nth line 0).lexeme = "divu"
            · exact Or.inr (Or.inr (Or.inr (Or.inr (Or.inl f5))))
            · rw [if_neg f5] at h
              by_cases f6 : (nth line 0).lexeme = "lw" ∨ (nth line 0).lexeme = "sw"
              · exact Or.inr (Or.inr (Or.inr (Or.inr (Or.inr f6))))
              · rw [if_neg f6] at h; cases h
  · rw [if_neg hk] at h; cases h

/-- The word of an accepted instruction-line with registers in [0,31] reads
back as its mnemonic, its register operands in order, and its immediate modulo
65536. -/
theorem decode_encode (symbolTable : Dictionary) (PC : Int) (line : TokenLine) (w : Int)
    (h : encode symbolTable PC line = .ok w) (hw : (nth line 0).kind ≠ Kind.WORD)
    (hr : ∀ t ∈ line, t.kind = Kind.REG → 0 ≤ t.value ∧ t.value ≤ 31) :
    decode (bits32 w) = some ((nth line 0).lexeme, (registersOf line).map Int.toNat,
      (immediateOf symbolTable PC line).map fun v => (v % 65536).toNat) := by
  obtain ⟨h0, f1 | f2 | f3 | f4 | f5 | f6⟩ := encode_ok_family symbolTable PC line w h hw
  · exact decode_encode_jr symbolTable PC line w h h0 f1 hr
  · exact decode_encode_add symbolTable PC line w h h0 f2 hr
  · exact decode_encode_beq symbolTable PC line w h h0 f3 hr
  · exact decode_encode_lis symbolTable PC line w h h0 f4 hr
  · exact decode_encode_mult symbolTable PC line w h h0 f5 hr
  · exact decode_encode_lw symbolTable PC line w h h0 f6 hr

theorem map_toNat_injective :
    ∀ (l1 l2 : List Int), (∀ v ∈ l1, 0 ≤ v) → (∀ v ∈ l2, 0 ≤ v) →
      l1.map Int.toNat = l2.map Int.toNat → l1 = l2 := by
  intro l1
  induction l1 with
  | nil =>
    intro l2 _ _ h
    cases l2 with
    | nil => rfl
    | cons b t => simp at h
  | cons a t ih =>
    intro l2 h1 h2 h
    cases l2 with
    | nil => simp at h
    | cons b t2 =>
      simp only [List.map_cons, List.cons.injEq] at h
      have ha := h1 a (by simp)
      have hb := h2 b (by simp)
      have hab : a = b := by omega
      rw [hab, ih t2 (fun v hv => h1 v (by simp [hv])) (fun v hv => h2 v (by simp [hv])) h.2]

theorem registersOf_nonneg (line : TokenLine)
    (hr : ∀ t ∈ line, t.kind = Kind.REG → 0 ≤ t.value ∧ t.value ≤ 31) :
    ∀ v ∈ registersOf line, 0 ≤ v := by
  intro v hv
  simp only [registersOf, List.mem_map, List.mem_filter, beq_iff_eq] at hv
  obtain ⟨t, ⟨ht, hk⟩, rfl⟩ := hv
  exact (hr t ht hk).1

/-! ## C19: the encoding determines the instruction -/

/-- The immediate that `decode` reads is the low half of the word. -/
theorem decode_immediate (word : Nat) (name : String) (regs : List Nat) (imm : Nat)
    (h : decode word = some (name, regs, some imm)) : imm = word % 2 ^ 16 := by
  unfold decode at h
  dsimp only at h
  by_cases c0 : word / 2 ^ 26 = 4
  · rw [if_pos c0] at h
    simp only [Option.some.injEq, Prod.mk.injEq] at h
    exact h.2.2.symm
  rw [if_neg c0] at h
  by_cases c1 : word / 2 ^ 26 = 5
  · rw [if_pos c1] at h
    simp only [Option.some.injEq, Prod.mk.injEq] at h
    exact h.2.2.symm
  rw [if_neg c1] at h
  by_cases c2 : word / 2 ^ 26 = 35
  · rw [if_pos c2] at h
    simp only [Option.some.injEq, Prod.mk.injEq] at h
    exact h.2.2.symm
  rw [if_neg c2] at h
  by_cases c3 : word / 2 ^ 26 = 43
  · rw [if_pos c3] at h
    simp only [Option.some.injEq, Prod.mk.injEq] at h
    exact h.2.2.symm
  rw [if_neg c3] at h
  by_cases c4 : word / 2 ^ 26 = 0
  swap
  · rw [if_neg c4] at h
    cases h
  rw [if_pos c4] at h
  by_cases d0 : word % 2 ^ 11 = 8
  · rw [if_pos d0] at h
    simp only [Option.some.injEq, Prod.mk.injEq, reduceCtorEq, and_false] at h
  rw [if_neg d0] at h
  by_cases d1 : word % 2 ^ 11 = 9
  · rw [if_pos d1] at h
    simp only [Option.some.injEq, Prod.mk.injEq, reduceCtorEq, and_false] at h
  rw [if_neg d1] at h
  by_cases d2 : word % 2 ^ 11 = 32
  · rw [if_pos d2] at h
    simp only [Option.some.injEq, Prod.mk.injEq, reduceCtorEq, and_false] at h
  rw [if_neg d2] at h
  by_cases d3 : word % 2 ^ 11 = 34
  · rw [if_pos d3] at h
    simp only [Option.some.injEq, Prod.mk.injEq, reduceCtorEq, and_false] at h
  rw [if_neg d3] at h
  by_cases d4 : word % 2 ^ 11 = 42
  · rw [if_pos d4] at h
    simp only [Option.some.injEq, Prod.mk.injEq, reduceCtorEq, and_false] at h
  rw [if_neg d4] at h
  by_cases d5 : word % 2 ^ 11 = 43
  · rw [if_pos d5] at h
    simp only [Option.some.injEq, Prod.mk.injEq, reduceCtorEq, and_false] at h
  rw [if_neg d5] at h
  by_cases d6 : word % 2 ^ 11 = 20
  · rw [if_pos d6] at h
    simp only [Option.some.injEq, Prod.mk.injEq, reduceCtorEq, and_false] at h
  rw [if_neg d6] at h
  by_cases d7 : word % 2 ^ 11 = 16
  · rw [if_pos d7] at h
    simp only [Option.some.injEq, Prod.mk.injEq, reduceCtorEq, and_false] at h
  rw [if_neg d7] at h
  by_cases d8 : word % 2 ^ 11 = 18
  · rw [if_pos d8] at h
    simp only [Option.some.injEq, Prod.mk.injEq, reduceCtorEq, and_false] at h
  rw [if_neg d8] at h
  by_cases d9 : word % 2 ^ 11 = 24
  · rw [if_pos d9] at h
    simp only [Option.some.injEq, Prod.mk.injEq, reduceCtorEq, and_false] at h
  rw [if_neg d9] at h
  by_cases d10 : word % 2 ^ 11 = 25
  · rw [if_pos d10] at h
    simp only [Option.some.injEq, Prod.mk.injEq, reduceCtorEq, and_false] at h
  rw [if_neg d10] at h
  by_cases d11 : word % 2 ^ 11 = 26
  · rw [if_pos d11] at h
    simp only [Option.some.injEq, Prod.mk.injEq, reduceCtorEq, and_false] at h
  rw [if_neg d11] at h
  by_cases d12 : word % 2 ^ 11 = 27
  · rw [if_pos d12] at h
    simp only [Option.some.injEq, Prod.mk.injEq, reduceCtorEq, and_false] at h
  rw [if_neg d12] at h
  cases h

/-- C19: if two accepted instruction-lines that do not start with `.word`, with
all register values in [0,31], are encoded to the same word, then they have the
same mnemonic, the same register operands in every position, and, when they
are branches or loads and stores, immediates that are congruent modulo 65536
(one line has an immediate exactly when the other has).  The immediate of a
line is the one written on it: the value of its INT or HEXINT operand token,
or the offset `(address - PC - 4) / 4` of its label operand; the low 16 bits
of the word are that immediate modulo 65536. -/
theorem encoding_injective (symbolTable1 symbolTable2 : Dictionary) (PC1 PC2 : Int)
    (line1 line2 : TokenLine) (w : Int)
    (h1 : encode symbolTable1 PC1 line1 = .ok w) (h2 : encode symbolTable2 PC2 line2 = .ok w)
    (hw1 : (nth line1 0).kind ≠ Kind.WORD) (hw2 : (nth line2 0).kind ≠ Kind.WORD)
    (hr1 : ∀ t ∈ line1, t.kind = Kind.REG → 0 ≤ t.value ∧ t.value ≤ 31)
    (hr2 : ∀ t ∈ line2, t.kind = Kind.REG → 0 ≤ t.value ∧ t.value ≤ 31) :
    (nth line1 0).lexeme = (nth line2 0).lexeme ∧
    registersOf line1 = registersOf line2 ∧
    (∀ v1 v2, immediateOf symbolTable1 PC1 line1 = some v1 →
      immediateOf symbolTable2 PC2 line2 = some v2 → v1 % 65536 = v2 % 65536) ∧
    (immediateOf symbolTable1 PC1 line1).isSome
      = (immediateOf symbolTable2 PC2 line2).isSome ∧
    (∀ v, immediateOf symbolTable1 PC1 line1 = some v →
      ((bits32 w % 65536 : Nat) : Int) = v % 65536) := by
  have d1 := decode_encode symbolTable1 PC1 line1 w h1 hw1 hr1
  have d2 := decode_encode symbolTable2 PC2 line2 w h2 hw2 hr2
  have d3 := d1
  rw [d1] at d2
  simp only [Option.some.injEq, Prod.mk.injEq] at d2
  obtain ⟨e1, e2, e3⟩ := d2
  refine ⟨e1, ?_, ?_, ?_, ?_⟩
  · exact map_toNat_injective _ _ (registersOf_nonneg line1 hr1) (registersOf_nonneg line2 hr2) e2
  · intro v1 v2 hv1 hv2
    rw [hv1, hv2] at e3
    simp only [Option.map_some', Option.some.injEq] at e3
    omega
  · cases hi1 : immediateOf symbolTable1 PC1 line1 <;>
      cases hi2 : immediateOf symbolTable2 PC2 line2 <;> simp [hi1, hi2] at e3 ⊢
  · intro v hv
    rw [hv] at d3
    simp only [Option.map_some'] at d3
    have hlow := decode_immediate _ _ _ _ d3
    omega

/-- C19, witness: `beq $1,$2,-1` and `beq $1,$2,0xFFFF` are encoded to the same
word 0x1022FFFF; their immediates -1 and 65535, the values of their operand
tokens, are congruent modulo 65536, and the low half of the word is 0xFFFF. -/
theorem encoding_injective_witness :
    (nth [⟨.ID, "beq", 0⟩, ⟨.REG, "$1", 1⟩, ⟨.COMMA, ",", 0⟩, ⟨.REG, "$2", 2⟩,
        ⟨.COMMA, ",", 0⟩, ⟨.INT, "-1", -1⟩] 0).lexeme
      = (nth [⟨.ID, "beq", 0⟩, ⟨.REG, "$1", 1⟩, ⟨.COMMA, ",", 0⟩, ⟨.REG, "$2", 2⟩,
        ⟨.COMMA, ",", 0⟩, ⟨.HEXINT, "0xFFFF", 65535⟩] 0).lexeme ∧
    registersOf [⟨.ID, "beq", 0⟩, ⟨.REG, "$1", 1⟩, ⟨.COMMA, ",", 0⟩, ⟨.REG, "$2", 2⟩,
        ⟨.COMMA, ",", 0⟩, ⟨.INT, "-1", -1⟩]
      = registersOf [⟨.ID, "beq", 0⟩, ⟨.REG, "$1", 1⟩, ⟨.COMMA, ",", 0⟩, ⟨.REG, "$2", 2⟩,
        ⟨.COMMA, ",", 0⟩, ⟨.HEXINT, "0xFFFF", 65535⟩] ∧
    (-1 : Int) % 65536 = 65535 % 65536 ∧
    ((bits32 0x1022FFFF % 65536 : Nat) : Int) = -1 % 65536 :=
  have key := encoding_injective [] [] 0 0
    [⟨.ID, "beq", 0⟩, ⟨.REG, "$1", 1⟩, ⟨.COMMA, ",", 0⟩, ⟨.REG, "$2", 2⟩, ⟨.COMMA, ",", 0⟩,
      ⟨.INT, "-1", -1⟩]
    [⟨.ID, "beq", 0⟩, ⟨.REG, "$1", 1⟩, ⟨.COMMA, ",", 0⟩, ⟨.REG, "$2", 2⟩, ⟨.COMMA, ",", 0⟩,
      ⟨.HEXINT, "0xFFFF", 65535⟩]
    0x1022FFFF (by rfl) (by rfl) (by decide) (by decide) (by decide) (by decide)
  ⟨key.1, key.2.1, key.2.2.1 (-1) 65535 (by rfl) (by rfl), key.2.2.2.2 (-1) (by rfl)⟩

/-! ## C4: which of the two label errors is reported -/

/-- On a line whose labels all come first, the labels before the first
non-label token are all the labels of the line. -/
theorem leadingLabels_of_labelsFirst :
    ∀ (line : TokenLine), labelsFirst line = true →
      leadingLabels line = (line.filter isLabel).map labelNameOf := by
  intro line
  induction line with
  | nil => intro _; rfl
  | cons t rest ih =>
    intro h
    by_cases ht : isLabel t = true
    · rw [labelsFirst_cons_label t rest ht] at h
      rw [leadingLabels_cons_label t rest ht, ih h]
      simp [List.filter, ht]
    · have ht2 : isLabel t = false := by simpa using ht
      have hall := labelsFirst_cons_other t rest ht2 h
      rw [leadingLabels_cons_other t rest ht2]
      have hf : (t :: rest).filter isLabel = [] := by
        rw [List.filter_eq_nil_iff]
        intro u hu
        rcases List.mem_cons.mp hu with rfl | hu
        · simp [ht2]
        · simp [hall u hu]
      rw [hf]
      rfl

/-- The labels before the first non-label token of a line are among the labels
of the line. -/
theorem leadingLabels_sublist (line : TokenLine) :
    (leadingLabels line).Sublist ((line.filter isLabel).map labelNameOf) := by
  induction line with
  | nil => exact List.Sublist.refl _
  | cons t rest ih =>
    by_cases ht : isLabel t = true
    · rw [leadingLabels_cons_label t rest ht]
      simp only [List.filter, ht, List.map_cons]
      exact ih.cons₂ _
    · have ht2 : isLabel t = false := by simpa using ht
      rw [leadingLabels_cons_other t rest ht2]
      exact List.nil_sublist _

/-- When a label before the first non-label token of a line is already defined,
or two such labels have the same name, the token loop throws the
duplicate-label error. -/
theorem firstPassTokens_duplicate (PC : Int) (tokens : TokenLine) (st : Dictionary)
    (h : ¬ leadingFresh st tokens) :
    ∃ name, firstPassTokens PC tokens st [] = .error (duplicateLabelError name) := by
  cases hr : firstPassTokens PC tokens st [] with
  | ok r =>
    obtain ⟨st1, sp1⟩ := r
    obtain ⟨h1, h2⟩ := firstPassTokens_fresh PC tokens st [] st1 sp1 hr
    refine absurd ⟨h2.sublist (leadingLabels_sublist tokens), ?_⟩ h
    intro name hn
    obtain ⟨t, ht, hl, rfl⟩ := mem_lineNames ((leadingLabels_sublist tokens).subset hn)
    exact h1 t ht hl
  | error e =>
    rcases (firstPassTokens_error PC tokens st [] e hr).1 with ⟨name, rfl⟩ | rfl
    · exact ⟨name, rfl⟩
    · exact absurd ((firstPassTokens_misplaced_iff PC tokens st).mp hr).2 h

/-- After the token loop has accepted a line, a name is absent from the table
exactly when it was absent before and is not a label of the line. -/
theorem firstPassTokens_lookup_none (PC : Int) (tokens : TokenLine) (st st1 : Dictionary)
    (sp sp1 : TokenLine) (h : firstPassTokens PC tokens st sp = .ok (st1, sp1)) (name : String) :
    st1.lookupAt name = none ↔
      (st.lookupAt name = none ∧ name ∉ (tokens.filter isLabel).map labelNameOf) := by
  obtain ⟨_, h2, h3, h4⟩ := firstPassTokens_ok PC tokens st sp st1 sp1 h
  constructor
  · intro hn
    constructor
    · cases hs : st.lookupAt name with
      | none => rfl
      | some v => rw [h3 name v hs] at hn; cases hn
    · intro hm
      obtain ⟨t, ht, hl, rfl⟩ := mem_lineNames hm
      rw [h2 t ht hl] at hn
      cases hn
  · rintro ⟨hs, hm⟩
    cases h1 : st1.lookupAt name with
    | none => rfl
    | some v =>
      rcases h4 name v h1 with h5 | ⟨_, t, ht, hl, rfl⟩
      · rw [hs] at h5; cases h5
      · exact absurd (List.mem_map.mpr ⟨t, List.mem_filter.mpr ⟨ht, hl⟩, rfl⟩) hm

/-- The error of a failing first pass: the label-not-first error when the labels
met before the first misplaced label are distinct and absent from the table,
the duplicate-label error otherwise. -/
theorem firstPass_error_kind :
    ∀ (input : List TokenLine) (st : Dictionary) (PC : Int) (code : AssemblyCode)
      (e : ParseError),
    firstPass input st PC code = .error e →
      (((labelsBeforeMisplaced input).Nodup ∧
          ∀ name ∈ labelsBeforeMisplaced input, st.lookupAt name = none) →
        e = misplacedLabelError) ∧
      (¬ ((labelsBeforeMisplaced input).Nodup ∧
          ∀ name ∈ labelsBeforeMisplaced input, st.lookupAt name = none) →
        ∃ name, e = duplicateLabelError name) := by
  intro input
  induction input with
  | nil => intro st PC code e h; simp [firstPass] at h
  | cons line rest ih =>
    intro st PC code e h
    rw [firstPass_cons] at h
    by_cases hfresh : leadingFresh st line
    · by_cases hlf : labelsFirst line = true
      · obtain ⟨st1, htok⟩ := firstPassTokens_accepts PC line st hlf hfresh
        rw [htok] at h
        obtain ⟨PC2, code2, hrest⟩ : ∃ PC2 code2, firstPass rest st1 PC2 code2 = .error e := by
          by_cases hi : (stripLabels line).isEmpty = true
          · exact ⟨PC, code, by simpa [hi] using h⟩
          · exact ⟨PC + 4, code ++ [stripLabels line], by simpa [hi] using h⟩
        have hiff : ((labelsBeforeMisplaced (line :: rest)).Nodup ∧
            ∀ name ∈ labelsBeforeMisplaced (line :: rest), st.lookupAt name = none) ↔
            ((labelsBeforeMisplaced rest).Nodup ∧
              ∀ name ∈ labelsBeforeMisplaced rest, st1.lookupAt name = none) := by
          have hl := leadingLabels_of_labelsFirst line hlf
          have hnone := firstPassTokens_lookup_none PC line st st1 [] _ htok
          rw [← hl] at hnone
          obtain ⟨hnd, habs⟩ := hfresh
          simp only [labelsBeforeMisplaced, hlf, if_true, List.nodup_append, List.mem_append,
            hnone]
          constructor
          · rintro ⟨⟨_, h2, h3⟩, h4⟩
            exact ⟨h2, fun name hn => ⟨h4 name (Or.inr hn), fun hm => h3 hm hn⟩⟩
          · rintro ⟨h2, h4⟩
            refine ⟨⟨hnd, h2, fun name hm hn => (h4 name hn).2 hm⟩, ?_⟩
            rintro name (hm | hn)
            · exact habs name hm
            · exact (h4 name hn).1
        rw [hiff]
        exact ih st1 PC2 code2 e hrest
      · have hlf2 : labelsFirst line = false := by simpa using hlf
        have htok := (firstPassTokens_misplaced_iff PC line st).mpr ⟨hlf2, hfresh⟩
        rw [htok] at h
        simp only [Except.error.injEq] at h
        subst h
        refine ⟨fun _ => rfl, fun hn => absurd ?_ hn⟩
        simp only [labelsBeforeMisplaced, hlf2]
        exact hfresh
    · obtain ⟨name, htok⟩ := firstPassTokens_duplicate PC line st hfresh
      rw [htok] at h
      simp only [Except.error.injEq] at h
      subst h
      refine ⟨fun hc => absurd ?_ hfresh, fun _ => ⟨name, rfl⟩⟩
      obtain ⟨h1, h2⟩ := hc
      by_cases hlf : labelsFirst line = true
      · simp only [labelsBeforeMisplaced, hlf, if_true, List.nodup_append, List.mem_append]
          at h1 h2
        exact ⟨h1.1, fun name hn => h2 name (Or.inl hn)⟩
      · have hlf2 : labelsFirst line = false := by simpa using hlf
        simp only [labelsBeforeMisplaced, hlf2] at h1 h2
        exact ⟨h1, h2⟩

/-- When no label follows a non-label token on its line, the labels met before
the first misplaced label are all the labels of the source. -/
theorem labelsBeforeMisplaced_of_labelsFirst :
    ∀ (input : List TokenLine), (∀ line ∈ input, labelsFirst line = true) →
      labelsBeforeMisplaced input = labelNames input := by
  intro input
  induction input with
  | nil => intro _; rfl
  | cons line rest ih =>
    intro h
    have hlf := h line (List.mem_cons_self _ _)
    rw [labelNames_cons, ← leadingLabels_of_labelsFirst line hlf,
      ← ih (fun l hl => h l (List.mem_cons_of_mem _ hl))]
    simp [labelsBeforeMisplaced, hlf]

/-- The labels met before the first misplaced label are all the labels of the
source unless some line holds a label after a non-label token. -/
theorem labelsBeforeMisplaced_ne (input : List TokenLine)
    (h : labelsBeforeMisplaced input ≠ labelNames input) :
    ∃ line ∈ input, labelAfterInstruction line := by
  by_contra hc
  apply h
  apply labelsBeforeMisplaced_of_labelsFirst
  intro line hl
  by_contra hlf
  exact hc ⟨line, hl, (labelsFirst_false_iff line).mp (by simpa using hlf)⟩

/-- C4 (amended): when the same label name occurs in two LABEL tokens of the
input, the run fails in the first pass and writes nothing.  The error is the
duplicate-label error when a name occurs twice among the LABEL tokens met
before the first LABEL token that follows a non-label token on its line, in
particular when the input has no such token; otherwise some line holds a
LABEL token after a non-label token and the error is the label-not-first
error. -/
theorem duplicate_label_fails (input : List TokenLine) (hdup : ¬ (labelNames input).Nodup) :
    (main input).output = [] ∧
    (¬ (labelsBeforeMisplaced input).Nodup →
      ∃ name, (main input).status = .error (duplicateLabelError name)) ∧
    ((labelsBeforeMisplaced input).Nodup →
      (main input).status = .error misplacedLabelError ∧
      ∃ line ∈ input, labelAfterInstruction line) ∧
    ((∀ line ∈ input, labelsFirst line = true) →
      ∃ name, (main input).status = .error (duplicateLabelError name)) := by
  cases h : firstPass input [] 0 [] with
  | ok r =>
    obtain ⟨st, code⟩ := r
    exact absurd (firstPass_fresh input [] 0 [] st code h).2 hdup
  | error e =>
    obtain ⟨h1, h2⟩ := firstPass_error_kind input [] 0 [] e h
    have hm : main input = ⟨[], .error e⟩ := by simp [main, h]
    have hnone : ∀ name ∈ labelsBeforeMisplaced input, Dictionary.lookupAt [] name = none :=
      fun _ _ => rfl
    rw [hm]
    refine ⟨rfl, ?_, ?_, ?_⟩
    · intro hn
      obtain ⟨name, rfl⟩ := h2 (fun hc => hn hc.1)
      exact ⟨name, rfl⟩
    · intro hn
      rw [h1 ⟨hn, hnone⟩]
      exact ⟨rfl, labelsBeforeMisplaced_ne input (fun hc => hdup (hc ▸ hn))⟩
    · intro hc
      obtain ⟨name, rfl⟩ := h2 (fun hn =>
        hdup (labelsBeforeMisplaced_of_labelsFirst input hc ▸ hn.1))
      exact ⟨name, rfl⟩

/-- C4, witness: the label `a` defined on the first and on the second line, before
a third line `jr $31 b:`, is reported as a duplicate. -/
theorem duplicate_label_fails_witness :
    ¬ (labelNames sourceDuplicateBeforeMisplaced).Nodup ∧
    ¬ (labelsBeforeMisplaced sourceDuplicateBeforeMisplaced).Nodup ∧
    (main sourceDuplicateBeforeMisplaced).output = [] ∧
    (∃ name, (main sourceDuplicateBeforeMisplaced).status
      = .error (duplicateLabelError name)) ∧
    (main sourceDuplicateBeforeMisplaced).status = .error (duplicateLabelError "a") :=
  ⟨by decide, by decide,
    (duplicate_label_fails sourceDuplicateBeforeMisplaced (by decide)).1,
    (duplicate_label_fails sourceDuplicateBeforeMisplaced (by decide)).2.1 (by decide),
    by rfl⟩

end Asm
